import Mathlib

/-!
# Verification of the chassis pipeline

A shallow embedding of the chassis CLI's parse / validate / export / generate
pipeline, translated from the Go sources, together with proofs of the
specification's testable properties.

Conventions of the embedding:
* Go strings are Lean `String`s; line processing works over `List Char`
  (identical to Go's rune iteration for the ASCII characters the code
  inspects).
* Go machine integers are `Nat` (all the counters involved are non-negative
  and never near overflow).
* Fallible Go functions returning `(T, error)` become `Except E T`;
  functions returning a bare `error` become `Option E`.
* `runtime.GOOS == "windows"` becomes an explicit `windows : Bool` parameter
  threaded through the validator.
* Mutation of `*Node` values (in-place sorting by the exporter, path
  rewriting) is modelled by returning the updated tree alongside the other
  outputs.
-/

set_option maxHeartbeats 1000000

namespace Chassis

/-! ## Data model: `parse.Node` (internal/parse/parser.go)

`Node` mirrors the Go struct field for field.  `children` makes it a nested
inductive, so the struct becomes a single-constructor inductive with explicit
projections. -/

/-- `parse.Node`: a single entry in the directory tree. -/
inductive Node where
  | mk (name : String) (isDir : Bool) (children : List Node)
       (path : String) (line : Nat)
deriving Repr

/-- Field `Node.Name`. -/
def Node.name : Node → String
  | .mk n _ _ _ _ => n

/-- Field `Node.IsDir`. -/
def Node.isDir : Node → Bool
  | .mk _ d _ _ _ => d

/-- Field `Node.Children`. -/
def Node.children : Node → List Node
  | .mk _ _ cs _ _ => cs

/-- Field `Node.Path`. -/
def Node.path : Node → String
  | .mk _ _ _ p _ => p

/-- Field `Node.Line`. -/
def Node.line : Node → Nat
  | .mk _ _ _ _ l => l

/-! ## Errors of the plain-text parser (internal/parse/errors.go)

Only the data relevant to the parse result is modelled: `ParseError` carries
line and message, `IndentationError` carries line, column and the
expected/got pair (the `Error()` rendering is presentation only). -/

/-- Parse-time errors: `ParseError` and its `IndentationError` specialization. -/
inductive PError where
  | parseError (line : Nat) (message : String)
  | indentationError (line col expected got : Nat)
deriving Repr, DecidableEq

/-! ## Plain-text parser (internal/parse/plaintext.go) -/

/-- Whitespace set of Go's `unicode.IsSpace` restricted to ASCII, used by
`strings.TrimSpace`.  (The Unicode space classes beyond ASCII never appear in
the properties below.) -/
def isGoSpace (c : Char) : Bool :=
  c = ' ' || c = '\t' || c = '\n' || c = Char.ofNat 11 || c = Char.ofNat 12 || c = '\r'

/-- `strings.TrimSpace` on a list of characters. -/
def trimSpace (cs : List Char) : List Char :=
  ((cs.dropWhile isGoSpace).reverse.dropWhile isGoSpace).reverse

/-- `parsedLine`: one pre-processed input line. -/
structure ParsedLine where
  content : List Char
  indent : Nat
  indentChar : Char
  isDir : Bool
  isComment : Bool
  lineNum : Nat
deriving Repr, DecidableEq

/-- The leading-whitespace scan of `PlainTextParser.parseLine`: walks the
line, counting `' '`/`'\t'` characters, recording the first whitespace kind
seen and failing on the first differing whitespace character (reported at its
1-indexed column, with both characters).  `i` is the current index, `ic` the
recorded indent character (`none` for Go's zero value). -/
def scanIndent (lineNum : Nat) : List Char → Nat → Option Char →
    Except PError (Nat × Option Char)
  | [], i, ic => .ok (i, ic)
  | c :: cs, i, ic =>
    if c = ' ' || c = '\t' then
      match ic with
      | none => scanIndent lineNum cs (i + 1) (some c)
      | some c0 =>
        if c0 = c then scanIndent lineNum cs (i + 1) (some c0)
        else .error (.indentationError lineNum (i + 1) c0.toNat c.toNat)
    else .ok (i, ic)

/-- `PlainTextParser.parseLine`: classify one line.  Counts leading
whitespace (erroring on an in-line tab/space mix), trims the content, marks
comments (`#`), strips a trailing `/` as the directory marker, and rejects
empty names and names containing `/`. -/
def parseLine (text : List Char) (lineNum : Nat) : Except PError ParsedLine := do
  let (ind, ic) ← scanIndent lineNum text 0 none
  let content := trimSpace text
  if content.head? = some '#' then
    return { content := content, indent := ind, indentChar := ic.getD (Char.ofNat 0),
             isDir := false, isComment := true, lineNum := lineNum }
  let (isDir, content) :=
    if content.getLast? = some '/' then (true, content.dropLast) else (false, content)
  if content = [] then
    throw (.parseError lineNum "empty name after trimming")
  if content.contains '/' then
    throw (.parseError lineNum
      ("invalid name " ++ String.mk content ++
        ": names cannot contain / except at the end for directories"))
  return { content := content, indent := ind, indentChar := ic.getD (Char.ofNat 0),
           isDir := isDir, isComment := false, lineNum := lineNum }

/-- Split input into lines the way `bufio.Scanner` with `ScanLines` does:
split on `'\n'` and strip one trailing `'\r'` from each line.  (An input
ending in `'\n'` yields one extra empty component here; it is skipped as a
blank line, so the parse result is unaffected.) -/
def splitLinesAux : List Char → List (List Char)
  | [] => [[]]
  | c :: cs =>
    if c = '\n' then [] :: splitLinesAux cs
    else
      match splitLinesAux cs with
      | l :: ls => (c :: l) :: ls
      | [] => [[c]]

/-- Strip a single trailing carriage return (`bufio.ScanLines` `dropCR`). -/
def dropCR (cs : List Char) : List Char :=
  if cs.getLast? = some '\r' then cs.dropLast else cs

/-- All input lines, in order. -/
def splitLines (s : String) : List (List Char) :=
  (splitLinesAux s.data).map dropCR

/-- First pass of `PlainTextParser.Parse`: number the lines, skip blank
lines, parse the rest, and drop comments. -/
def collectLines : List (List Char) → Nat → Except PError (List ParsedLine)
  | [], _ => .ok []
  | l :: ls, n => do
    if trimSpace l = [] then
      collectLines ls (n + 1)
    else
      let pl ← parseLine l n
      let rest ← collectLines ls (n + 1)
      if pl.isComment then return rest
      return pl :: rest

/-- `PlainTextParser.detectIndentation`: the width is the first positive
difference in indentation between two consecutive kept lines, defaulting to 2
when no such difference exists (`IndentWidth <= 0` after the scan). -/
def detectIndentation : List ParsedLine → Int
  | l0 :: l1 :: ls =>
    if l1.indent > l0.indent then (l1.indent : Int) - (l0.indent : Int)
    else detectIndentation (l1 :: ls)
  | _ => 0

/-- A frame of the tree-building stack: an in-progress node whose children
built so far are kept in reverse order.  (Go keeps `*Node` pointers and
mutates them; the frame is the immutable rendering of the same state.) -/
structure Frame where
  name : String
  isDir : Bool
  line : Nat
  path : String
  childrenRev : List Node
deriving Repr

/-- Close a frame into a finished `Node`. -/
def Frame.close (f : Frame) : Node :=
  .mk f.name f.isDir f.childrenRev.reverse f.path f.line

/-- State of the `buildTree` loop: finished roots (reversed) and the stack of
open frames (innermost first). -/
structure BState where
  rootsRev : List Node
  spine : List Frame
deriving Repr

/-- Close the innermost open frame, attaching the closed node to its parent
frame (or to the finished roots when it is the last frame). -/
def popOne (st : BState) : BState :=
  match st.spine with
  | [] => st
  | [f] => ⟨f.close :: st.rootsRev, []⟩
  | f :: g :: gs =>
    ⟨st.rootsRev, { g with childrenRev := f.close :: g.childrenRev } :: gs⟩

/-- Pop `n` frames. -/
def popN (st : BState) : Nat → BState
  | 0 => st
  | n + 1 => popN (popOne st) n

/-- Pop open frames until at most `depth` remain.  This is the
`for len(stack) > depth` pop loop of `buildTree` (each iteration removes one
frame, so the loop runs `len - depth` times). -/
def collapseTo (st : BState) (depth : Nat) : BState :=
  popN st (st.spine.length - depth)

/-- One iteration of the `buildTree` loop: compute the depth of the line
(erroring when the indentation is not a multiple of the width — the second
`NewIndentationError` call site, which packs the width and the remainder into
the expected/got fields), pop the stack, reject depth jumps, reject children
of files, and push the new node's frame.  Child paths are
`parent.Path + "/" + name`; root nodes keep the zero-value path `""`. -/
def buildStep (width : Nat) (st : BState) (l : ParsedLine) : Except PError BState := do
  let depth ←
    if l.indent > 0 then
      if l.indent % width ≠ 0 then
        throw (.indentationError l.lineNum l.indent width (l.indent % width))
      else pure (l.indent / width)
    else pure 0
  let st := collapseTo st depth
  if depth > st.spine.length then
    throw (.parseError l.lineNum
      ("invalid indentation: jumped from level " ++ toString st.spine.length ++
        " to " ++ toString depth ++ " (can only increase by 1)"))
  if depth = 0 then
    return { st with spine := [⟨String.mk l.content, l.isDir, l.lineNum, "", []⟩] }
  else
    match st.spine with
    | [] => throw (.parseError l.lineNum "impossible: empty stack at positive depth")
    | parent :: _ =>
      if !parent.isDir then
        throw (.parseError l.lineNum
          ("cannot add children to file " ++ parent.name ++
            " (only directories can have children)"))
      else
        return { st with
          spine := ⟨String.mk l.content, l.isDir, l.lineNum,
                    parent.path ++ "/" ++ String.mk l.content, []⟩ :: st.spine }

/-- The `buildTree` loop over all lines. -/
def buildLoop (width : Nat) (st : BState) : List ParsedLine → Except PError BState
  | [] => .ok st
  | l :: ls => do buildLoop width (← buildStep width st l) ls

/-- `PlainTextParser.buildTree`: check the first line is unindented, run the
loop, and close whatever frames remain open. -/
def buildTree (width : Nat) (lines : List ParsedLine) : Except PError (List Node) := do
  match lines with
  | [] => return []
  | l0 :: _ =>
    if l0.indent > 0 then
      throw (.parseError l0.lineNum "first line must not be indented")
    let st ← buildLoop width ⟨[], []⟩ lines
    return (collapseTo st 0).rootsRev.reverse

/-- `PlainTextParser`: configured indent width (Go `int`; `<= 0` requests
auto-detection, mirroring `NewPlainTextParser`). -/
structure PlainTextParser where
  IndentWidth : Int
  AutoDetect : Bool

/-- `NewPlainTextParser`. -/
def NewPlainTextParser (indentWidth : Int) : PlainTextParser :=
  { IndentWidth := indentWidth, AutoDetect := indentWidth ≤ 0 }

/-- `PlainTextParser.Parse`: read and classify the lines, auto-detect the
width if requested, and build the forest. -/
def PlainTextParser.Parse (p : PlainTextParser) (input : String) :
    Except PError (List Node) := do
  let lines ← collectLines (splitLines input) 1
  if lines = [] then
    return []
  let width : Int :=
    if p.AutoDetect then
      let w := detectIndentation lines
      if w ≤ 0 then 2 else w
    else p.IndentWidth
  buildTree width.toNat lines

/-- `parse.Parse` with `FormatPlainText` (parser.go): the plain-text parser
with the default 2-space indentation. -/
def plainParse (input : String) : Except PError (List Node) :=
  (NewPlainTextParser 2).Parse input

/-! ## Exporter (internal/analyze/export.go)

`sortNodes` calls Go's (unstable) `sort.Slice` in place.  The embedding uses
a deterministic sort with the same comparator; any sorted permutation is a
faithful rendering of `sort.Slice`'s contract, and the two agree whenever the
comparator separates all pairs.  In-place mutation of the `[]*parse.Node`
slices is modelled by returning the updated forest next to the rendered
output. -/

/-- `strings.ToLower` (ASCII case mapping, the only one exercised here). -/
def lowerStr (s : String) : String := String.mk (s.data.map Char.toLower)

/-- The `sort.Slice` comparator of `sortNodes`: directories before files,
then case-insensitive lexicographic order on the name. -/
def nodeLess (a b : Node) : Bool :=
  if a.isDir != b.isDir then a.isDir
  else decide (lowerStr a.name < lowerStr b.name)

/-- `sortNodes`: sort a sibling list with `nodeLess`. -/
def sortNodes (l : List Node) : List Node :=
  List.insertionSort (fun a b => nodeLess b a = false) l

theorem sizeOf_perm {α : Type} [SizeOf α] {l₁ l₂ : List α} (h : l₁.Perm l₂) :
    sizeOf l₁ = sizeOf l₂ := by
  induction h with
  | nil => rfl
  | cons x _ ih => simp [ih]
  | swap x y l => simp; omega
  | trans _ _ ih₁ ih₂ => omega

theorem sizeOf_sortNodes (l : List Node) : sizeOf (sortNodes l) = sizeOf l :=
  sizeOf_perm (List.perm_insertionSort _ l)

theorem sizeOf_children (nm : String) (d : Bool) (cs : List Node) (p : String) (li : Nat) :
    sizeOf cs < sizeOf (Node.mk nm d cs p li) := by
  simp [Node.mk.sizeOf_spec]; omega

mutual

/-- `Exporter.writeSimpleTreeNode`: two-space indentation, `/`-suffixed
directory names, children sorted in place before the recursive walk.  The
second component is the node after the walk (it carries the in-place
`sortNodes` mutations). -/
def writeSimpleTreeNode (n : Node) (depth : Nat) : String × Node :=
  match n with
  | .mk nm d cs p li =>
    let indent := String.mk (List.replicate (2 * depth) ' ')
    let name := if d then nm ++ "/" else nm
    let (out, cs') := writeSimpleForest (sortNodes cs) (depth + 1)
    (indent ++ name ++ "\n" ++ out, .mk nm d cs' p li)
termination_by sizeOf n
decreasing_by simp only [sizeOf_sortNodes, Node.mk.sizeOf_spec]; omega

/-- The `for _, child := range node.Children` loop of `writeSimpleTreeNode`. -/
def writeSimpleForest (l : List Node) (depth : Nat) : String × List Node :=
  match l with
  | [] => ("", [])
  | x :: xs =>
    let (o₁, x') := writeSimpleTreeNode x depth
    let (o₂, xs') := writeSimpleForest xs depth
    (o₁ ++ o₂, x' :: xs')
termination_by sizeOf l
decreasing_by all_goals (simp only [List.cons.sizeOf_spec]; omega)

end

/-- `Exporter.ToTreeSimple`: sort the root list in place, then render each
root at depth 0.  Returns the rendered text and the post-call forest. -/
def ToTreeSimple (nodes : List Node) : String × List Node :=
  writeSimpleForest (sortNodes nodes) 0

mutual

/-- `Exporter.writeTreeNode`: the box-drawing tree renderer.  `indent` and
`isLast` follow the Go signature; children are sorted in place. -/
def writeTreeNode (n : Node) (indent : String) (isLast : Bool) : String × Node :=
  match n with
  | .mk nm d cs p li =>
    let name := if d then nm ++ "/" else nm
    let line :=
      if indent = "" then name ++ "\n"
      else if isLast then indent ++ "└── " ++ name ++ "\n"
      else indent ++ "├── " ++ name ++ "\n"
    let childIndent :=
      if indent = "" then ""
      else if isLast then indent ++ "    " else indent ++ "│   "
    let (out, cs') := writeTreeForest (sortNodes cs) childIndent
    (line ++ out, .mk nm d cs' p li)
termination_by sizeOf n
decreasing_by simp only [sizeOf_sortNodes, Node.mk.sizeOf_spec]; omega

/-- The children loop of `writeTreeNode` (`isChildLast` marks the final
element). -/
def writeTreeForest (l : List Node) (indent : String) : String × List Node :=
  match l with
  | [] => ("", [])
  | x :: xs =>
    let (o₁, x') := writeTreeNode x indent xs.isEmpty
    let (o₂, xs') := writeTreeForest xs indent
    (o₁ ++ o₂, x' :: xs')
termination_by sizeOf l
decreasing_by all_goals (simp only [List.cons.sizeOf_spec]; omega)

end

/-- The root loop of `Exporter.ToTree` (each root is rendered with empty
starting indent and `isLast = true`). -/
def toTreeRoots : List Node → String × List Node
  | [] => ("", [])
  | x :: xs =>
    let (o₁, x') := writeTreeNode x "" true
    let (o₂, xs') := toTreeRoots xs
    (o₁ ++ o₂, x' :: xs')

/-- `Exporter.ToTree`: sort the root list in place, then render every root. -/
def ToTree (nodes : List Node) : String × List Node :=
  toTreeRoots (sortNodes nodes)

/-- Values of the nested map structure produced by `Exporter.nodesToMap` for
the YAML/JSON marshalers: a file maps to `nil`, a directory to a nested map.
The Go `map[string]interface\x7b\x7d` is rendered as an association list in
the (sorted) insertion order of the loop. -/
inductive MapVal where
  | null
  | map (entries : List (String × MapVal))
deriving Repr

mutual

/-- `Exporter.nodesToMap`: sort the list in place, then map directories to
nested maps (empty directories to empty maps) and files to `nil`.  The second
component is the post-call forest. -/
def nodesToMap (nodes : List Node) : List (String × MapVal) × List Node :=
  nodesToMapLoop (sortNodes nodes)
termination_by (sizeOf nodes, 1)
decreasing_by simp only [sizeOf_sortNodes]; omega

/-- The `for _, node := range nodes` loop of `nodesToMap`. -/
def nodesToMapLoop (l : List Node) : List (String × MapVal) × List Node :=
  match l with
  | [] => ([], [])
  | .mk nm d cs p li :: xs =>
    let (entry, cs') :=
      if d then
        let (m, cs') := nodesToMap cs
        ((nm, MapVal.map m), cs')
      else ((nm, MapVal.null), cs)
    let (rest, xs') := nodesToMapLoop xs
    ((nm, entry.2) :: rest, .mk nm d cs' p li :: xs')
termination_by (sizeOf l, 0)
decreasing_by
  · simp [Node.mk.sizeOf_spec]; omega
  · simp; omega

end

/-- `Exporter.ToYAML` / `Exporter.ToJSON`: both build `nodesToMap` and hand
it to an external marshaler (`yaml.Marshal` / `json.MarshalIndent`), which is
outside the pipeline; the observable pipeline effect is the map and the
mutated forest. -/
def ToMapExport (nodes : List Node) : List (String × MapVal) × List Node :=
  nodesToMap nodes

/-! ## Validator (internal/validate/validate.go)

`runtime.GOOS == "windows"` is the explicit parameter `windows`.  Go's
`filepath.Join(parent, name)` is modelled as slash-concatenation (with the
empty parent giving the bare name); this is exactly `filepath.Join` whenever
`name` is a path segment without `/` and other than `"."`/`".."` — the
well-formedness hypotheses of the theorems below stay inside that domain, and
counterexamples use only such names.  The validator's rewrite of `node.Path`
has no effect on the returned error and is not tracked.  Error messages that
Go renders with quoted names are modelled without the quote characters; the
carried data (path, kind) is unchanged. -/

/-- `ValidationError.Type`. -/
inductive ErrorType where
  | duplicatePath
  | pathTooLong
  | pathTraversal
  | invalidCharacters
  | reservedName
deriving Repr, DecidableEq

/-- `validate.ValidationError`. -/
structure ValidationError where
  path : String
  message : String
  type : ErrorType
deriving Repr, DecidableEq

/-- `strings.HasPrefix pat s`-style check, over character lists (Lean's
`String.startsWith` does not reduce in the kernel). -/
def goHasPre : List Char → List Char → Bool
  | [], _ => true
  | _ :: _, [] => false
  | c :: cs, d :: ds => c = d && goHasPre cs ds

/-- `filepath.Join` on a parent path and one well-formed segment. -/
def goJoin (parent name : String) : String :=
  if parent = "" then name else parent ++ "/" ++ name

/-- `validator.validatePathCharacters`: NUL bytes, Windows-forbidden
characters, Windows trailing dot/space, and control characters.  Returns the
error message, `none` when the name is clean. -/
def validatePathCharacters (windows : Bool) (name : String) : Option String :=
  if name.data.contains (Char.ofNat 0) then
    some "null bytes not allowed in path"
  else
    let winErr : Option String :=
      if windows then
        match ("<>:\"|?*".data.find? fun c => name.data.contains c) with
        | some c => some ("character " ++ String.mk [c] ++ " not allowed in Windows paths")
        | none =>
          if name.data.getLast? = some '.' || name.data.getLast? = some ' ' then
            some "paths cannot end with dots or spaces on Windows"
          else none
      else none
    match winErr with
    | some e => some e
    | none =>
      if name.data.any (fun c => c.toNat < 32) then
        some "control characters not allowed in paths"
      else none

/-- The Windows reserved device names. -/
def reservedNames : List String :=
  ["CON", "PRN", "AUX", "NUL",
   "COM1", "COM2", "COM3", "COM4", "COM5", "COM6", "COM7", "COM8", "COM9",
   "LPT1", "LPT2", "LPT3", "LPT4", "LPT5", "LPT6", "LPT7", "LPT8", "LPT9"]

/-- `filepath.Ext` on a bare segment: the suffix from the final dot
(inclusive), empty when there is no dot. -/
def goExt (name : String) : String :=
  let rev := name.data.reverse
  let revTail := rev.takeWhile (· ≠ '.')
  if revTail.length = rev.length then "" else String.mk ('.' :: revTail.reverse)

/-- `strings.ToUpper` (ASCII case mapping). -/
def upperStr (s : String) : String := String.mk (s.data.map Char.toUpper)

/-- `validator.validateWindowsReservedNames`: the upper-cased,
extension-stripped base name must avoid the reserved list. -/
def validateWindowsReservedNames (name : String) : Option String :=
  let baseName := upperStr (String.mk (name.data.take (name.data.length - (goExt name).length)))
  if reservedNames.contains baseName then
    some (name ++ " is a reserved name on Windows")
  else none

/-- `validator.validatePathLength`: 260 bytes on Windows, 4096 elsewhere. -/
def validatePathLength (windows : Bool) (path : String) : Option String :=
  let maxLen := if windows then 260 else 4096
  if path.data.length > maxLen then
    some ("path length " ++ toString path.data.length ++ " exceeds maximum of " ++ toString maxLen)
  else none

/-- State of the validator: the set of normalized paths seen so far (the Go
`paths` map, kept as the list of insertions) and the accumulated errors. -/
structure VState where
  paths : List String
  errors : List ValidationError
deriving Repr

mutual

/-- `validator.validateNode`: recompute the full path, then (in order) reject
empty names, path traversal, invalid characters, Windows reserved names,
over-long paths and duplicate paths, and only then recurse into the
children.  Any failure records one error and abandons the subtree. -/
def validateNode (windows : Bool) (node : Node) (parentPath : String) (st : VState) : VState :=
  match node with
  | .mk name _ children _ _ =>
    let fullPath := goJoin parentPath name
    if name = "" then
      { st with errors := st.errors ++ [⟨parentPath, "empty name not allowed", .invalidCharacters⟩] }
    else if name = ".." || goHasPre "../".data name.data then
      { st with errors := st.errors ++
          [⟨fullPath, "path traversal not allowed: " ++ name, .pathTraversal⟩] }
    else
      match validatePathCharacters windows name with
      | some msg =>
        { st with errors := st.errors ++ [⟨fullPath, msg, .invalidCharacters⟩] }
      | none =>
        match (if windows then validateWindowsReservedNames name else none) with
        | some msg =>
          { st with errors := st.errors ++ [⟨fullPath, msg, .reservedName⟩] }
        | none =>
          match validatePathLength windows fullPath with
          | some msg =>
            { st with errors := st.errors ++ [⟨fullPath, msg, .pathTooLong⟩] }
          | none =>
            let pathKey := if windows then lowerStr fullPath else fullPath
            if st.paths.contains pathKey then
              { st with errors := st.errors ++ [⟨fullPath, "duplicate path", .duplicatePath⟩] }
            else
              validateForest windows children fullPath
                { st with paths := st.paths ++ [pathKey] }

/-- The child loop of `validateNode` / the root loop of `Validate`. -/
def validateForest (windows : Bool) (nodes : List Node) (parentPath : String) (st : VState) : VState :=
  match nodes with
  | [] => st
  | n :: ns => validateForest windows ns parentPath (validateNode windows n parentPath st)

end

/-- `validate.Validate`: validate every root against the empty parent path
and return the first accumulated error (`nil` when there is none). -/
def Validate (windows : Bool) (nodes : List Node) : Option ValidationError :=
  (validateForest windows nodes "" ⟨[], []⟩).errors.head?

/-! ## Map-based parsers (JSON parser and YAML parser)

The byte-level decoders (`encoding/json.Unmarshal`, `yaml.v3.Unmarshal`) are
external library code; the embedding starts from the decoded generic value.
`JValue` covers everything `json.Unmarshal` can put into an `interface`
value (JSON numbers always decode as `float64`); a decoded `nil` root is
`JValue.null`.  Go map iteration is unordered, so a decoded object is an
association list with pairwise-distinct keys; the parsers sort the keys
before use.  Sorting the key/value pairs by key is identical to Go's
sort-the-keys-then-look-up whenever the keys are distinct, which a decoded
map guarantees.  `yaml.v3` with an `interface` target decodes mappings as
`map[string]interface` values, so the `map[interface]interface` conversion
branch of `parseMap` never fires and is not modelled. -/

/-- A decoded generic JSON/YAML value. -/
inductive JValue where
  | obj (entries : List (String × JValue))
  | arr (elems : List JValue)
  | str (s : String)
  | num
  | boolV (b : Bool)
  | null
deriving Repr

/-- Go's `%T` rendering of the decoded value (used in error messages). -/
def goTypeName : JValue → String
  | .obj _ => "map[string]interface \x7b\x7d"
  | .arr _ => "[]interface \x7b\x7d"
  | .str _ => "string"
  | .num => "float64"
  | .boolV _ => "bool"
  | .null => "<nil>"

/-- `sort.Strings` over the key/value pairs: stable sort by key. -/
def sortEntries (l : List (String × JValue)) : List (String × JValue) :=
  List.insertionSort (fun a b => a.1 ≤ b.1) l

theorem sizeOf_sortEntries (l : List (String × JValue)) :
    sizeOf (sortEntries l) = sizeOf l :=
  sizeOf_perm (List.perm_insertionSort _ l)

/-- The path assignment shared by both map parsers: `Path` is the bare name
for roots, `parentPath/name` below. -/
def mapPath (parentPath name : String) : String :=
  if parentPath = "" then name else parentPath ++ "/" ++ name

mutual

/-- `JSONParser.parseObject`: keys in sorted order; object values are
directories (an empty object is an explicitly empty directory), `null` and
`""` are files, anything else is a hard error naming the key. -/
def parseObject (obj : List (String × JValue)) (parentPath : String) :
    Except String (List Node) :=
  parseObjectLoop (sortEntries obj) parentPath
termination_by (sizeOf obj, 1)
decreasing_by simp only [sizeOf_sortEntries]; omega

/-- The key loop of `parseObject`. -/
def parseObjectLoop (l : List (String × JValue)) (parentPath : String) :
    Except String (List Node) :=
  match l with
  | [] => .ok []
  | (name, v) :: rest => do
    let path := mapPath parentPath name
    let node : Node ←
      match v with
      | .obj entries =>
        if entries.isEmpty then
          pure (Node.mk name true [] path 0)
        else do
          let children ← parseObject entries path
          pure (Node.mk name true children path 0)
      | .null => pure (Node.mk name false [] path 0)
      | .str s =>
        if s = "" then pure (Node.mk name false [] path 0)
        else throw ("unexpected string value for " ++ name ++
          ": files should have null or empty string value, got \"" ++ s ++ "\"")
      | other => throw ("unexpected value type for " ++ name ++ ": " ++
          goTypeName other ++ " (use null for files, \x7b\x7d for directories)")
    let rest' ← parseObjectLoop rest parentPath
    return node :: rest'
termination_by (sizeOf l, 0)
decreasing_by
  · simp; omega
  · simp; omega

end

/-- `JSONParser.Parse` on the decoded root value: `nil` gives an empty
forest, an object parses, an array or any scalar is a hard error. -/
def JSONParser.Parse (content : JValue) : Except String (List Node) :=
  match content with
  | .null => .ok []
  | .obj v => parseObject v ""
  | .arr _ => .error "JSON root must be an object, not an array"
  | other => .error ("unexpected JSON root type: " ++ goTypeName other)

mutual

/-- `YAMLParser.parseMap`: same structure as `parseObject`; the only
differences are the error texts and the absence of the explicit
empty-object special case (recursing on zero entries yields the same
childless directory). -/
def parseMap (m : List (String × JValue)) (parentPath : String) :
    Except String (List Node) :=
  parseMapLoop (sortEntries m) parentPath
termination_by (sizeOf m, 1)
decreasing_by simp only [sizeOf_sortEntries]; omega

/-- The key loop of `parseMap`. -/
def parseMapLoop (l : List (String × JValue)) (parentPath : String) :
    Except String (List Node) :=
  match l with
  | [] => .ok []
  | (name, v) :: rest => do
    let path := mapPath parentPath name
    let node : Node ←
      match v with
      | .obj entries => do
        let children ← parseMap entries path
        pure (Node.mk name true children path 0)
      | .null => pure (Node.mk name false [] path 0)
      | .str s =>
        if s = "" then pure (Node.mk name false [] path 0)
        else throw ("unexpected string value for " ++ name ++
          ": files should have null or empty string value")
      | other => throw ("unexpected value type for " ++ name ++ ": " ++
          goTypeName other ++ " (use null for files, \x7b\x7d for empty directories)")
    let rest' ← parseMapLoop rest parentPath
    return node :: rest'
termination_by (sizeOf l, 0)
decreasing_by
  · simp; omega
  · simp; omega

end

/-- `YAMLParser.Parse` on the decoded root value. -/
def YAMLParser.Parse (content : JValue) : Except String (List Node) :=
  match content with
  | .null => .ok []
  | .obj v => parseMap v ""
  | .arr _ => .error "YAML root must be an object, not an array"
  | other => .error ("unexpected YAML root type: " ++ goTypeName other)

/-! ## Generator (generate.go) and the `fsutil` helpers
(`internal/analyze/filter.go`, package fsutil)

`SafeMkdir`, `SafeCreateFile`, `PathExists` and `EnsureDir` are translated
from `filter.go`.  The `os`/`path/filepath` standard-library primitives they
call are not part of the repository and are modelled: the filesystem is a
set of directory paths and a set of file paths, each a list of segments
(`filepath.Join(parent, name)` appends one segment, exact for the non-empty
slash-free names the theorems below require; `filepath.Abs` is the identity
on the already-absolute target paths the model uses), and a fault set lists
the paths on which the primitives fail, with "permission denied" as the
modelled rendering of the OS error string.  `os.Stat` is modelled as
failing only with not-exists on absent paths, so `SafeMkdir`'s
"failed to check directory" branch is unreachable in the model. -/

/-- A filesystem path as its list of segments. -/
abbrev FPath := List String

/-- The modelled filesystem: existing directories, existing files, and the
fault set of the OS model. -/
structure FS where
  dirs : List FPath
  files : List FPath
  faults : List FPath
deriving Repr, DecidableEq

/-- Every non-empty prefix of a path, the path itself included. -/
def fpPrefixes : FPath → List FPath
  | [] => []
  | s :: ss => [s] :: (fpPrefixes ss).map (s :: ·)

/-- Render a segment path the way Go error strings do. -/
def fpStr (p : FPath) : String := String.intercalate "/" p

/-- Go `strings.Contains` on character lists. -/
def hasSub : List Char → List Char → Bool
  | [], pat => goHasPre pat []
  | c :: t, pat => goHasPre pat (c :: t) || hasSub t pat

/-- Go `strings.Contains`. -/
def strContains (s sub : String) : Bool := hasSub s.data sub.data

/-- OS model of `os.Stat`: `some true` for a directory, `some false` for a
file, `none` when the path does not exist. -/
def osStat (fs : FS) (p : FPath) : Option Bool :=
  if p ∈ fs.dirs then some true
  else if p ∈ fs.files then some false
  else none

/-- OS model of `os.MkdirAll`: fails when some prefix of the path exists as
a file ("not a directory") or when a missing prefix is in the fault set
("permission denied"); otherwise creates every missing prefix as a
directory. -/
def osMkdirAll (fs : FS) (p : FPath) : Except String FS :=
  if (fpPrefixes p).any (fun q => decide (q ∈ fs.files)) then
    .error "not a directory"
  else
    let missing := (fpPrefixes p).filter (fun q => decide (q ∉ fs.dirs))
    if missing.any (fun q => decide (q ∈ fs.faults)) then
      .error "permission denied"
    else
      .ok { fs with dirs := fs.dirs ++ missing }

/-- OS model of `os.OpenFile` with `O_CREATE|O_EXCL|O_WRONLY`: the error
carries `os.IsExist(err)` and the error string. -/
def osCreateExcl (fs : FS) (p : FPath) : Except (Bool × String) FS :=
  match osStat fs p with
  | some _ => .error (true, "file exists")
  | none =>
    if p ∈ fs.faults then .error (false, "permission denied")
    else .ok { fs with files := fs.files ++ [p] }

/-- `fsutil.SafeMkdir` (filter.go): an existing directory is fine, an
existing non-directory is "path exists but is not a directory: <path>";
otherwise `os.MkdirAll`, whose failure is wrapped as
"failed to create directory <path>: <err>". -/
def SafeMkdir (fs : FS) (p : FPath) : Except String FS :=
  match osStat fs p with
  | some isDir =>
    if !isDir then .error ("path exists but is not a directory: " ++ fpStr p)
    else .ok fs
  | none =>
    match osMkdirAll fs p with
    | .error e => .error ("failed to create directory " ++ fpStr p ++ ": " ++ e)
    | .ok fs => .ok fs

/-- `fsutil.SafeCreateFile` (filter.go): create-exclusive; an existing path
gives "file already exists: <path>", any other failure is wrapped as
"failed to create file <path>: <err>". -/
def SafeCreateFile (fs : FS) (p : FPath) : Except String FS :=
  match osCreateExcl fs p with
  | .error (isExist, e) =>
    if isExist then .error ("file already exists: " ++ fpStr p)
    else .error ("failed to create file " ++ fpStr p ++ ": " ++ e)
  | .ok fs => .ok fs

/-- `fsutil.PathExists` (filter.go): `os.Stat` succeeds. -/
def PathExists (fs : FS) (p : FPath) : Bool := (osStat fs p).isSome

/-- `fsutil.EnsureDir` (filter.go): `SafeMkdir` on `filepath.Dir(path)`; for
a single-segment path the parent is "." and nothing is done. -/
def EnsureDir (fs : FS) (p : FPath) : Except String FS :=
  if p.dropLast = [] then .ok fs
  else SafeMkdir fs p.dropLast

/-- `generate.Result`. -/
structure Result where
  Created : Nat
  Skipped : Nat
  Errors : List String
  CreatedPaths : List FPath
  SkippedPaths : List FPath
deriving Repr, DecidableEq

/-- The zero `Result` that `generate.Generate` starts from. -/
def emptyResult : Result := ⟨0, 0, [], [], []⟩

mutual

/-- `Generator.generateNode`: skip existing paths (recursing into existing
directories — merge semantics), create directories then recurse, create
files after ensuring the parent directory; failures are appended to
`Result.Errors` (wrapping the fsutil error, which already names the path,
once more) and returned; a create-exclusive failure whose message contains
"already exists" is a skip. -/
def generateNode (node : Node) (parentPath : FPath) (fs : FS) (r : Result) :
    FS × Result × Option String :=
  match node with
  | .mk name isDir children _ _ =>
    let fullPath := parentPath ++ [name]
    if PathExists fs fullPath then
      let r := { r with Skipped := r.Skipped + 1,
                        SkippedPaths := r.SkippedPaths ++ [fullPath] }
      if isDir then generateChildren children fullPath fs r
      else (fs, r, none)
    else if isDir then
      match SafeMkdir fs fullPath with
      | .error e =>
        let msg := "failed to create directory " ++ fpStr fullPath ++ ": " ++ e
        (fs, { r with Errors := r.Errors ++ [msg] }, some msg)
      | .ok fs =>
        let r := { r with Created := r.Created + 1,
                          CreatedPaths := r.CreatedPaths ++ [fullPath] }
        generateChildren children fullPath fs r
    else
      match EnsureDir fs fullPath with
      | .error e =>
        let msg := "failed to create parent directory for " ++ fpStr fullPath ++ ": " ++ e
        (fs, { r with Errors := r.Errors ++ [msg] }, some msg)
      | .ok fs =>
        match SafeCreateFile fs fullPath with
        | .error e =>
          if strContains e "already exists" then
            (fs, { r with Skipped := r.Skipped + 1,
                          SkippedPaths := r.SkippedPaths ++ [fullPath] }, none)
          else
            let msg := "failed to create file " ++ fpStr fullPath ++ ": " ++ e
            (fs, { r with Errors := r.Errors ++ [msg] }, some msg)
        | .ok fs =>
          (fs, { r with Created := r.Created + 1,
                        CreatedPaths := r.CreatedPaths ++ [fullPath] }, none)

/-- The children loop of `generateNode`: the first failing child aborts the
loop and propagates its error. -/
def generateChildren (nodes : List Node) (parentPath : FPath) (fs : FS) (r : Result) :
    FS × Result × Option String :=
  match nodes with
  | [] => (fs, r, none)
  | c :: cs =>
    match generateNode c parentPath fs r with
    | (fs, r, some e) => (fs, r, some e)
    | (fs, r, none) => generateChildren cs parentPath fs r

end

/-- The root loop of `Generator.Generate`: a failing root's error is appended
to `Result.Errors` and the loop continues with the next root. -/
def generateRoots (nodes : List Node) (targetAbs : FPath) (fs : FS) (r : Result) :
    FS × Result :=
  match nodes with
  | [] => (fs, r)
  | n :: ns =>
    match generateNode n targetAbs fs r with
    | (fs, r, some e) => generateRoots ns targetAbs fs { r with Errors := r.Errors ++ [e] }
    | (fs, r, none) => generateRoots ns targetAbs fs r

/-- `Generator.Generate`: ensure the target directory exists, process every
root (continuing past failures), and return a summary error when any error
was recorded. -/
def Generate (nodes : List Node) (targetAbs : FPath) (fs : FS) :
    FS × Result × Option String :=
  match SafeMkdir fs targetAbs with
  | .error e => (fs, emptyResult, some ("failed to create target directory: " ++ e))
  | .ok fs =>
    let (fs, r) := generateRoots nodes targetAbs fs emptyResult
    if r.Errors.length > 0 then
      (fs, r, some ("generation completed with " ++ toString r.Errors.length ++ " errors"))
    else
      (fs, r, none)

/-! ### The recursively sorted forest

`sortForest F` is the forest as the exporters leave it behind: every sibling
list sorted with `nodeLess`.  `sortedKids` applies the recursion to each
element. -/

mutual

/-- A node with every sibling list below it sorted. -/
def sortNode : Node → Node
  | .mk nm d cs p li => .mk nm d (sortNodes (sortedKids cs)) p li

/-- `sortNode` mapped over a list. -/
def sortedKids : List Node → List Node
  | [] => []
  | x :: xs => sortNode x :: sortedKids xs

end

/-- The fully sorted forest. -/
def sortForest (l : List Node) : List Node :=
  sortNodes (sortedKids l)

/-! A renderer over an already-sorted forest (plain structural recursion, so
it evaluates definitionally); `writeSimpleTreeNode` is proved equal to
rendering the sorted tree with it. -/

mutual

/-- Render one node of an already-sorted tree in the simple indented form. -/
def renderPlainNode : Node → Nat → String
  | .mk nm d cs _ _, depth =>
    String.mk (List.replicate (2 * depth) ' ') ++ (if d then nm ++ "/" else nm) ++ "\n" ++
      renderPlainForest cs (depth + 1)

/-- Render an already-sorted forest in the simple indented form. -/
def renderPlainForest : List Node → Nat → String
  | [], _ => ""
  | x :: xs, depth => renderPlainNode x depth ++ renderPlainForest xs depth

end

end Chassis

namespace Chassis

/-! # Claims

Each claim of the specification is settled by one theorem below (with a
counterexample theorem when the claim as stated fails on the code, and a
witness theorem when the main theorem carries hypotheses). -/

/-! ## C1 — tab/space mixing in the indentation parser

The parser compares indentation characters only within a single line's
leading whitespace (`parseLine` resets `indentChar` per line, and `Parse`
never consults a previous line's indentation character; the cross-line
checker `ValidateIndentation` exists in the source but is never called by
`Parse`).  An input whose lines individually use uniform whitespace parses
successfully even when one line is space-indented and another tab-indented. -/

/-- C1 counterexample: the second line is indented with two spaces and the
third with two tabs, yet `Parse` succeeds (and silently treats the two tabs
as depth 1), contradicting the claim that any cross-line tab/space mix fails
with an `IndentationError`. -/
theorem C1_counterexample :
    plainParse "a/\n  b\n\t\tc" =
      .ok [Node.mk "a" true
            [Node.mk "b" false [] "/b" 2, Node.mk "c" false [] "/c" 3] "" 1] := by
  rfl

theorem scanIndent_mix (ln : Nat) (c d : Char) (rest : List Char)
    (hc : c = ' ' ∨ c = '	') (hd : d = ' ' ∨ d = '	') (hne : c ≠ d) :
    ∀ (m i : Nat), scanIndent ln (List.replicate m c ++ d :: rest) (i + 1) (some c) =
      .error (.indentationError ln (i + m + 2) c.toNat d.toNat) := by
  intro m
  induction m with
  | zero =>
    intro i
    have hdw : (d = ' ' || d = '	') = true := by
      rcases hd with h | h <;> simp [h]
    have hcd : ¬ (c = d) := hne
    simp only [List.replicate_zero, List.nil_append, scanIndent, hdw, if_true, if_neg hcd]
    try congr 2
    try omega
  | succ m ih =>
    intro i
    have hcw : (c = ' ' || c = '	') = true := by
      rcases hc with h | h <;> simp [h]
    rw [List.replicate_succ, List.cons_append]
    have hstep : scanIndent ln (c :: (List.replicate m c ++ d :: rest)) (i + 1) (some c) =
        scanIndent ln (List.replicate m c ++ d :: rest) (i + 1 + 1) (some c) := by
      simp only [scanIndent, hcw, if_true, if_pos rfl]
    rw [hstep, ih (i + 1)]
    congr 2
    omega

/-- C1 amended: mixing is detected only within one line's leading
whitespace.  A line whose indentation starts with one whitespace kind and
then switches to the other fails in `parseLine` with an `IndentationError`
at the first offending column, reporting both characters; indentation
characters of different lines are never compared with each other
(see the counterexample). -/
theorem C1_amended (ln k : Nat) (c d : Char) (rest : List Char)
    (hc : c = ' ' ∨ c = '	') (hd : d = ' ' ∨ d = '	') (hne : c ≠ d) :
    parseLine (List.replicate (k + 1) c ++ d :: rest) ln =
      .error (.indentationError ln (k + 2) c.toNat d.toNat) := by
  have hcw : (c = ' ' || c = '	') = true := by
    rcases hc with h | h <;> simp [h]
  have h0 : scanIndent ln (List.replicate (k + 1) c ++ d :: rest) 0 none =
      .error (.indentationError ln (k + 2) c.toNat d.toNat) := by
    rw [List.replicate_succ, List.cons_append]
    have hstep : scanIndent ln (c :: (List.replicate k c ++ d :: rest)) 0 none =
        scanIndent ln (List.replicate k c ++ d :: rest) (0 + 1) (some c) := by
      simp only [scanIndent, hcw, if_true]
    rw [hstep, scanIndent_mix ln c d rest hc hd hne k 0]
    congr 2
    omega
  simp only [parseLine, h0, bind, Except.bind]

/-- C1 witness: the amended theorem applied to the line `" \tx"`. -/
theorem C1_witness :
    parseLine (List.replicate 1 ' ' ++ '\t' :: ['x']) 1 =
      .error (.indentationError 1 2 ' '.toNat '\t'.toNat) :=
  C1_amended 1 0 ' ' '\t' ['x'] (Or.inl rfl) (Or.inr rfl) (by decide)

/-! ## C6 — non-object roots of the map parsers

An array root or a non-null scalar root is a hard error, but a decoded
`nil` root (the JSON document `null`, or an empty YAML document) returns an
empty forest with **no** error, contradicting the claim's "including a
null/empty document". -/

/-- C6 counterexample: a null decoded root parses to an empty forest with no
error in both map parsers. -/
theorem C6_counterexample :
    JSONParser.Parse .null = .ok [] ∧ YAMLParser.Parse .null = .ok [] := by
  exact ⟨rfl, rfl⟩

/-- C6 amended: for the YAML and JSON parsers, an array root or a non-null
scalar root (string, number, boolean) is a hard error and produces no nodes;
a null decoded root (JSON `null`, or an empty YAML document, which decodes
to `nil`) yields an empty forest without error. -/
theorem C6_amended :
    (∀ elems, JSONParser.Parse (.arr elems) =
        .error "JSON root must be an object, not an array") ∧
    (∀ s, JSONParser.Parse (.str s) = .error "unexpected JSON root type: string") ∧
    JSONParser.Parse .num = .error "unexpected JSON root type: float64" ∧
    (∀ b, JSONParser.Parse (.boolV b) = .error "unexpected JSON root type: bool") ∧
    JSONParser.Parse .null = .ok [] ∧
    (∀ elems, YAMLParser.Parse (.arr elems) =
        .error "YAML root must be an object, not an array") ∧
    (∀ s, YAMLParser.Parse (.str s) = .error "unexpected YAML root type: string") ∧
    YAMLParser.Parse .num = .error "unexpected YAML root type: float64" ∧
    (∀ b, YAMLParser.Parse (.boolV b) = .error "unexpected YAML root type: bool") ∧
    YAMLParser.Parse .null = .ok [] := by
  refine ⟨fun _ => rfl, fun _ => rfl, rfl, fun _ => rfl, rfl,
         fun _ => rfl, fun _ => rfl, rfl, fun _ => rfl, rfl⟩

end Chassis

namespace Chassis

/-! ## C2 / C7 — validator acceptance and duplicate detection

Hypothesis predicates for the validator theorems.  `okSeg` says a name
passes every per-name check of `validateNode` on the given platform and is a
plain path segment (no `/`, not `.`/`..` — the domain on which the `goJoin`
model of `filepath.Join` is exact); `okNode`/`okForest` add the per-path
length check, recursively.  `pairsNode`/`pairsForest` list, in the
validator's pre-order, each node's full path together with its normalization
key (lower-cased on Windows); `firstDup` finds the full path of the first
node whose key was already seen. -/

/-- All per-name checks of `validateNode` pass for this name. -/
def okSeg (windows : Bool) (name : String) : Bool :=
  name != "" && !name.data.contains '/' && name != "." && name != ".." &&
  !goHasPre "../".data name.data && (validatePathCharacters windows name).isNone &&
  (!windows || (validateWindowsReservedNames name).isNone)

mutual

/-- Every node of the subtree passes the per-node checks. -/
def okNode (windows : Bool) (parent : String) : Node → Bool
  | .mk name _ cs _ _ =>
    okSeg windows name && (validatePathLength windows (goJoin parent name)).isNone &&
    okForest windows (goJoin parent name) cs

/-- Every node of the forest passes the per-node checks. -/
def okForest (windows : Bool) (parent : String) : List Node → Bool
  | [] => true
  | n :: ns => okNode windows parent n && okForest windows parent ns

end

mutual

/-- Pre-order list of (full path, normalization key) of a subtree. -/
def pairsNode (windows : Bool) (parent : String) : Node → List (String × String)
  | .mk name _ cs _ _ =>
    (goJoin parent name, if windows then lowerStr (goJoin parent name) else goJoin parent name)
      :: pairsForest windows (goJoin parent name) cs

/-- Pre-order list of (full path, normalization key) of a forest. -/
def pairsForest (windows : Bool) (parent : String) : List Node → List (String × String)
  | [] => []
  | n :: ns => pairsNode windows parent n ++ pairsForest windows parent ns

end

/-- The full path of the first pair whose key is already in `seen` (or was
emitted by an earlier pair). -/
def firstDup (seen : List String) : List (String × String) → Option String
  | [] => none
  | (full, key) :: rest =>
    if seen.contains key then some full else firstDup (seen ++ [key]) rest

theorem firstDup_append (a : List (String × String)) :
    ∀ (b : List (String × String)) (seen : List String),
    firstDup seen (a ++ b) =
      match firstDup seen a with
      | some p => some p
      | none => firstDup (seen ++ a.map Prod.snd) b := by
  induction a with
  | nil => intro b seen; simp [firstDup]
  | cons hd tl ih =>
    intro b seen
    obtain ⟨full, key⟩ := hd
    by_cases h : key ∈ seen
    · have hc : seen.contains key = true := by simpa using h
      simp [firstDup, hc, h]
    · have hc : seen.contains key = false := by simpa using h
      simp only [List.cons_append, firstDup, hc, Bool.false_eq_true, if_false,
        List.append_eq]
      rw [ih b (seen ++ [key])]
      simp [List.append_assoc]

theorem firstDup_none (pairs : List (String × String)) :
    ∀ (seen : List String), (pairs.map Prod.snd).Nodup →
    (∀ k ∈ pairs.map Prod.snd, k ∉ seen) →
    firstDup seen pairs = none := by
  induction pairs with
  | nil => intro seen _ _; rfl
  | cons hd tl ih =>
    intro seen hnd hdisj
    obtain ⟨full, key⟩ := hd
    have hk : key ∉ seen := hdisj key (by simp)
    have hc : seen.contains key = false := by
      simpa using hk
    simp only [firstDup, hc, Bool.false_eq_true, if_false]
    refine ih (seen ++ [key]) (by simpa using hnd.of_cons) ?_
    intro k hkmem
    simp only [List.mem_append, List.mem_singleton]
    rintro (h | rfl)
    · exact hdisj k (by simp [hkmem]) h
    · simp only [List.map_cons, List.nodup_cons] at hnd
      exact hnd.1 hkmem

mutual

theorem validateNode_errs (windows : Bool) (n : Node) (parent : String) (st : VState) :
    ∃ extra, (validateNode windows n parent st).errors = st.errors ++ extra := by
  match n with
  | .mk name d cs p l =>
    simp only [validateNode]
    repeat' split
    all_goals first
      | exact ⟨_, rfl⟩
      | exact validateForest_errs windows cs _ _

theorem validateForest_errs (windows : Bool) (ns : List Node) (parent : String) (st : VState) :
    ∃ extra, (validateForest windows ns parent st).errors = st.errors ++ extra := by
  match ns with
  | [] => exact ⟨[], by simp [validateForest]⟩
  | n :: ns =>
    obtain ⟨e₁, h₁⟩ := validateNode_errs windows n parent st
    obtain ⟨e₂, h₂⟩ := validateForest_errs windows ns parent (validateNode windows n parent st)
    exact ⟨e₁ ++ e₂, by simp [validateForest, h₂, h₁]⟩

end

end Chassis

namespace Chassis

mutual

theorem validateNode_run (windows : Bool) (n : Node) (parent : String) (st : VState)
    (hok : okNode windows parent n = true) (herr : st.errors = []) :
    (firstDup st.paths (pairsNode windows parent n) = none →
      validateNode windows n parent st =
        ⟨st.paths ++ (pairsNode windows parent n).map Prod.snd, []⟩) ∧
    (∀ q, firstDup st.paths (pairsNode windows parent n) = some q →
      ∃ rest, (validateNode windows n parent st).errors =
        ValidationError.mk q "duplicate path" .duplicatePath :: rest) := by
  match n with
  | .mk name d cs pp ll =>
    simp only [okNode, okSeg, Bool.and_eq_true, bne_iff_ne, ne_eq,
      Bool.not_eq_true', Option.isNone_iff_eq_none, Bool.or_eq_true] at hok
    obtain ⟨⟨⟨⟨⟨⟨⟨⟨h1, h2⟩, h3⟩, h4⟩, h5⟩, h6⟩, h7⟩, hlen⟩, hkids⟩ := hok
    have hres : (if windows then validateWindowsReservedNames name else none) = none := by
      cases windows
      · simp
      · simpa using h7
    have htrav : (decide (name = "..") || goHasPre "../".data name.data) = false := by
      simp [h4, h5]
    simp only [validateNode, if_neg h1, htrav, Bool.false_eq_true, if_false,
      h6, hres, hlen, pairsNode]
    by_cases hc :
        st.paths.contains (if windows then lowerStr (goJoin parent name) else goJoin parent name) = true
    · simp only [hc, if_true, firstDup]
      constructor
      · intro hnone; simp at hnone
      · intro q hq
        simp only [Option.some.injEq] at hq
        subst hq
        exact ⟨[], by simp [herr]⟩
    · have hc' :
          st.paths.contains (if windows then lowerStr (goJoin parent name) else goJoin parent name) = false := by
        simpa using hc
      simp only [hc', Bool.false_eq_true, if_false, firstDup, herr]
      have hrec := validateForest_run windows cs (goJoin parent name)
        ⟨st.paths ++ [if windows then lowerStr (goJoin parent name) else goJoin parent name], []⟩
        hkids rfl
      constructor
      · intro hnone
        rw [hrec.1 hnone]
        simp [List.append_assoc]
      · intro q hq
        exact hrec.2 q hq

theorem validateForest_run (windows : Bool) (ns : List Node) (parent : String) (st : VState)
    (hok : okForest windows parent ns = true) (herr : st.errors = []) :
    (firstDup st.paths (pairsForest windows parent ns) = none →
      validateForest windows ns parent st =
        ⟨st.paths ++ (pairsForest windows parent ns).map Prod.snd, []⟩) ∧
    (∀ q, firstDup st.paths (pairsForest windows parent ns) = some q →
      ∃ rest, (validateForest windows ns parent st).errors =
        ValidationError.mk q "duplicate path" .duplicatePath :: rest) := by
  match ns with
  | [] =>
    obtain ⟨paths, errs⟩ := st
    simp only [VState.mk.injEq] at herr
    subst herr
    constructor
    · intro _; simp [validateForest, pairsForest]
    · intro q hq; simp [pairsForest, firstDup] at hq
  | n :: ns =>
    simp only [okForest, Bool.and_eq_true] at hok
    obtain ⟨hn, hns⟩ := hok
    have hnode := validateNode_run windows n parent st hn herr
    simp only [pairsForest, validateForest]
    rw [firstDup_append]
    cases hfd : firstDup st.paths (pairsNode windows parent n) with
    | some q =>
      constructor
      · intro hnone; simp at hnone
      · intro q' hq'
        simp only [Option.some.injEq] at hq'
        subst hq'
        obtain ⟨rest, hrest⟩ := hnode.2 q hfd
        obtain ⟨extra, hextra⟩ := validateForest_errs windows ns parent
          (validateNode windows n parent st)
        exact ⟨rest ++ extra, by rw [hextra, hrest]; simp⟩
    | none =>
      have hst₂ := hnode.1 hfd
      rw [hst₂]
      have hrec := validateForest_run windows ns parent
        ⟨st.paths ++ (pairsNode windows parent n).map Prod.snd, []⟩ hns rfl
      constructor
      · intro hnone
        rw [hrec.1 hnone]
        simp [List.append_assoc]
      · intro q hq
        exact hrec.2 q hq

end

end Chassis

namespace Chassis

/-! C2: the claim quantifies over all forests with unique paths and no
traversal attempts, but the validator also rejects empty names, control
characters, over-long paths and (on Windows) reserved names / forbidden
characters, so such a forest can still fail validation. -/

/-- C2 counterexample: a single node with an empty name has no duplicate
paths and no traversal attempt, yet `Validate` returns an error rather than
nil. -/
theorem C2_counterexample :
    Validate false [Node.mk "" false [] "" 0] =
      some ⟨"", "empty name not allowed", .invalidCharacters⟩ := by
  rfl

/-- C2 amended: for every forest whose nodes all pass the per-node checks
(non-empty plain segment names without traversal, control characters or
platform-forbidden patterns, and paths within the platform length limit) and
whose normalized full paths are pairwise distinct, `Validate` returns nil,
on both platform profiles. -/
theorem C2_amended (windows : Bool) (nodes : List Node)
    (hok : okForest windows "" nodes = true)
    (hnd : ((pairsForest windows "" nodes).map Prod.snd).Nodup) :
    Validate windows nodes = none := by
  have h := (validateForest_run windows nodes "" ⟨[], []⟩ hok rfl).1
    (firstDup_none _ [] hnd (by simp))
  simp [Validate, h]

/-- C2 witness: a concrete two-node forest accepted by the validator. -/
theorem C2_witness :
    Validate false [Node.mk "app" true [Node.mk "x" false [] "" 0] "" 0] = none :=
  C2_amended false _ (by decide) (by decide)

/-! C7: duplicate detection is global and pre-order, but the claim's
universal quantification fails when an earlier node fails a different
check. -/

/-- C7 counterexample: the forest contains two nodes with identical full
paths (`x` twice), but `Validate` reports the empty-name error of the first
node, not a duplicate-path error. -/
theorem C7_counterexample :
    Validate false
      [Node.mk "" false [] "" 0, Node.mk "x" false [] "" 0, Node.mk "x" false [] "" 0] =
      some ⟨"", "empty name not allowed", .invalidCharacters⟩ := by
  rfl

/-- C7 amended: for every forest whose nodes all pass the per-node checks,
if some normalized full path repeats anywhere in the forest (normalization
is lower-casing on Windows, identity elsewhere), `Validate` returns a
duplicate-path error carrying the full path of the first node, in pre-order
over the whole forest, whose normalized path was already seen. -/
theorem C7_amended (windows : Bool) (nodes : List Node) (q : String)
    (hok : okForest windows "" nodes = true)
    (hdup : firstDup [] (pairsForest windows "" nodes) = some q) :
    Validate windows nodes = some ⟨q, "duplicate path", .duplicatePath⟩ := by
  obtain ⟨rest, hrest⟩ := (validateForest_run windows nodes "" ⟨[], []⟩ hok rfl).2 q hdup
  simp [Validate, hrest]

/-- C7 witness: a duplicate pair of sibling files named `x`, reported at the
second occurrence; and the same forest with the second name upper-cased is a
duplicate on Windows but not on the case-sensitive profile. -/
theorem C7_witness :
    Validate false [Node.mk "x" false [] "" 0, Node.mk "x" false [] "" 0] =
      some ⟨"x", "duplicate path", .duplicatePath⟩ ∧
    Validate true [Node.mk "x" false [] "" 0, Node.mk "X" false [] "" 0] =
      some ⟨"X", "duplicate path", .duplicatePath⟩ :=
  ⟨C7_amended false _ "x" (by decide) (by decide),
   C7_amended true _ "X" (by decide) (by decide)⟩

end Chassis

namespace Chassis

/-! ## C3 — best-effort generation

`generateNode`'s children loop returns on the first failing child, so a
failure aborts the remaining children of the same parent; only the root loop
of `Generate` continues past failures. -/

/-- C3 counterexample: root directory `R` with file children `A` and `B`,
where creating `t/R/A` fails.  `B` is never visited (it appears in neither
the created nor the skipped paths), contradicting the claim that sibling
subtrees are still processed; the error — the fsutil wrap recorded once more
by `generateNode`, so the path appears twice in it — is appended twice (by
`generateNode` and by the root loop) and the call returns the summary
error. -/
theorem C3_counterexample :
    Generate [Node.mk "R" true [Node.mk "A" false [] "" 0, Node.mk "B" false [] "" 0] "" 0]
        ["t"] ⟨[], [], [["t", "R", "A"]]⟩ =
      (⟨[["t"], ["t", "R"]], [], [["t", "R", "A"]]⟩,
       ⟨1, 0,
        ["failed to create file t/R/A: failed to create file t/R/A: permission denied",
         "failed to create file t/R/A: failed to create file t/R/A: permission denied"],
        [["t", "R"]], []⟩,
       some "generation completed with 2 errors") := by
  rfl

theorem generateRoots_append (xs ys : List Node) (target : FPath) :
    ∀ (fs : FS) (r : Result),
    generateRoots (xs ++ ys) target fs r =
      generateRoots ys target (generateRoots xs target fs r).1
        (generateRoots xs target fs r).2 := by
  induction xs with
  | nil => intro fs r; simp [generateRoots]
  | cons n ns ih =>
    intro fs r
    simp only [List.cons_append, generateRoots]
    rcases hgn : generateNode n target fs r with ⟨fs', r', e⟩
    cases e with
    | some e => exact ih _ _
    | none => exact ih _ _

/-- C3 amended: generation is best-effort across root subtrees only — the
root loop records a failed root's error and continues with the remaining
roots, and the overall call returns a non-nil error summarizing the error
count exactly when any error was recorded; within one subtree, the first
failure aborts the rest of that subtree, including later siblings of the
failing node (see the counterexample). -/
theorem C3_amended (xs ys : List Node) (target : FPath) (fs fs₀ : FS)
    (r : Result) (h : SafeMkdir fs target = .ok fs₀) :
    generateRoots (xs ++ ys) target fs₀ r =
      generateRoots ys target (generateRoots xs target fs₀ r).1
        (generateRoots xs target fs₀ r).2 ∧
    Generate (xs ++ ys) target fs =
      ((generateRoots (xs ++ ys) target fs₀ emptyResult).1,
       (generateRoots (xs ++ ys) target fs₀ emptyResult).2,
       if (generateRoots (xs ++ ys) target fs₀ emptyResult).2.Errors.length > 0 then
         some ("generation completed with " ++
           toString (generateRoots (xs ++ ys) target fs₀ emptyResult).2.Errors.length ++
           " errors")
       else none) := by
  refine ⟨generateRoots_append xs ys target fs₀ r, ?_⟩
  simp only [Generate, h]
  rcases hr : generateRoots (xs ++ ys) target fs₀ emptyResult with ⟨fs', r'⟩
  by_cases he : r'.Errors.length > 0
  · simp [he]
  · simp [he]

/-- C3 witness: the amended theorem at a concrete two-root forest. -/
theorem C3_witness :
    (generateRoots ([Node.mk "a" false [] "" 0] ++ [Node.mk "b" false [] "" 0]) ["t"]
        ⟨[["t"]], [], []⟩ emptyResult =
      generateRoots [Node.mk "b" false [] "" 0] ["t"]
        (generateRoots [Node.mk "a" false [] "" 0] ["t"] ⟨[["t"]], [], []⟩ emptyResult).1
        (generateRoots [Node.mk "a" false [] "" 0] ["t"] ⟨[["t"]], [], []⟩ emptyResult).2) ∧
    Generate ([Node.mk "a" false [] "" 0] ++ [Node.mk "b" false [] "" 0]) ["t"] ⟨[], [], []⟩ =
      ((generateRoots ([Node.mk "a" false [] "" 0] ++ [Node.mk "b" false [] "" 0]) ["t"]
          ⟨[["t"]], [], []⟩ emptyResult).1,
       (generateRoots ([Node.mk "a" false [] "" 0] ++ [Node.mk "b" false [] "" 0]) ["t"]
          ⟨[["t"]], [], []⟩ emptyResult).2,
       if (generateRoots ([Node.mk "a" false [] "" 0] ++ [Node.mk "b" false [] "" 0]) ["t"]
          ⟨[["t"]], [], []⟩ emptyResult).2.Errors.length > 0 then
         some ("generation completed with " ++
           toString (generateRoots ([Node.mk "a" false [] "" 0] ++ [Node.mk "b" false [] "" 0])
             ["t"] ⟨[["t"]], [], []⟩ emptyResult).2.Errors.length ++ " errors")
       else none) :=
  C3_amended [Node.mk "a" false [] "" 0] [Node.mk "b" false [] "" 0] ["t"]
    ⟨[], [], []⟩ ⟨[["t"]], [], []⟩ emptyResult (by rfl)

end Chassis

namespace Chassis

/-! Shared facts about the path model. -/

theorem fpPrefixes_length {q : FPath} : ∀ {p : FPath}, q ∈ fpPrefixes p → q.length ≤ p.length := by
  intro p
  induction p generalizing q with
  | nil => intro h; simp [fpPrefixes] at h
  | cons s ss ih =>
    intro h
    simp only [fpPrefixes, List.mem_cons, List.mem_map] at h
    rcases h with rfl | ⟨q', hq', rfl⟩
    · simp
    · simpa using Nat.succ_le_succ (ih hq')

theorem mem_fpPrefixes_self : ∀ {p : FPath}, p ≠ [] → p ∈ fpPrefixes p := by
  intro p
  induction p with
  | nil => intro h; exact absurd rfl h
  | cons s ss ih =>
    intro _
    by_cases hss : ss = []
    · subst hss; simp [fpPrefixes]
    · simp only [fpPrefixes, List.mem_cons, List.mem_map]
      exact Or.inr ⟨ss, ih hss, rfl⟩

theorem fpPrefixes_concat (p : FPath) (x : String) :
    fpPrefixes (p ++ [x]) = fpPrefixes p ++ [p ++ [x]] := by
  induction p with
  | nil => rfl
  | cons s ss ih =>
    rw [List.cons_append, fpPrefixes, ih, fpPrefixes]
    simp

theorem PathExists_iff (fs : FS) (p : FPath) :
    PathExists fs p = true ↔ p ∈ fs.dirs ∨ p ∈ fs.files := by
  rw [PathExists, osStat]
  by_cases h1 : p ∈ fs.dirs
  · simp [h1]
  · by_cases h2 : p ∈ fs.files <;> simp [h1, h2]

/-- `SafeMkdir` is a no-op when the whole prefix chain already exists as
directories (and the path is not a file). -/
theorem SafeMkdir_noop (fs : FS) (p : FPath)
    (hd : ∀ q ∈ fpPrefixes p, q ∈ fs.dirs) (hnf : p ∉ fs.files) :
    SafeMkdir fs p = .ok fs := by
  by_cases hp : p ∈ fs.dirs
  · rw [SafeMkdir, osStat, if_pos hp]
    rfl
  · have hpe : p = [] := by
      by_contra hne
      exact hp (hd p (mem_fpPrefixes_self hne))
    subst hpe
    rw [SafeMkdir, osStat, if_neg hp, if_neg hnf, osMkdirAll]
    simp [fpPrefixes]

end Chassis

namespace Chassis

/-! ## C10 — root-level errors are recorded twice -/

/-- The error string `fsutil.SafeCreateFile` produces for a faulted
root-level file (the OS failure wrapped once, naming the path). -/
def fileOsFailMsg (p : FPath) : String :=
  "failed to create file " ++ fpStr p ++ ": " ++ "permission denied"

/-- The message `generateNode` records for that failure: the fsutil error
wrapped once more, so the path appears twice. -/
def fileFailMsg (p : FPath) : String :=
  "failed to create file " ++ fpStr p ++ ": " ++ fileOsFailMsg p

theorem c10_loop (tgt : FPath) (bad : String → Bool) (faults : List FPath) :
    ∀ (rs : List String) (fs : FS) (r : Result) (P : String → Prop),
    fs.faults = faults →
    (∀ n ∈ rs, ((tgt ++ [n]) ∈ faults ↔ bad n = true)) →
    (∀ n, ((tgt ++ [n]) ∈ fs.dirs ∨ (tgt ++ [n]) ∈ fs.files) ↔ P n) →
    (tgt ≠ [] → tgt ∈ fs.dirs) →
    (∀ n ∈ rs, bad n = true → ¬ P n) →
    (∀ n ∈ rs, strContains (fileOsFailMsg (tgt ++ [n])) "already exists" = false) →
    (generateRoots (rs.map (fun n => Node.mk n false [] "" 0)) tgt fs r).2.Errors =
      r.Errors ++ (rs.filter bad).flatMap
        (fun n => [fileFailMsg (tgt ++ [n]), fileFailMsg (tgt ++ [n])]) := by
  intro rs
  induction rs with
  | nil => intro fs r P h1 h2 h3 h4 h5 h6; simp [generateRoots]
  | cons n rs ih =>
    intro fs r P h1 h2 h3 h4 h5 h6
    simp only [List.map_cons, generateRoots, generateNode]
    by_cases hP : P n
    · -- already present: skipped, no error, bad n must be false
      have hbad : bad n = false := by
        by_contra hb
        exact h5 n (by simp) (by simpa using hb) hP
      have hex : PathExists fs (tgt ++ [n]) = true := (PathExists_iff fs _).mpr ((h3 n).mpr hP)
      simp only [hex, if_true, Bool.false_eq_true, if_false]
      rw [List.filter_cons_of_neg (by simp [hbad])]
      exact ih fs _ P h1 (fun m hm => h2 m (by simp [hm])) h3 h4
        (fun m hm => h5 m (by simp [hm])) (fun m hm => h6 m (by simp [hm]))
    · have hnotex : ¬((tgt ++ [n]) ∈ fs.dirs ∨ (tgt ++ [n]) ∈ fs.files) :=
        fun hm => hP ((h3 n).mp hm)
      have hstat : osStat fs (tgt ++ [n]) = none := by
        rw [osStat, if_neg (fun hh => hnotex (Or.inl hh)), if_neg (fun hh => hnotex (Or.inr hh))]
      have hex : PathExists fs (tgt ++ [n]) = false := by
        rw [PathExists, hstat]
        rfl
      have hdl : (tgt ++ [n]).dropLast = tgt := by simp
      have hens : EnsureDir fs (tgt ++ [n]) = .ok fs := by
        rw [EnsureDir, hdl]
        by_cases ht : tgt = []
        · rw [if_pos ht]
        · rw [if_neg ht, SafeMkdir, osStat, if_pos (h4 ht)]
          rfl
      simp only [hex, Bool.false_eq_true, if_false, hens]
      by_cases hb : bad n = true
      · -- creation fails, doubled error recorded
        have hfault : (tgt ++ [n]) ∈ fs.faults := by
          rw [h1]; exact (h2 n (by simp)).mpr hb
        have hcre : SafeCreateFile fs (tgt ++ [n]) = .error (fileOsFailMsg (tgt ++ [n])) := by
          rw [SafeCreateFile, osCreateExcl, hstat, if_pos hfault]
          rfl
        simp only [hcre]
        have h6n := h6 n (by simp)
        rw [if_neg (show ¬(strContains (fileOsFailMsg (tgt ++ [n])) "already exists" = true) from by
          rw [h6n]; simp)]
        rw [List.filter_cons_of_pos (by simp [hb])]
        rw [ih fs _ P h1 (fun m hm => h2 m (by simp [hm])) h3 h4
          (fun m hm => h5 m (by simp [hm])) (fun m hm => h6 m (by simp [hm]))]
        simp only [fileFailMsg, List.append_assoc, String.append_assoc,
          List.flatMap_cons, List.cons_append, List.nil_append]
      · -- creation succeeds
        have hbad : bad n = false := by simpa using hb
        have hnofault : ¬ (tgt ++ [n]) ∈ fs.faults := by
          rw [h1]
          intro hmem
          exact hb ((h2 n (by simp)).mp hmem)
        have hcre : SafeCreateFile fs (tgt ++ [n]) =
            .ok { fs with files := fs.files ++ [tgt ++ [n]] } := by
          rw [SafeCreateFile, osCreateExcl, hstat, if_neg hnofault]
        simp only [hcre]
        rw [List.filter_cons_of_neg (by simp [hbad])]
        refine ih _ _ (fun m => P m ∨ m = n) h1
          (fun m hm => h2 m (by simp [hm])) ?_ (fun ht => h4 ht) ?_
          (fun m hm => h6 m (by simp [hm]))
        · intro m
          constructor
          · intro hmem
            rcases hmem with hmem | hmem
            · exact Or.inl ((h3 m).mp (Or.inl hmem))
            · rcases List.mem_append.mp hmem with hmem | hmem
              · exact Or.inl ((h3 m).mp (Or.inr hmem))
              · simp only [List.mem_singleton, List.append_cancel_left_eq,
                  List.cons.injEq, and_true] at hmem
                exact Or.inr hmem
          · rintro (hm | rfl)
            · rcases (h3 m).mpr hm with hm2 | hm2
              · exact Or.inl hm2
              · exact Or.inr (List.mem_append.mpr (Or.inl hm2))
            · exact Or.inr (List.mem_append.mpr (Or.inr (by simp)))
        · intro m hm hbm
          rintro (hPm | rfl)
          · exact h5 m (by simp [hm]) hbm hPm
          · rw [hbm] at hbad; cases hbad

theorem doubled_length {α β : Type} (l : List α) (g : α → β) :
    (l.flatMap (fun n => [g n, g n])).length = 2 * l.length := by
  induction l with
  | nil => simp
  | cons a l ih => simp [ih]; omega

/-- C10: creating a root-level file whose path is in the fault set appends
the same failure message — the fsutil wrap of the OS error, wrapped once
more by `generateNode`, so the path appears twice in it — twice: once inside
`generateNode` and once by the root loop of `Generate`.  For a forest of
root files (whose failure messages do not themselves contain
"already exists", which would be mistaken for a lost creation race) the
error list is exactly the doubled list of per-root failure messages, and the
summary error reports twice the number of failed roots. -/
theorem C10_root_errors_doubled (names : List String) (bad : String → Bool) (tgt : FPath)
    (hnb : ∀ n ∈ names, strContains (fileOsFailMsg (tgt ++ [n])) "already exists" = false) :
    (Generate (names.map (fun n => Node.mk n false [] "" 0)) tgt
        ⟨[], [], (names.filter bad).map (fun n => tgt ++ [n])⟩).2.1.Errors =
      (names.filter bad).flatMap
        (fun n => [fileFailMsg (tgt ++ [n]), fileFailMsg (tgt ++ [n])]) ∧
    (Generate (names.map (fun n => Node.mk n false [] "" 0)) tgt
        ⟨[], [], (names.filter bad).map (fun n => tgt ++ [n])⟩).2.2 =
      (if (names.filter bad).length = 0 then none
       else some ("generation completed with " ++
         toString (2 * (names.filter bad).length) ++ " errors")) := by
  have hnotin : ∀ q ∈ fpPrefixes tgt, q ∉ (names.filter bad).map (fun n => tgt ++ [n]) := by
    intro q hq hmem
    simp only [List.mem_map] at hmem
    obtain ⟨m, _, rfl⟩ := hmem
    have := fpPrefixes_length hq
    simp at this
  have hmk : SafeMkdir ⟨[], [], (names.filter bad).map (fun n => tgt ++ [n])⟩ tgt =
      .ok ⟨fpPrefixes tgt, [], (names.filter bad).map (fun n => tgt ++ [n])⟩ := by
    have h1 : osStat ⟨[], [], (names.filter bad).map (fun n => tgt ++ [n])⟩ tgt = none := by
      rw [osStat, if_neg (List.not_mem_nil tgt), if_neg (List.not_mem_nil tgt)]
    have hfil : (fpPrefixes tgt).filter (fun q => decide (q ∉ ([] : List FPath))) =
        fpPrefixes tgt := by
      refine List.filter_eq_self.mpr ?_
      intro q _
      simp
    have hany : (fpPrefixes tgt).any
        (fun q => decide (q ∈ (names.filter bad).map (fun n => tgt ++ [n]))) = false := by
      refine List.any_eq_false.mpr ?_
      intro q hq
      simpa using hnotin q hq
    have h2 : osMkdirAll ⟨[], [], (names.filter bad).map (fun n => tgt ++ [n])⟩ tgt =
        .ok ⟨fpPrefixes tgt, [], (names.filter bad).map (fun n => tgt ++ [n])⟩ := by
      rw [osMkdirAll, if_neg (by simp)]
      simp [hfil, hany]
    rw [SafeMkdir, h1, h2]
  have hloop := c10_loop tgt bad ((names.filter bad).map (fun n => tgt ++ [n])) names
    ⟨fpPrefixes tgt, [], (names.filter bad).map (fun n => tgt ++ [n])⟩ emptyResult
    (fun _ => False) rfl
    (by
      intro n hn
      constructor
      · intro hmem
        simp only [List.mem_map] at hmem
        obtain ⟨m, hm, he⟩ := hmem
        simp only [List.append_cancel_left_eq, List.cons.injEq, and_true] at he
        subst he
        exact (List.mem_filter.mp hm).2
      · intro hb
        exact List.mem_map.mpr ⟨n, List.mem_filter.mpr ⟨hn, hb⟩, rfl⟩)
    (by
      intro n
      simp only [iff_false]
      rintro (hmem | hmem)
      · have := fpPrefixes_length hmem
        simp at this
      · simp at hmem)
    (fun ht => mem_fpPrefixes_self ht)
    (by intro n _ _ h; exact h)
    hnb
  rcases hgr : generateRoots (names.map fun n => Node.mk n false [] "" 0) tgt
      ⟨fpPrefixes tgt, [], (names.filter bad).map fun n => tgt ++ [n]⟩ emptyResult
    with ⟨fs', r'⟩
  have herrs : r'.Errors = (names.filter bad).flatMap
      (fun n => [fileFailMsg (tgt ++ [n]), fileFailMsg (tgt ++ [n])]) := by
    rw [hgr] at hloop
    simpa [emptyResult] using hloop
  have hgen : Generate (names.map (fun n => Node.mk n false [] "" 0)) tgt
      ⟨[], [], (names.filter bad).map (fun n => tgt ++ [n])⟩ =
      (fs', r', if r'.Errors.length > 0 then
        some ("generation completed with " ++ toString r'.Errors.length ++ " errors")
      else none) := by
    simp only [Generate, hmk, hgr]
    by_cases hp : r'.Errors.length > 0 <;> simp [hp]
  rw [hgen]
  refine ⟨herrs, ?_⟩
  simp only [herrs, doubled_length]
  by_cases hk : (names.filter bad).length = 0
  · simp [hk]
  · have hpos : 2 * (names.filter bad).length > 0 := by omega
    simp [hk, hpos]

/-- C10 witness: two root files under target `t`, the fault set holding
`t/a`; the error list is the doubled message for `t/a` and the summary
reports 2 errors. -/
theorem C10_witness :
    (∀ n ∈ ["a", "b"], strContains (fileOsFailMsg (["t"] ++ [n])) "already exists" = false) ∧
    ((Generate ((["a", "b"]).map (fun n => Node.mk n false [] "" 0)) ["t"]
        ⟨[], [], ((["a", "b"]).filter (fun n => n == "a")).map (fun n => ["t"] ++ [n])⟩).2.1.Errors =
      ((["a", "b"]).filter (fun n => n == "a")).flatMap
        (fun n => [fileFailMsg (["t"] ++ [n]), fileFailMsg (["t"] ++ [n])]) ∧
     (Generate ((["a", "b"]).map (fun n => Node.mk n false [] "" 0)) ["t"]
        ⟨[], [], ((["a", "b"]).filter (fun n => n == "a")).map (fun n => ["t"] ++ [n])⟩).2.2 =
      (if ((["a", "b"]).filter (fun n => n == "a")).length = 0 then none
       else some ("generation completed with " ++
         toString (2 * ((["a", "b"]).filter (fun n => n == "a")).length) ++ " errors"))) :=
  ⟨by decide, C10_root_errors_doubled ["a", "b"] (fun n => n == "a") ["t"] (by decide)⟩

end Chassis

namespace Chassis

/-! ## C4 — idempotent generation

The claim quantifies over validated forests.  Validation (C2/C7) guarantees
exactly that every name is a non-empty plain segment and that full node
paths are pairwise distinct; those guarantees are the hypotheses here,
stated on the segment-path model (`plainNamesForest`, `Nodup` of the visited
full paths).  Under them the first run from an empty fault-free filesystem
creates every visited path without error, and the second run skips every
entry, changes nothing and reports no error. -/

mutual

/-- The pre-order list of full paths the generator visits in a subtree
(children are visited only under directories). -/
def visitNode (parent : FPath) : Node → List FPath
  | .mk name d cs _ _ =>
    (parent ++ [name]) :: (if d then visitForest (parent ++ [name]) cs else [])

/-- The pre-order list of full paths the generator visits in a forest. -/
def visitForest (parent : FPath) : List Node → List FPath
  | [] => []
  | n :: ns => visitNode parent n ++ visitForest parent ns

end

mutual

/-- The directory full paths of a subtree, in creation order. -/
def dirPathsNode (parent : FPath) : Node → List FPath
  | .mk name d cs _ _ =>
    if d then (parent ++ [name]) :: dirPathsForest (parent ++ [name]) cs else []

/-- The directory full paths of a forest. -/
def dirPathsForest (parent : FPath) : List Node → List FPath
  | [] => []
  | n :: ns => dirPathsNode parent n ++ dirPathsForest parent ns

end

mutual

/-- The file full paths of a subtree, in creation order. -/
def filePathsNode (parent : FPath) : Node → List FPath
  | .mk name d cs _ _ =>
    if d then filePathsForest (parent ++ [name]) cs else [parent ++ [name]]

/-- The file full paths of a forest. -/
def filePathsForest (parent : FPath) : List Node → List FPath
  | [] => []
  | n :: ns => filePathsNode parent n ++ filePathsForest parent ns

end

mutual

/-- Non-empty slash-free names throughout the subtree: the domain on which
the segment model of `filepath.Join` is exact, guaranteed by validation. -/
def plainNamesNode : Node → Bool
  | .mk name _ cs _ _ => name != "" && !name.data.contains '/' && plainNamesForest cs

/-- Non-empty slash-free names throughout the forest. -/
def plainNamesForest : List Node → Bool
  | [] => true
  | n :: ns => plainNamesNode n && plainNamesForest ns

end

mutual

theorem visitNode_length (parent : FPath) : ∀ (n : Node) (q : FPath),
    q ∈ visitNode parent n → parent.length < q.length
  | .mk name d cs pp ll, q => by
    intro hq
    rw [visitNode] at hq
    rcases List.mem_cons.mp hq with rfl | hq
    · simp
    · cases d with
      | true =>
        simp only [if_true] at hq
        have h := visitForest_length (parent ++ [name]) cs q hq
        simp only [List.length_append, List.length_singleton] at h
        omega
      | false => simp at hq

theorem visitForest_length (parent : FPath) : ∀ (ns : List Node) (q : FPath),
    q ∈ visitForest parent ns → parent.length < q.length
  | [], q => by
    intro hq
    rw [visitForest] at hq
    cases hq
  | n :: ns, q => by
    intro hq
    rw [visitForest] at hq
    rcases List.mem_append.mp hq with hq | hq
    · exact visitNode_length parent n q hq
    · exact visitForest_length parent ns q hq

end

mutual

theorem mem_visitN_split (parent : FPath) : ∀ (n : Node) (q : FPath),
    q ∈ visitNode parent n ↔ q ∈ dirPathsNode parent n ∨ q ∈ filePathsNode parent n
  | .mk name d cs pp ll, q => by
    rw [visitNode, dirPathsNode, filePathsNode]
    cases d with
    | true =>
      simp only [if_true, List.mem_cons]
      constructor
      · rintro (rfl | hq)
        · exact Or.inl (Or.inl rfl)
        · rcases (mem_visitF_split (parent ++ [name]) cs q).mp hq with h | h
          · exact Or.inl (Or.inr h)
          · exact Or.inr h
      · rintro ((rfl | hq) | hq)
        · exact Or.inl rfl
        · exact Or.inr ((mem_visitF_split (parent ++ [name]) cs q).mpr (Or.inl hq))
        · exact Or.inr ((mem_visitF_split (parent ++ [name]) cs q).mpr (Or.inr hq))
    | false =>
      simp

theorem mem_visitF_split (parent : FPath) : ∀ (ns : List Node) (q : FPath),
    q ∈ visitForest parent ns ↔ q ∈ dirPathsForest parent ns ∨ q ∈ filePathsForest parent ns
  | [], q => by
    rw [visitForest, dirPathsForest, filePathsForest]
    simp
  | n :: ns, q => by
    rw [visitForest, dirPathsForest, filePathsForest]
    simp only [List.mem_append]
    rw [mem_visitN_split parent n q, mem_visitF_split parent ns q]
    tauto

end

mutual

/-- A fresh subtree (no visited path present, plus an existing directory
chain above `parent`) is created in full, error-free, with the exact
directory/file sets and counters. -/
theorem genNode_fresh : ∀ (n : Node) (parent : FPath) (fs : FS) (r : Result),
    fs.faults = [] →
    (∀ q ∈ fpPrefixes parent, q ∈ fs.dirs) →
    (∀ q ∈ fpPrefixes parent, q ∉ fs.files) →
    (∀ q ∈ visitNode parent n, q ∉ fs.dirs ∧ q ∉ fs.files) →
    (visitNode parent n).Nodup →
    generateNode n parent fs r =
      (⟨fs.dirs ++ dirPathsNode parent n, fs.files ++ filePathsNode parent n, fs.faults⟩,
       { r with Created := r.Created + (visitNode parent n).length,
                CreatedPaths := r.CreatedPaths ++ visitNode parent n }, none)
  | .mk name d cs pp ll, parent, fs, r => by
    intro hf hanc hancf hfresh hnd
    have hself : (parent ++ [name]) ∈ visitNode parent (.mk name d cs pp ll) := by
      rw [visitNode]; exact List.mem_cons_self _ _
    have hfr := hfresh _ hself
    have hstat : osStat fs (parent ++ [name]) = none := by
      rw [osStat, if_neg hfr.1, if_neg hfr.2]
    have hex : PathExists fs (parent ++ [name]) = false := by
      rw [PathExists, hstat]
      rfl
    cases d with
    | true =>
      have hmk : SafeMkdir fs (parent ++ [name]) =
          .ok ⟨fs.dirs ++ [parent ++ [name]], fs.files, fs.faults⟩ := by
        have hfa : (fpPrefixes (parent ++ [name])).any
            (fun q => decide (q ∈ fs.files)) = false := by
          refine List.any_eq_false.mpr ?_
          intro q hq
          rw [fpPrefixes_concat] at hq
          rcases List.mem_append.mp hq with hq | hq
          · simpa using hancf q hq
          · simp only [List.mem_singleton] at hq
            subst hq
            simpa using hfr.2
        have hfil : (fpPrefixes (parent ++ [name])).filter
            (fun q => decide (q ∉ fs.dirs)) = [parent ++ [name]] := by
          rw [fpPrefixes_concat, List.filter_append,
            show (fpPrefixes parent).filter (fun q => decide (q ∉ fs.dirs)) = [] from
              List.filter_eq_nil_iff.mpr (fun q hq => by simpa using hanc q hq),
            List.nil_append, List.filter_cons_of_pos (by simpa using hfr.1)]
          rfl
        have hmd : osMkdirAll fs (parent ++ [name]) =
            .ok ⟨fs.dirs ++ [parent ++ [name]], fs.files, fs.faults⟩ := by
          rw [osMkdirAll, if_neg (by rw [hfa]; simp)]
          simp only [hfil]
          rw [if_neg (by rw [hf]; simp)]
        rw [SafeMkdir, hstat, hmd]
      have hndc : (visitForest (parent ++ [name]) cs).Nodup := by
        rw [visitNode, if_pos rfl] at hnd
        exact (List.nodup_cons.mp hnd).2
      have hnotin : (parent ++ [name]) ∉ visitForest (parent ++ [name]) cs := by
        rw [visitNode, if_pos rfl] at hnd
        exact (List.nodup_cons.mp hnd).1
      have hrec := genForest_fresh cs (parent ++ [name])
          ⟨fs.dirs ++ [parent ++ [name]], fs.files, fs.faults⟩
          { r with Created := r.Created + 1,
                   CreatedPaths := r.CreatedPaths ++ [parent ++ [name]] }
          hf
          (by
            intro q hq
            rw [fpPrefixes_concat] at hq
            rcases List.mem_append.mp hq with hq | hq
            · exact List.mem_append.mpr (Or.inl (hanc q hq))
            · simp only [List.mem_singleton] at hq
              subst hq
              exact List.mem_append.mpr (Or.inr (by simp)))
          (by
            intro q hq
            rw [fpPrefixes_concat] at hq
            rcases List.mem_append.mp hq with hq | hq
            · exact hancf q hq
            · simp only [List.mem_singleton] at hq
              subst hq
              exact hfr.2)
          (by
            intro q hq
            have hq2 : q ∈ visitNode parent (.mk name true cs pp ll) := by
              rw [visitNode, if_pos rfl]
              exact List.mem_cons_of_mem _ hq
            have h := hfresh q hq2
            refine ⟨?_, h.2⟩
            intro hmem
            rcases List.mem_append.mp hmem with hmem | hmem
            · exact h.1 hmem
            · simp only [List.mem_singleton] at hmem
              subst hmem
              exact hnotin hq)
          hndc
      simp only [generateNode, hex, Bool.false_eq_true, if_false, if_true, hmk, hrec]
      rw [visitNode, dirPathsNode, filePathsNode, if_pos rfl, if_pos rfl, if_pos rfl]
      simp only [Prod.mk.injEq, FS.mk.injEq, Result.mk.injEq, List.append_assoc,
        List.singleton_append, List.length_cons]
      repeat' apply And.intro
      all_goals first | rfl | omega | simp
    | false =>
      have hens : EnsureDir fs (parent ++ [name]) = .ok fs := by
        rw [EnsureDir]
        have hdl : (parent ++ [name]).dropLast = parent := by simp
        rw [hdl]
        by_cases hp : parent = []
        · rw [if_pos hp]
        · rw [if_neg hp, SafeMkdir, osStat,
            if_pos (hanc parent (mem_fpPrefixes_self hp))]
          rfl
      have hcre : SafeCreateFile fs (parent ++ [name]) =
          .ok { fs with files := fs.files ++ [parent ++ [name]] } := by
        rw [SafeCreateFile, osCreateExcl, hstat,
          if_neg (by rw [hf]; exact List.not_mem_nil _)]
      simp only [generateNode, hex, Bool.false_eq_true, if_false, hens, hcre]
      rw [visitNode, dirPathsNode, filePathsNode, if_neg (by simp), if_neg (by simp),
        if_neg (by simp)]
      simp

theorem genForest_fresh : ∀ (ns : List Node) (parent : FPath) (fs : FS) (r : Result),
    fs.faults = [] →
    (∀ q ∈ fpPrefixes parent, q ∈ fs.dirs) →
    (∀ q ∈ fpPrefixes parent, q ∉ fs.files) →
    (∀ q ∈ visitForest parent ns, q ∉ fs.dirs ∧ q ∉ fs.files) →
    (visitForest parent ns).Nodup →
    generateChildren ns parent fs r =
      (⟨fs.dirs ++ dirPathsForest parent ns, fs.files ++ filePathsForest parent ns, fs.faults⟩,
       { r with Created := r.Created + (visitForest parent ns).length,
                CreatedPaths := r.CreatedPaths ++ visitForest parent ns }, none)
  | [], parent, fs, r => by
    intro hf _ _ _ _
    rw [generateChildren, visitForest, dirPathsForest, filePathsForest]
    simp
  | x :: xs, parent, fs, r => by
    intro hf hanc hancf hfresh hnd
    rw [visitForest] at hnd
    obtain ⟨hnd1, hnd2, hdisj⟩ := List.nodup_append.mp hnd
    have hx := genNode_fresh x parent fs r hf hanc hancf
      (fun q hq => hfresh q (by rw [visitForest]; exact List.mem_append.mpr (Or.inl hq)))
      hnd1
    have hxs := genForest_fresh xs parent
      ⟨fs.dirs ++ dirPathsNode parent x, fs.files ++ filePathsNode parent x, fs.faults⟩
      { r with Created := r.Created + (visitNode parent x).length,
               CreatedPaths := r.CreatedPaths ++ visitNode parent x }
      hf
      (fun q hq => List.mem_append.mpr (Or.inl (hanc q hq)))
      (by
        intro q hq hmem
        rcases List.mem_append.mp hmem with hmem | hmem
        · exact hancf q hq hmem
        · have hlen := fpPrefixes_length hq
          have hv : q ∈ visitNode parent x :=
            (mem_visitN_split parent x q).mpr (Or.inr hmem)
          have := visitNode_length parent x q hv
          omega)
      (by
        intro q hq
        have h := hfresh q (by rw [visitForest]; exact List.mem_append.mpr (Or.inr hq))
        have hni : q ∉ visitNode parent x := fun hmem => hdisj hmem hq
        refine ⟨?_, ?_⟩
        · intro hmem
          rcases List.mem_append.mp hmem with hmem | hmem
          · exact h.1 hmem
          · exact hni ((mem_visitN_split parent x q).mpr (Or.inl hmem))
        · intro hmem
          rcases List.mem_append.mp hmem with hmem | hmem
          · exact h.2 hmem
          · exact hni ((mem_visitN_split parent x q).mpr (Or.inr hmem)))
      hnd2
    rw [generateChildren]
    simp only [hx]
    rw [hxs, visitForest, dirPathsForest, filePathsForest]
    simp only [Prod.mk.injEq, FS.mk.injEq, Result.mk.injEq, List.append_assoc,
      List.length_append]
    repeat' apply And.intro
    all_goals first | rfl | omega | simp

end

mutual

theorem genNode_allskip (n : Node) (parent : FPath) (fs : FS) (r : Result)
    (h : ∀ q ∈ visitNode parent n, q ∈ fs.dirs ∨ q ∈ fs.files) :
    generateNode n parent fs r =
      (fs, { r with Skipped := r.Skipped + (visitNode parent n).length,
                    SkippedPaths := r.SkippedPaths ++ visitNode parent n }, none) := by
  match n with
  | .mk name d cs pp ll =>
    have hex : PathExists fs (parent ++ [name]) = true :=
      (PathExists_iff fs _).mpr (h _ (by cases d <;> simp [visitNode]))
    cases d with
    | true =>
      simp only [generateNode, hex, if_true]
      have hrec := genForest_allskip cs (parent ++ [name]) fs
        { r with Skipped := r.Skipped + 1,
                 SkippedPaths := r.SkippedPaths ++ [parent ++ [name]] }
        (by
          intro q hq
          exact h q (by simp [visitNode, hq]))
      rw [hrec]
      simp only [visitNode, if_true, Prod.mk.injEq, Result.mk.injEq, List.length_cons]
      repeat' apply And.intro
      all_goals first | trivial | omega | simp
    | false =>
      simp only [generateNode, hex, if_true, Bool.false_eq_true, if_false]
      simp only [visitNode, Bool.false_eq_true, if_false, Prod.mk.injEq,
        Result.mk.injEq, List.length_cons, List.length_nil]

theorem genForest_allskip (ns : List Node) (parent : FPath) (fs : FS) (r : Result)
    (h : ∀ q ∈ visitForest parent ns, q ∈ fs.dirs ∨ q ∈ fs.files) :
    generateChildren ns parent fs r =
      (fs, { r with Skipped := r.Skipped + (visitForest parent ns).length,
                    SkippedPaths := r.SkippedPaths ++ visitForest parent ns }, none) := by
  match ns with
  | [] =>
    simp [generateChildren, visitForest]
  | n :: ns =>
    have hn := genNode_allskip n parent fs r
      (fun q hq => h q (by simp [visitForest, hq]))
    have hrec := genForest_allskip ns parent fs
      { r with Skipped := r.Skipped + (visitNode parent n).length,
               SkippedPaths := r.SkippedPaths ++ visitNode parent n }
      (fun q hq => h q (by simp [visitForest, hq]))
    simp only [generateChildren, hn, hrec]
    simp only [visitForest, Prod.mk.injEq, Result.mk.injEq, List.length_append]
    repeat' apply And.intro
    all_goals first | trivial | omega | simp

end

/-- The root loop on a fresh forest, as `genForest_fresh` (the loop differs
from the children loop only in how it treats errors, and none occur). -/
theorem genRoots_fresh (ns : List Node) : ∀ (target : FPath) (fs : FS) (r : Result),
    fs.faults = [] →
    (∀ q ∈ fpPrefixes target, q ∈ fs.dirs) →
    (∀ q ∈ fpPrefixes target, q ∉ fs.files) →
    (∀ q ∈ visitForest target ns, q ∉ fs.dirs ∧ q ∉ fs.files) →
    (visitForest target ns).Nodup →
    generateRoots ns target fs r =
      (⟨fs.dirs ++ dirPathsForest target ns, fs.files ++ filePathsForest target ns, fs.faults⟩,
       { r with Created := r.Created + (visitForest target ns).length,
                CreatedPaths := r.CreatedPaths ++ visitForest target ns }) := by
  induction ns with
  | nil =>
    intro target fs r hf _ _ _ _
    rw [generateRoots, visitForest, dirPathsForest, filePathsForest]
    simp
  | cons x xs ih =>
    intro target fs r hf hanc hancf hfresh hnd
    rw [visitForest] at hnd
    obtain ⟨hnd1, hnd2, hdisj⟩ := List.nodup_append.mp hnd
    have hx := genNode_fresh x target fs r hf hanc hancf
      (fun q hq => hfresh q (by rw [visitForest]; exact List.mem_append.mpr (Or.inl hq)))
      hnd1
    have hxs := ih target
      ⟨fs.dirs ++ dirPathsNode target x, fs.files ++ filePathsNode target x, fs.faults⟩
      { r with Created := r.Created + (visitNode target x).length,
               CreatedPaths := r.CreatedPaths ++ visitNode target x }
      hf
      (fun q hq => List.mem_append.mpr (Or.inl (hanc q hq)))
      (by
        intro q hq hmem
        rcases List.mem_append.mp hmem with hmem | hmem
        · exact hancf q hq hmem
        · have hlen := fpPrefixes_length hq
          have hv : q ∈ visitNode target x :=
            (mem_visitN_split target x q).mpr (Or.inr hmem)
          have := visitNode_length target x q hv
          omega)
      (by
        intro q hq
        have h := hfresh q (by rw [visitForest]; exact List.mem_append.mpr (Or.inr hq))
        have hni : q ∉ visitNode target x := fun hmem => hdisj hmem hq
        refine ⟨?_, ?_⟩
        · intro hmem
          rcases List.mem_append.mp hmem with hmem | hmem
          · exact h.1 hmem
          · exact hni ((mem_visitN_split target x q).mpr (Or.inl hmem))
        · intro hmem
          rcases List.mem_append.mp hmem with hmem | hmem
          · exact h.2 hmem
          · exact hni ((mem_visitN_split target x q).mpr (Or.inr hmem)))
      hnd2
    rw [generateRoots]
    simp only [hx]
    rw [hxs, visitForest, dirPathsForest, filePathsForest]
    simp only [Prod.mk.injEq, FS.mk.injEq, Result.mk.injEq, List.append_assoc,
      List.length_append]
    repeat' apply And.intro
    all_goals first | rfl | omega | simp

theorem genRoots_allskip (ns : List Node) : ∀ (target : FPath) (fs : FS) (r : Result),
    (∀ q ∈ visitForest target ns, q ∈ fs.dirs ∨ q ∈ fs.files) →
    generateRoots ns target fs r =
      (fs, { r with Skipped := r.Skipped + (visitForest target ns).length,
                    SkippedPaths := r.SkippedPaths ++ visitForest target ns }) := by
  induction ns with
  | nil =>
    intro target fs r _
    simp [generateRoots, visitForest]
  | cons n ns ih =>
    intro target fs r h
    have hn := genNode_allskip n target fs r
      (fun q hq => h q (by simp [visitForest, hq]))
    have hrec := ih target fs
      { r with Skipped := r.Skipped + (visitNode target n).length,
               SkippedPaths := r.SkippedPaths ++ visitNode target n }
      (fun q hq => h q (by simp [visitForest, hq]))
    simp only [generateRoots, hn, hrec]
    simp only [visitForest, Prod.mk.injEq, Result.mk.injEq, List.length_append]
    repeat' apply And.intro
    all_goals first | trivial | omega | simp

/-- C4: generation is idempotent on validated forests.  The hypotheses are
what validation guarantees: non-empty slash-free names (the domain on which
the segment model of `filepath.Join` is exact) and pairwise-distinct full
paths.  The first run from an empty fault-free filesystem reports no error;
running `Generate` again on the filesystem it produced creates nothing,
reports every visited entry as skipped (in order), leaves the filesystem
exactly as the first run left it, and returns no error. -/
theorem C4_idempotent (nodes : List Node) (target : FPath)
    (hpl : plainNamesForest nodes = true)
    (hnd : (visitForest target nodes).Nodup) :
    (Generate nodes target ⟨[], [], []⟩).2.2 = none ∧
    Generate nodes target (Generate nodes target ⟨[], [], []⟩).1 =
      ((Generate nodes target ⟨[], [], []⟩).1,
       ⟨0, (visitForest target nodes).length, [], [], visitForest target nodes⟩,
       none) := by
  have hmk1 : SafeMkdir ⟨[], [], []⟩ target = .ok ⟨fpPrefixes target, [], []⟩ := by
    have h1 : osStat ⟨[], [], []⟩ target = none := by
      rw [osStat, if_neg (List.not_mem_nil target), if_neg (List.not_mem_nil target)]
    have hfil : (fpPrefixes target).filter (fun q => decide (q ∉ ([] : List FPath))) =
        fpPrefixes target := by
      refine List.filter_eq_self.mpr ?_
      intro q _
      simp
    have h2 : osMkdirAll ⟨[], [], []⟩ target = .ok ⟨fpPrefixes target, [], []⟩ := by
      rw [osMkdirAll, if_neg (by simp)]
      simp [hfil]
    rw [SafeMkdir, h1, h2]
  have hfresh0 : ∀ q ∈ visitForest target nodes,
      q ∉ (⟨fpPrefixes target, [], []⟩ : FS).dirs ∧ q ∉ (⟨fpPrefixes target, [], []⟩ : FS).files := by
    intro q hq
    constructor
    · intro hmem
      have h2 := fpPrefixes_length hmem
      have h3 := visitForest_length target nodes q hq
      omega
    · exact List.not_mem_nil q
  have h1 := genRoots_fresh nodes target ⟨fpPrefixes target, [], []⟩ emptyResult rfl
    (fun q hq => hq) (fun q hq => List.not_mem_nil q) hfresh0 hnd
  have hg1 : Generate nodes target ⟨[], [], []⟩ =
      (⟨fpPrefixes target ++ dirPathsForest target nodes, filePathsForest target nodes, []⟩,
       ⟨(visitForest target nodes).length, 0, [], visitForest target nodes, []⟩, none) := by
    simp only [Generate, hmk1]
    rw [h1]
    simp [emptyResult]
  refine ⟨by rw [hg1], ?_⟩
  rw [hg1]
  have hmk2 : SafeMkdir
      ⟨fpPrefixes target ++ dirPathsForest target nodes, filePathsForest target nodes, []⟩
      target = .ok
      ⟨fpPrefixes target ++ dirPathsForest target nodes, filePathsForest target nodes, []⟩ := by
    refine SafeMkdir_noop _ target (fun q hq => List.mem_append.mpr (Or.inl hq)) ?_
    intro hmem
    have hv : target ∈ visitForest target nodes :=
      (mem_visitF_split target nodes target).mpr (Or.inr hmem)
    have := visitForest_length target nodes target hv
    omega
  have hpres : ∀ q ∈ visitForest target nodes,
      q ∈ (⟨fpPrefixes target ++ dirPathsForest target nodes,
            filePathsForest target nodes, ([] : List FPath)⟩ : FS).dirs ∨
      q ∈ (⟨fpPrefixes target ++ dirPathsForest target nodes,
            filePathsForest target nodes, ([] : List FPath)⟩ : FS).files := by
    intro q hq
    rcases (mem_visitF_split target nodes q).mp hq with h | h
    · exact Or.inl (List.mem_append.mpr (Or.inr h))
    · exact Or.inr h
  have hskip := genRoots_allskip nodes target
    ⟨fpPrefixes target ++ dirPathsForest target nodes, filePathsForest target nodes, []⟩
    emptyResult hpres
  simp only [Generate, hmk2]
  rw [hskip]
  simp [emptyResult]

/-- C4 witness: a directory with one file child plus a root file, generated
twice into target `t`. -/
theorem C4_witness :
    plainNamesForest [Node.mk "a" true [Node.mk "b" false [] "" 0] "" 0,
                      Node.mk "c" false [] "" 0] = true ∧
    (visitForest ["t"] [Node.mk "a" true [Node.mk "b" false [] "" 0] "" 0,
                        Node.mk "c" false [] "" 0]).Nodup ∧
    ((Generate [Node.mk "a" true [Node.mk "b" false [] "" 0] "" 0,
        Node.mk "c" false [] "" 0] ["t"] ⟨[], [], []⟩).2.2 = none ∧
     Generate [Node.mk "a" true [Node.mk "b" false [] "" 0] "" 0,
        Node.mk "c" false [] "" 0] ["t"]
        (Generate [Node.mk "a" true [Node.mk "b" false [] "" 0] "" 0,
          Node.mk "c" false [] "" 0] ["t"] ⟨[], [], []⟩).1 =
      ((Generate [Node.mk "a" true [Node.mk "b" false [] "" 0] "" 0,
          Node.mk "c" false [] "" 0] ["t"] ⟨[], [], []⟩).1,
       ⟨0, (visitForest ["t"] [Node.mk "a" true [Node.mk "b" false [] "" 0] "" 0,
              Node.mk "c" false [] "" 0]).length, [], [],
        visitForest ["t"] [Node.mk "a" true [Node.mk "b" false [] "" 0] "" 0,
          Node.mk "c" false [] "" 0]⟩,
       none)) :=
  ⟨by decide, by decide,
   C4_idempotent [Node.mk "a" true [Node.mk "b" false [] "" 0] "" 0,
     Node.mk "c" false [] "" 0] ["t"] (by decide) (by decide)⟩

/-! ## C8 — exporters mutate sibling order in place -/

theorem sortNode_name (n : Node) : (sortNode n).name = n.name := by
  match n with
  | .mk nm d cs p li => rfl

theorem sortNode_isDir (n : Node) : (sortNode n).isDir = n.isDir := by
  match n with
  | .mk nm d cs p li => rfl

theorem nodeLess_congr (f : Node → Node)
    (hf : ∀ a, (f a).name = a.name ∧ (f a).isDir = a.isDir) (a b : Node) :
    nodeLess (f a) (f b) = nodeLess a b := by
  simp [nodeLess, (hf a).1, (hf a).2, (hf b).1, (hf b).2]

theorem orderedInsert_map_nodes (f : Node → Node)
    (hf : ∀ a, (f a).name = a.name ∧ (f a).isDir = a.isDir) (x : Node) :
    ∀ l : List Node,
      (List.orderedInsert (fun a b => nodeLess b a = false) x l).map f =
        List.orderedInsert (fun a b => nodeLess b a = false) (f x) (l.map f) := by
  intro l
  induction l with
  | nil => simp [List.orderedInsert]
  | cons hd tl ih =>
    simp only [List.orderedInsert, List.map_cons, nodeLess_congr f hf]
    by_cases h : nodeLess hd x = false
    · simp [h]
    · simp [h, ih]

theorem sortNodes_map (f : Node → Node)
    (hf : ∀ a, (f a).name = a.name ∧ (f a).isDir = a.isDir) :
    ∀ l : List Node, sortNodes (l.map f) = (sortNodes l).map f := by
  intro l
  induction l with
  | nil => rfl
  | cons hd tl ih =>
    simp only [sortNodes, List.map_cons, List.insertionSort] at *
    rw [ih, orderedInsert_map_nodes f hf]

theorem sortedKids_eq_map : ∀ l : List Node, sortedKids l = l.map sortNode := by
  intro l
  induction l with
  | nil => rfl
  | cons hd tl ih => simp [sortedKids, ih]

theorem sortedKids_sortNodes (l : List Node) :
    sortedKids (sortNodes l) = sortNodes (sortedKids l) := by
  rw [sortedKids_eq_map, sortedKids_eq_map,
    sortNodes_map sortNode (fun a => ⟨sortNode_name a, sortNode_isDir a⟩)]

mutual

theorem writeSimpleTreeNode_eq (n : Node) (depth : Nat) :
    writeSimpleTreeNode n depth = (renderPlainNode (sortNode n) depth, sortNode n) := by
  match n with
  | .mk nm d cs p li =>
    rw [writeSimpleTreeNode, writeSimpleForest_eq (sortNodes cs) (depth + 1)]
    simp only [sortedKids_sortNodes]
    rw [sortNode, renderPlainNode]
termination_by sizeOf n
decreasing_by simp only [sizeOf_sortNodes, Node.mk.sizeOf_spec]; omega

theorem writeSimpleForest_eq (l : List Node) (depth : Nat) :
    writeSimpleForest l depth =
      (renderPlainForest (sortedKids l) depth, sortedKids l) := by
  match l with
  | [] => rw [writeSimpleForest, sortedKids, renderPlainForest]
  | x :: xs =>
    rw [writeSimpleForest, writeSimpleTreeNode_eq x depth, writeSimpleForest_eq xs depth,
      sortedKids, renderPlainForest]
termination_by sizeOf l
decreasing_by all_goals (simp only [List.cons.sizeOf_spec]; omega)

end

/-- `ToTreeSimple` renders the recursively sorted forest and leaves exactly
that forest behind. -/
theorem toTreeSimple_eq (nodes : List Node) :
    ToTreeSimple nodes = (renderPlainForest (sortForest nodes) 0, sortForest nodes) := by
  rw [ToTreeSimple, writeSimpleForest_eq, sortedKids_sortNodes, sortForest]

/-- C8 counterexample: `ToTreeSimple` reorders the root sibling list (the
file `b` and directory `a` swap places), so the forest is not left
unchanged by the export call. -/
theorem C8_counterexample :
    ((ToTreeSimple [Node.mk "b" false [] "" 0, Node.mk "a" true [] "" 0]).2).map Node.name ≠
      [Node.mk "b" false [] "" 0, Node.mk "a" true [] "" 0].map Node.name := by
  simp only [toTreeSimple_eq]
  decide

/-! A structural renderer for the box-drawing format over an already-sorted
tree, mirroring `writeTreeNode`. -/

mutual

/-- Render one node of an already-sorted tree in the box-drawing form. -/
def renderBoxNode : Node → String → Bool → String
  | .mk nm d cs _ _, indent, isLast =>
    (if indent = "" then (if d then nm ++ "/" else nm) ++ "\n"
     else if isLast then indent ++ "└── " ++ (if d then nm ++ "/" else nm) ++ "\n"
     else indent ++ "├── " ++ (if d then nm ++ "/" else nm) ++ "\n") ++
      renderBoxForest cs
        (if indent = "" then "" else if isLast then indent ++ "    " else indent ++ "│   ")

/-- Render an already-sorted forest in the box-drawing form. -/
def renderBoxForest : List Node → String → String
  | [], _ => ""
  | x :: xs, indent => renderBoxNode x indent xs.isEmpty ++ renderBoxForest xs indent

end

theorem sortedKids_isEmpty (l : List Node) : (sortedKids l).isEmpty = l.isEmpty := by
  cases l <;> rfl

theorem sortNode_mk (nm : String) (d : Bool) (cs : List Node) (p : String) (li : Nat) :
    sortNode (Node.mk nm d cs p li) = Node.mk nm d (sortNodes (sortedKids cs)) p li := by
  rw [sortNode]

mutual

theorem writeTreeNode_eq (n : Node) (indent : String) (isLast : Bool) :
    writeTreeNode n indent isLast = (renderBoxNode (sortNode n) indent isLast, sortNode n) := by
  match n with
  | .mk nm d cs p li =>
    rw [writeTreeNode, writeTreeForest_eq (sortNodes cs)
      (if indent = "" then "" else if isLast then indent ++ "    " else indent ++ "│   ")]
    rw [sortNode_mk, renderBoxNode]
    rw [sortedKids_sortNodes]
termination_by sizeOf n
decreasing_by simp only [sizeOf_sortNodes, Node.mk.sizeOf_spec]; omega

theorem writeTreeForest_eq (l : List Node) (indent : String) :
    writeTreeForest l indent = (renderBoxForest (sortedKids l) indent, sortedKids l) := by
  match l with
  | [] => rw [writeTreeForest, sortedKids, renderBoxForest]
  | x :: xs =>
    rw [writeTreeForest, writeTreeNode_eq x indent, writeTreeForest_eq xs indent,
      sortedKids, renderBoxForest, sortedKids_isEmpty]
termination_by sizeOf l
decreasing_by all_goals (simp only [List.cons.sizeOf_spec]; omega)

end

/-- The output of the root loop: every root rendered with empty indent and
`isLast = true`. -/
def renderBoxRoots : List Node → String
  | [] => ""
  | x :: xs => renderBoxNode x "" true ++ renderBoxRoots xs

theorem toTreeRoots_eq (l : List Node) :
    toTreeRoots l = (renderBoxRoots (sortedKids l), sortedKids l) := by
  induction l with
  | nil => rw [toTreeRoots, sortedKids, renderBoxRoots]
  | cons x xs ih =>
    rw [toTreeRoots, writeTreeNode_eq x "" true, ih, sortedKids, renderBoxRoots]

theorem toTree_eq (nodes : List Node) :
    ToTree nodes = (renderBoxRoots (sortForest nodes), sortForest nodes) := by
  rw [ToTree, toTreeRoots_eq, sortedKids_sortNodes, sortForest]

/-! The map exporters (`ToYAML`/`ToJSON` via `nodesToMap`) do not recurse
into the children of file nodes, so their post-state sorts only the sibling
lists reachable through directories. -/

mutual

/-- The forest as `nodesToMap` leaves it: sibling lists sorted, recursively
below directories only. -/
def mapSortNode : Node → Node
  | .mk nm d cs p li => .mk nm d (if d then sortNodes (mapSortKids cs) else cs) p li

/-- `mapSortNode` mapped over a list. -/
def mapSortKids : List Node → List Node
  | [] => []
  | x :: xs => mapSortNode x :: mapSortKids xs

end

/-- The forest sorted below directories. -/
def mapSortForest (l : List Node) : List Node :=
  sortNodes (mapSortKids l)

/-- The map structure built from an already-`mapSort`ed forest. -/
def mvKids : List Node → List (String × MapVal)
  | [] => []
  | .mk nm d cs _ _ :: xs =>
    (nm, if d then MapVal.map (mvKids cs) else MapVal.null) :: mvKids xs

theorem mapSortNode_name (n : Node) : (mapSortNode n).name = n.name := by
  match n with
  | .mk nm d cs p li => rfl

theorem mapSortNode_isDir (n : Node) : (mapSortNode n).isDir = n.isDir := by
  match n with
  | .mk nm d cs p li => rfl

theorem mapSortKids_eq_map : ∀ l : List Node, mapSortKids l = l.map mapSortNode := by
  intro l
  induction l with
  | nil => rfl
  | cons hd tl ih => simp [mapSortKids, ih]

theorem mapSortKids_sortNodes (l : List Node) :
    mapSortKids (sortNodes l) = sortNodes (mapSortKids l) := by
  rw [mapSortKids_eq_map, mapSortKids_eq_map,
    sortNodes_map mapSortNode (fun a => ⟨mapSortNode_name a, mapSortNode_isDir a⟩)]

mutual

theorem nodesToMap_eq (nodes : List Node) :
    nodesToMap nodes = (mvKids (mapSortForest nodes), mapSortForest nodes) := by
  rw [nodesToMap, nodesToMapLoop_eq (sortNodes nodes), mapSortKids_sortNodes, mapSortForest]
termination_by (sizeOf nodes, 1)
decreasing_by simp only [sizeOf_sortNodes]; omega

theorem nodesToMapLoop_eq (l : List Node) :
    nodesToMapLoop l = (mvKids (mapSortKids l), mapSortKids l) := by
  match l with
  | [] => rw [nodesToMapLoop, mapSortKids, mvKids]
  | .mk nm d cs p li :: xs =>
    cases d with
    | true =>
      rw [nodesToMapLoop, nodesToMap_eq cs, nodesToMapLoop_eq xs]
      rw [mapSortKids, mapSortNode]
      simp only [if_true, mvKids, mapSortForest]
    | false =>
      rw [nodesToMapLoop, nodesToMapLoop_eq xs]
      rw [mapSortKids, mapSortNode]
      simp only [Bool.false_eq_true, if_false, mvKids]
termination_by (sizeOf l, 0)
decreasing_by
  · simp [Node.mk.sizeOf_spec]; omega
  · simp; omega
  · simp; omega

end

end Chassis
namespace Chassis

/-! Equality of forests up to reordering of sibling lists: `NodeUpTo a b`
says `a` and `b` have the same name, the same directory flag, and children
equal up to the same relation after some permutation of each sibling list
(`path`/`line` metadata is not compared). -/

mutual

/-- Node equality up to sibling reordering. -/
inductive NodeUpTo : Node → Node → Prop where
  | mk : ∀ {nm₁ nm₂ : String} {d₁ d₂ : Bool} {cs₁ cs₂ : List Node}
      {p₁ p₂ : String} {l₁ l₂ : Nat},
      nm₁ = nm₂ → d₁ = d₂ → ForestUpTo cs₁ cs₂ →
      NodeUpTo (.mk nm₁ d₁ cs₁ p₁ l₁) (.mk nm₂ d₂ cs₂ p₂ l₂)

/-- Forest equality up to sibling reordering: the permutation constructors
of `List.Perm` generalized over `NodeUpTo`. -/
inductive ForestUpTo : List Node → List Node → Prop where
  | nil : ForestUpTo [] []
  | cons : ∀ {x y : Node} {xs ys : List Node},
      NodeUpTo x y → ForestUpTo xs ys → ForestUpTo (x :: xs) (y :: ys)
  | swap : ∀ {x y : Node} {l : List Node}, ForestUpTo (x :: y :: l) (y :: x :: l)
  | trans : ∀ {a b c : List Node}, ForestUpTo a b → ForestUpTo b c → ForestUpTo a c

end

mutual

theorem NodeUpTo.rfl : ∀ (n : Node), NodeUpTo n n
  | .mk _ _ cs _ _ => NodeUpTo.mk (by rfl) (by rfl) (ForestUpTo.refl cs)

theorem ForestUpTo.refl : ∀ (l : List Node), ForestUpTo l l
  | [] => ForestUpTo.nil
  | x :: xs => ForestUpTo.cons (NodeUpTo.rfl x) (ForestUpTo.refl xs)

end

theorem ForestUpTo.ofPerm {l₁ l₂ : List Node} (h : l₁.Perm l₂) : ForestUpTo l₁ l₂ := by
  induction h with
  | nil => exact .nil
  | cons x _ ih => exact .cons (NodeUpTo.rfl x) ih
  | swap x y l => exact .swap
  | trans _ _ ih₁ ih₂ => exact .trans ih₁ ih₂

mutual

theorem nodeUpTo_sortNode : ∀ (n : Node), NodeUpTo n (sortNode n)
  | .mk nm d cs p li => by
    rw [sortNode]
    exact NodeUpTo.mk (by rfl) (by rfl)
      (ForestUpTo.trans (forestUpTo_sortedKids cs)
        (ForestUpTo.ofPerm (List.perm_insertionSort _ (sortedKids cs)).symm))

theorem forestUpTo_sortedKids : ∀ (l : List Node), ForestUpTo l (sortedKids l)
  | [] => ForestUpTo.nil
  | x :: xs => by
    rw [sortedKids]
    exact ForestUpTo.cons (nodeUpTo_sortNode x) (forestUpTo_sortedKids xs)

end

theorem forestUpTo_sortForest (l : List Node) : ForestUpTo l (sortForest l) :=
  ForestUpTo.trans (forestUpTo_sortedKids l)
    (ForestUpTo.ofPerm (List.perm_insertionSort _ (sortedKids l)).symm)

mutual

theorem nodeUpTo_mapSortNode : ∀ (n : Node), NodeUpTo n (mapSortNode n)
  | .mk nm d cs p li => by
    rw [mapSortNode]
    cases d with
    | true =>
      exact NodeUpTo.mk (by rfl) (by rfl)
        (ForestUpTo.trans (forestUpTo_mapSortKids cs)
          (ForestUpTo.ofPerm (List.perm_insertionSort _ (mapSortKids cs)).symm))
    | false =>
      exact NodeUpTo.mk (by rfl) (by rfl) (ForestUpTo.refl cs)

theorem forestUpTo_mapSortKids : ∀ (l : List Node), ForestUpTo l (mapSortKids l)
  | [] => ForestUpTo.nil
  | x :: xs => by
    rw [mapSortKids]
    exact ForestUpTo.cons (nodeUpTo_mapSortNode x) (forestUpTo_mapSortKids xs)

end

theorem forestUpTo_mapSortForest (l : List Node) : ForestUpTo l (mapSortForest l) :=
  ForestUpTo.trans (forestUpTo_mapSortKids l)
    (ForestUpTo.ofPerm (List.perm_insertionSort _ (mapSortKids l)).symm)

/-- C8 amended: exporters are not read-only — each export call sorts every
sibling list it reaches in place (directories before files, case-insensitive
name order; the map exporters do not reach below file nodes), so sibling
order is generally changed by exporting.  What is preserved is everything up
to sibling reordering: the post-call forest has the same names, directory
flags, and child multisets as the original (`ForestUpTo`). -/
theorem C8_amended (nodes : List Node) :
    (ToTreeSimple nodes).2 = sortForest nodes ∧
    (ToTree nodes).2 = sortForest nodes ∧
    (ToMapExport nodes).2 = mapSortForest nodes ∧
    ForestUpTo nodes (sortForest nodes) ∧
    ForestUpTo nodes (mapSortForest nodes) := by
  refine ⟨?_, ?_, ?_, forestUpTo_sortForest nodes, forestUpTo_mapSortForest nodes⟩
  · rw [toTreeSimple_eq]
  · rw [toTree_eq]
  · rw [ToMapExport, nodesToMap_eq]

end Chassis

namespace Chassis

/-! ## C9 — the map parsers

`validJV` marks the decoded values the parsers accept (objects whose values
are recursively acceptable; `null`; the empty string).  `specMapForest` is
the specification-side description of the parse (this is the one definition
written from the specification's words, for the refinement statement): per
key, in lexicographically sorted order, a nested object is a directory
parsed recursively and a `null`/empty-string value is a file.
`firstBadEntries` finds the first offending key/value in that same order,
descending into nested objects. -/

mutual

/-- The value kinds the map parsers accept. -/
def validJV : JValue → Bool
  | .obj entries => validJEntries entries
  | .null => true
  | .str s => s == ""
  | _ => false

/-- All values of the object are acceptable. -/
def validJEntries : List (String × JValue) → Bool
  | [] => true
  | (_, v) :: rest => validJV v && validJEntries rest

end

mutual

/-- Specification of the map parse: keys sorted, objects are directories
(parsed recursively), everything else accepted is a file. -/
def specMapForest (entries : List (String × JValue)) (parentPath : String) : List Node :=
  specMapLoop (sortEntries entries) parentPath
termination_by (sizeOf entries, 1)
decreasing_by simp only [sizeOf_sortEntries]; omega

/-- The sorted-key loop of `specMapForest`. -/
def specMapLoop : List (String × JValue) → String → List Node
  | [], _ => []
  | (name, v) :: rest, parentPath =>
    (match v with
     | .obj es => Node.mk name true (specMapForest es (mapPath parentPath name))
         (mapPath parentPath name) 0
     | _ => Node.mk name false [] (mapPath parentPath name) 0) :: specMapLoop rest parentPath
termination_by l => (sizeOf l, 0)
decreasing_by
  · simp; omega
  · simp; omega

end

mutual

/-- The first unacceptable key/value in sorted order, descending into
nested objects. -/
def firstBadEntries (entries : List (String × JValue)) : Option (String × JValue) :=
  firstBadLoop (sortEntries entries)
termination_by (sizeOf entries, 1)
decreasing_by simp only [sizeOf_sortEntries]; omega

/-- The sorted-key loop of `firstBadEntries`. -/
def firstBadLoop : List (String × JValue) → Option (String × JValue)
  | [] => none
  | (name, v) :: rest =>
    match v with
    | .obj es =>
      (match firstBadEntries es with
       | some b => some b
       | none => firstBadLoop rest)
    | .null => firstBadLoop rest
    | .str s => if s = "" then firstBadLoop rest else some (name, .str s)
    | other => some (name, other)
termination_by l => (sizeOf l, 0)
decreasing_by all_goals (simp; omega)

end

/-- The error text `parseObject` produces for an offending key/value. -/
def jsonBadMsg (k : String) : JValue → String
  | .str s => "unexpected string value for " ++ k ++
      ": files should have null or empty string value, got \"" ++ s ++ "\""
  | v => "unexpected value type for " ++ k ++ ": " ++ goTypeName v ++
      " (use null for files, \x7b\x7d for directories)"

/-- The error text `parseMap` produces for an offending key/value. -/
def yamlBadMsg (k : String) : JValue → String
  | .str _ => "unexpected string value for " ++ k ++
      ": files should have null or empty string value"
  | v => "unexpected value type for " ++ k ++ ": " ++ goTypeName v ++
      " (use null for files, \x7b\x7d for empty directories)"

theorem validJEntries_iff_forall :
    ∀ l : List (String × JValue),
      validJEntries l = true ↔ ∀ x ∈ l, validJV x.2 = true := by
  intro l
  induction l with
  | nil => simp [validJEntries]
  | cons hd tl ih =>
    obtain ⟨nm, v⟩ := hd
    simp [validJEntries, ih, Bool.and_eq_true]

theorem validJEntries_sortEntries (l : List (String × JValue)) :
    validJEntries (sortEntries l) = validJEntries l := by
  by_cases h : validJEntries l = true
  · rw [h]
    rw [validJEntries_iff_forall]
    intro x hx
    exact (validJEntries_iff_forall l).mp h x
      ((List.perm_insertionSort _ l).mem_iff.mp hx)
  · have h2 : ¬ validJEntries (sortEntries l) = true := by
      intro hc
      refine h ((validJEntries_iff_forall l).mpr ?_)
      intro x hx
      exact (validJEntries_iff_forall _).mp hc x
        ((List.perm_insertionSort _ l).mem_iff.mpr hx)
    simp only [Bool.not_eq_true] at h h2
    rw [h, h2]

end Chassis

namespace Chassis

theorem specMapLoop_cons (name : String) (v : JValue) (rest : List (String × JValue))
    (p : String) :
    specMapLoop ((name, v) :: rest) p =
      (match v with
       | .obj es => Node.mk name true (specMapForest es (mapPath p name)) (mapPath p name) 0
       | _ => Node.mk name false [] (mapPath p name) 0) :: specMapLoop rest p := by
  cases v <;> rw [specMapLoop]
  all_goals intro es h
  all_goals simp at h

theorem specMapForest_nil (p : String) : specMapForest [] p = [] := by
  have h : sortEntries ([] : List (String × JValue)) = [] := rfl
  rw [specMapForest, h, specMapLoop]

mutual

theorem parseObject_valid (es : List (String × JValue)) (p : String)
    (h : validJEntries es = true) :
    parseObject es p = .ok (specMapForest es p) := by
  rw [parseObject, specMapForest]
  refine parseObjectLoop_valid (sortEntries es) p ?_
  intro x hx
  exact (validJEntries_iff_forall es).mp h x
    ((List.perm_insertionSort _ es).mem_iff.mp hx)
termination_by (sizeOf es, 2)
decreasing_by simp only [sizeOf_sortEntries]; omega

theorem parseObjectLoop_valid (l : List (String × JValue)) (p : String)
    (h : ∀ x ∈ l, validJV x.2 = true) :
    parseObjectLoop l p = .ok (specMapLoop l p) := by
  match l with
  | [] => rw [parseObjectLoop, specMapLoop]
  | (name, .obj es) :: rest =>
    have hes : validJEntries es = true := by
      simpa [validJV] using h (name, .obj es) (by simp)
    have hrec := parseObjectLoop_valid rest p (fun x hx => h x (by simp [hx]))
    rw [parseObjectLoop, specMapLoop_cons]
    by_cases hemp : es.isEmpty
    · have he : es = [] := by simpa [List.isEmpty_iff] using hemp
      subst he
      simp only [List.isEmpty_nil, if_true, hrec, specMapForest_nil]
      rfl
    · have hne : es.isEmpty = false := by simpa using hemp
      have hrec2 := parseObject_valid es (mapPath p name) hes
      simp only [hne, Bool.false_eq_true, if_false, hrec2, hrec]
      rfl
  | (name, .null) :: rest =>
    have hrec := parseObjectLoop_valid rest p (fun x hx => h x (by simp [hx]))
    rw [parseObjectLoop, specMapLoop_cons]
    simp only [hrec]
    rfl
  | (name, .str s) :: rest =>
    have hs : s = "" := by simpa [validJV] using h (name, .str s) (by simp)
    subst hs
    have hrec := parseObjectLoop_valid rest p (fun x hx => h x (by simp [hx]))
    rw [parseObjectLoop, specMapLoop_cons]
    simp only [if_pos rfl, hrec]
    rfl
  | (name, .num) :: rest =>
    have hbad := h (name, .num) (by simp)
    simp [validJV] at hbad
  | (name, .boolV b) :: rest =>
    have hbad := h (name, .boolV b) (by simp)
    simp [validJV] at hbad
  | (name, .arr elems) :: rest =>
    have hbad := h (name, .arr elems) (by simp)
    simp [validJV] at hbad
termination_by (sizeOf l, 0)
decreasing_by all_goals first
  | (simp only [sizeOf_sortEntries]; omega)
  | (simp; omega)

end

end Chassis

namespace Chassis

mutual

theorem parseMap_valid (es : List (String × JValue)) (p : String)
    (h : validJEntries es = true) :
    parseMap es p = .ok (specMapForest es p) := by
  rw [parseMap, specMapForest]
  refine parseMapLoop_valid (sortEntries es) p ?_
  intro x hx
  exact (validJEntries_iff_forall es).mp h x
    ((List.perm_insertionSort _ es).mem_iff.mp hx)
termination_by (sizeOf es, 2)
decreasing_by simp only [sizeOf_sortEntries]; omega

theorem parseMapLoop_valid (l : List (String × JValue)) (p : String)
    (h : ∀ x ∈ l, validJV x.2 = true) :
    parseMapLoop l p = .ok (specMapLoop l p) := by
  match l with
  | [] => rw [parseMapLoop, specMapLoop]
  | (name, .obj es) :: rest =>
    have hes : validJEntries es = true := by
      simpa [validJV] using h (name, .obj es) (by simp)
    have hrec := parseMapLoop_valid rest p (fun x hx => h x (by simp [hx]))
    have hrec2 := parseMap_valid es (mapPath p name) hes
    rw [parseMapLoop, specMapLoop_cons]
    simp only [hrec2, hrec]
    rfl
  | (name, .null) :: rest =>
    have hrec := parseMapLoop_valid rest p (fun x hx => h x (by simp [hx]))
    rw [parseMapLoop, specMapLoop_cons]
    simp only [hrec]
    rfl
  | (name, .str s) :: rest =>
    have hs : s = "" := by simpa [validJV] using h (name, .str s) (by simp)
    subst hs
    have hrec := parseMapLoop_valid rest p (fun x hx => h x (by simp [hx]))
    rw [parseMapLoop, specMapLoop_cons]
    simp only [if_pos rfl, hrec]
    rfl
  | (name, .num) :: rest =>
    have hbad := h (name, .num) (by simp)
    simp [validJV] at hbad
  | (name, .boolV b) :: rest =>
    have hbad := h (name, .boolV b) (by simp)
    simp [validJV] at hbad
  | (name, .arr elems) :: rest =>
    have hbad := h (name, .arr elems) (by simp)
    simp [validJV] at hbad
termination_by (sizeOf l, 0)
decreasing_by all_goals first
  | (simp only [sizeOf_sortEntries]; omega)
  | (simp; omega)

end

mutual

theorem firstBadEntries_none (es : List (String × JValue))
    (h : firstBadEntries es = none) : validJEntries es = true := by
  rw [firstBadEntries] at h
  refine (validJEntries_iff_forall es).mpr ?_
  intro x hx
  exact firstBadLoop_none (sortEntries es) h x
    ((List.perm_insertionSort _ es).mem_iff.mpr hx)
termination_by (sizeOf es, 2)
decreasing_by simp only [sizeOf_sortEntries]; omega

theorem firstBadLoop_none (l : List (String × JValue))
    (h : firstBadLoop l = none) : ∀ x ∈ l, validJV x.2 = true := by
  match l with
  | [] => intro x hx; simp at hx
  | (name, .obj es) :: rest =>
    rw [firstBadLoop] at h
    cases hfb : firstBadEntries es with
    | some b => rw [hfb] at h; simp at h
    | none =>
      rw [hfb] at h
      intro x hx
      rcases List.mem_cons.mp hx with rfl | hx
      · simpa [validJV] using firstBadEntries_none es hfb
      · exact firstBadLoop_none rest h x hx
  | (name, .null) :: rest =>
    rw [firstBadLoop] at h
    intro x hx
    rcases List.mem_cons.mp hx with rfl | hx
    · simp [validJV]
    · exact firstBadLoop_none rest h x hx
  | (name, .str s) :: rest =>
    rw [firstBadLoop] at h
    by_cases hs : s = ""
    · rw [if_pos hs] at h
      intro x hx
      rcases List.mem_cons.mp hx with rfl | hx
      · simp [validJV, hs]
      · exact firstBadLoop_none rest h x hx
    · rw [if_neg hs] at h; simp at h
  | (name, .num) :: rest => simp [firstBadLoop] at h
  | (name, .boolV b) :: rest => simp [firstBadLoop] at h
  | (name, .arr elems) :: rest => simp [firstBadLoop] at h
termination_by (sizeOf l, 0)
decreasing_by all_goals first
  | (simp only [sizeOf_sortEntries]; omega)
  | (simp; omega)

end

end Chassis

namespace Chassis

mutual

theorem parseObject_bad (es : List (String × JValue)) (p : String) (k : String) (v : JValue)
    (h : firstBadEntries es = some (k, v)) :
    parseObject es p = .error (jsonBadMsg k v) := by
  rw [firstBadEntries] at h
  rw [parseObject]
  exact parseObjectLoop_bad (sortEntries es) p k v h
termination_by (sizeOf es, 2)
decreasing_by simp only [sizeOf_sortEntries]; omega

theorem parseObjectLoop_bad (l : List (String × JValue)) (p : String) (k : String) (v : JValue)
    (h : firstBadLoop l = some (k, v)) :
    parseObjectLoop l p = .error (jsonBadMsg k v) := by
  match l with
  | [] => rw [firstBadLoop] at h; simp at h
  | (name, .obj es) :: rest =>
    rw [firstBadLoop] at h
    rw [parseObjectLoop]
    cases hfb : firstBadEntries es with
    | some b =>
      rw [hfb] at h
      simp only [Option.some.injEq] at h
      subst h
      have hne : es.isEmpty = false := by
        cases hes : es with
        | nil =>
          subst hes
          rw [firstBadEntries,
            show sortEntries ([] : List (String × JValue)) = [] from rfl,
            firstBadLoop] at hfb
          simp at hfb
        | cons a as => rfl
      have hrec2 := parseObject_bad es (mapPath p name) k v hfb
      simp only [hne, Bool.false_eq_true, if_false, hrec2]
      rfl
    | none =>
      rw [hfb] at h
      have hes : validJEntries es = true := firstBadEntries_none es hfb
      have hrec := parseObjectLoop_bad rest p k v h
      by_cases hemp : es.isEmpty
      · simp only [hemp, if_true, hrec]
        rfl
      · have hne : es.isEmpty = false := by simpa using hemp
        have hok := parseObject_valid es (mapPath p name) hes
        simp only [hne, Bool.false_eq_true, if_false, hok, hrec]
        rfl
  | (name, .null) :: rest =>
    rw [firstBadLoop] at h
    have hrec := parseObjectLoop_bad rest p k v h
    rw [parseObjectLoop]
    simp only [hrec]
    rfl
  | (name, .str s) :: rest =>
    rw [firstBadLoop] at h
    rw [parseObjectLoop]
    by_cases hs : s = ""
    · rw [if_pos hs] at h
      have hrec := parseObjectLoop_bad rest p k v h
      subst hs
      simp only [if_pos rfl, hrec]
      rfl
    · rw [if_neg hs] at h
      simp only [Option.some.injEq, Prod.mk.injEq] at h
      obtain ⟨rfl, rfl⟩ := h
      simp only [if_neg hs]
      rfl
  | (name, .num) :: rest =>
    rw [firstBadLoop] at h
    simp only [Option.some.injEq, Prod.mk.injEq] at h
    obtain ⟨rfl, rfl⟩ := h
    rw [parseObjectLoop]
    · rfl
    all_goals simp
  | (name, .boolV b) :: rest =>
    rw [firstBadLoop] at h
    simp only [Option.some.injEq, Prod.mk.injEq] at h
    obtain ⟨rfl, rfl⟩ := h
    rw [parseObjectLoop]
    · rfl
    all_goals simp
  | (name, .arr elems) :: rest =>
    rw [firstBadLoop] at h
    simp only [Option.some.injEq, Prod.mk.injEq] at h
    obtain ⟨rfl, rfl⟩ := h
    rw [parseObjectLoop]
    · rfl
    all_goals simp
termination_by (sizeOf l, 0)
decreasing_by all_goals first
  | (simp only [sizeOf_sortEntries]; omega)
  | (simp; omega)

end

mutual

theorem parseMap_bad (es : List (String × JValue)) (p : String) (k : String) (v : JValue)
    (h : firstBadEntries es = some (k, v)) :
    parseMap es p = .error (yamlBadMsg k v) := by
  rw [firstBadEntries] at h
  rw [parseMap]
  exact parseMapLoop_bad (sortEntries es) p k v h
termination_by (sizeOf es, 2)
decreasing_by simp only [sizeOf_sortEntries]; omega

theorem parseMapLoop_bad (l : List (String × JValue)) (p : String) (k : String) (v : JValue)
    (h : firstBadLoop l = some (k, v)) :
    parseMapLoop l p = .error (yamlBadMsg k v) := by
  match l with
  | [] => rw [firstBadLoop] at h; simp at h
  | (name, .obj es) :: rest =>
    rw [firstBadLoop] at h
    rw [parseMapLoop]
    cases hfb : firstBadEntries es with
    | some b =>
      rw [hfb] at h
      simp only [Option.some.injEq] at h
      subst h
      have hrec2 := parseMap_bad es (mapPath p name) k v hfb
      simp only [hrec2]
      rfl
    | none =>
      rw [hfb] at h
      have hes : validJEntries es = true := firstBadEntries_none es hfb
      have hrec := parseMapLoop_bad rest p k v h
      have hok := parseMap_valid es (mapPath p name) hes
      simp only [hok, hrec]
      rfl
  | (name, .null) :: rest =>
    rw [firstBadLoop] at h
    have hrec := parseMapLoop_bad rest p k v h
    rw [parseMapLoop]
    simp only [hrec]
    rfl
  | (name, .str s) :: rest =>
    rw [firstBadLoop] at h
    rw [parseMapLoop]
    by_cases hs : s = ""
    · rw [if_pos hs] at h
      have hrec := parseMapLoop_bad rest p k v h
      subst hs
      simp only [if_pos rfl, hrec]
      rfl
    · rw [if_neg hs] at h
      simp only [Option.some.injEq, Prod.mk.injEq] at h
      obtain ⟨rfl, rfl⟩ := h
      simp only [if_neg hs]
      rfl
  | (name, .num) :: rest =>
    rw [firstBadLoop] at h
    simp only [Option.some.injEq, Prod.mk.injEq] at h
    obtain ⟨rfl, rfl⟩ := h
    rw [parseMapLoop]
    · rfl
    all_goals simp
  | (name, .boolV b) :: rest =>
    rw [firstBadLoop] at h
    simp only [Option.some.injEq, Prod.mk.injEq] at h
    obtain ⟨rfl, rfl⟩ := h
    rw [parseMapLoop]
    · rfl
    all_goals simp
  | (name, .arr elems) :: rest =>
    rw [firstBadLoop] at h
    simp only [Option.some.injEq, Prod.mk.injEq] at h
    obtain ⟨rfl, rfl⟩ := h
    rw [parseMapLoop]
    · rfl
    all_goals simp
termination_by (sizeOf l, 0)
decreasing_by all_goals first
  | (simp only [sizeOf_sortEntries]; omega)
  | (simp; omega)

end

end Chassis

namespace Chassis

theorem sorted_pairs_eq :
    ∀ (l₁ l₂ : List (String × JValue)), l₁.Perm l₂ →
    l₁.Pairwise (fun a b => a.1 ≤ b.1) → l₂.Pairwise (fun a b => a.1 ≤ b.1) →
    (l₁.map Prod.fst).Nodup → l₁ = l₂ := by
  intro l₁
  induction l₁ with
  | nil =>
    intro l₂ hp _ _ _
    exact hp.nil_eq
  | cons a t₁ ih =>
    intro l₂ hp hs₁ hs₂ hnd
    cases l₂ with
    | nil => exact absurd hp.symm.nil_eq (by simp)
    | cons b t₂ =>
      have hab : a = b := by
        have ha : a ∈ b :: t₂ := hp.subset (List.mem_cons_self a t₁)
        rcases List.mem_cons.mp ha with h | ha'
        · exact h
        · have hb : b ∈ a :: t₁ := hp.symm.subset (List.mem_cons_self b t₂)
          rcases List.mem_cons.mp hb with h | hb'
          · exact h.symm
          · have h1 : a.1 ≤ b.1 := (List.pairwise_cons.mp hs₁).1 b hb'
            have h2 : b.1 ≤ a.1 := (List.pairwise_cons.mp hs₂).1 a ha'
            have hkey : a.1 = b.1 := le_antisymm h1 h2
            exfalso
            simp only [List.map_cons, List.nodup_cons] at hnd
            exact hnd.1 (hkey ▸ List.mem_map.mpr ⟨b, hb', rfl⟩)
      subst hab
      have hp' : t₁.Perm t₂ := hp.cons_inv
      have := ih t₂ hp' (List.pairwise_cons.mp hs₁).2 (List.pairwise_cons.mp hs₂).2
        (by simp only [List.map_cons, List.nodup_cons] at hnd; exact hnd.2)
      rw [this]

theorem sortEntries_perm_eq (e₁ e₂ : List (String × JValue))
    (hnd : (e₁.map Prod.fst).Nodup) (hp : e₁.Perm e₂) :
    sortEntries e₁ = sortEntries e₂ := by
  haveI ht : IsTotal (String × JValue) (fun a b => a.1 ≤ b.1) :=
    ⟨fun a b => le_total a.1 b.1⟩
  haveI htr : IsTrans (String × JValue) (fun a b => a.1 ≤ b.1) :=
    ⟨fun a b c hab hbc => le_trans hab hbc⟩
  refine sorted_pairs_eq _ _ ?_ ?_ ?_ ?_
  · exact (List.perm_insertionSort _ e₁).trans (hp.trans (List.perm_insertionSort _ e₂).symm)
  · exact List.sorted_insertionSort _ e₁
  · exact List.sorted_insertionSort _ e₂
  · exact (((List.perm_insertionSort _ e₁).map Prod.fst).nodup_iff).mpr hnd

theorem specMapLoop_names : ∀ (l : List (String × JValue)) (p : String),
    (specMapLoop l p).map Node.name = l.map Prod.fst := by
  intro l
  induction l with
  | nil => intro p; rw [specMapLoop]; rfl
  | cons hd tl ih =>
    intro p
    obtain ⟨name, v⟩ := hd
    rw [specMapLoop_cons]
    cases v <;> simp [ih, Node.name]

/-- C9: for a decoded object, both map parsers process the keys in
lexicographically sorted order and refine the specification parse
(`specMapForest`): nested objects become directories parsed recursively,
`null`/empty-string values become files; any other value makes the whole
parse fail with an error naming the first offending key in that order; and
with the distinct keys a decoded map guarantees, the result is independent
of source entry order. -/
theorem C9_sorted_map_parse (entries : List (String × JValue)) (parentPath : String) :
    (validJEntries entries = true →
      parseObject entries parentPath = .ok (specMapForest entries parentPath) ∧
      parseMap entries parentPath = .ok (specMapForest entries parentPath) ∧
      (specMapForest entries parentPath).map Node.name = (sortEntries entries).map Prod.fst) ∧
    (∀ k v, firstBadEntries entries = some (k, v) →
      parseObject entries parentPath = .error (jsonBadMsg k v) ∧
      parseMap entries parentPath = .error (yamlBadMsg k v)) ∧
    (∀ entries₂, (entries.map Prod.fst).Nodup → entries.Perm entries₂ →
      parseObject entries parentPath = parseObject entries₂ parentPath ∧
      parseMap entries parentPath = parseMap entries₂ parentPath) := by
  refine ⟨?_, ?_, ?_⟩
  · intro h
    refine ⟨parseObject_valid entries parentPath h, parseMap_valid entries parentPath h, ?_⟩
    rw [specMapForest, specMapLoop_names]
  · intro k v h
    exact ⟨parseObject_bad entries parentPath k v h, parseMap_bad entries parentPath k v h⟩
  · intro entries₂ hnd hp
    have he := sortEntries_perm_eq entries entries₂ hnd hp
    rw [parseObject, parseObject, parseMap, parseMap, he]
    exact ⟨rfl, rfl⟩

/-- C9 witness: the success branch at a concrete two-key object. -/
theorem C9_witness :
    parseObject [("b", JValue.null), ("a", JValue.obj [])] "" =
      .ok (specMapForest [("b", JValue.null), ("a", JValue.obj [])] "") ∧
    parseMap [("b", JValue.null), ("a", JValue.obj [])] "" =
      .ok (specMapForest [("b", JValue.null), ("a", JValue.obj [])] "") ∧
    (specMapForest [("b", JValue.null), ("a", JValue.obj [])] "").map Node.name =
      (sortEntries [("b", JValue.null), ("a", JValue.obj [])]).map Prod.fst :=
  (C9_sorted_map_parse [("b", JValue.null), ("a", JValue.obj [])] "").1 (by decide)

end Chassis

namespace Chassis

/-! ## C5 — round-trip through the simple indented exporter

`wfName`/`wfNode`/`wfForest` characterize the forests the plain-text parser
can produce: names are non-empty, contain no `/` or newline, start with a
non-whitespace character other than `#`, file names also end in a
non-whitespace character, and file nodes are childless.  Rendering such a
forest with the simple two-space exporter and re-parsing it reconstructs the
forest up to `path`/`line` metadata (`stripNode`/`stripForest`). -/

/-- A name as the plain-text parser can produce it (for a node with
directory flag `d`). -/
def wfName (nm : String) (d : Bool) : Bool :=
  nm != "" && !nm.data.contains '/' && !nm.data.contains '\n' &&
  (match nm.data.head? with
   | some c => !isGoSpace c && !(c = '#')
   | none => false) &&
  (d || (match nm.data.getLast? with
         | some c => !isGoSpace c
         | none => false))

mutual

/-- The subtree is parser-producible. -/
def wfNode : Node → Bool
  | .mk nm d cs _ _ => wfName nm d && (d || cs.isEmpty) && wfForest cs

/-- The forest is parser-producible. -/
def wfForest : List Node → Bool
  | [] => true
  | x :: xs => wfNode x && wfForest xs

end

mutual

/-- Erase the diagnostic metadata (`path`, `line`). -/
def stripNode : Node → Node
  | .mk nm d cs _ _ => .mk nm d (stripForest cs) "" 0

/-- `stripNode` over a forest. -/
def stripForest : List Node → List Node
  | [] => []
  | x :: xs => stripNode x :: stripForest xs

end

theorem head_dropWhile_not (p : Char → Bool) :
    ∀ (l : List Char) (c : Char), (l.dropWhile p).head? = some c → p c = false := by
  intro l
  induction l with
  | nil => intro c h; simp at h
  | cons a as ih =>
    intro c h
    by_cases hpa : p a
    · rw [List.dropWhile_cons_of_pos hpa] at h
      exact ih c h
    · rw [List.dropWhile_cons_of_neg hpa] at h
      simp only [List.head?_cons, Option.some.injEq] at h
      subst h
      simpa using hpa

theorem dropWhile_eq_self_of_head (p : Char → Bool) (l : List Char)
    (h : ∀ c, l.head? = some c → p c = false) : l.dropWhile p = l := by
  cases l with
  | nil => rfl
  | cons a as =>
    rw [List.dropWhile_cons_of_neg]
    simp [h a rfl]

/-- `trimRight` piece of `trimSpace`. -/
theorem trimSpace_eq_self (l : List Char)
    (h1 : ∀ c, l.head? = some c → isGoSpace c = false)
    (h2 : ∀ c, l.getLast? = some c → isGoSpace c = false) :
    trimSpace l = l := by
  rw [trimSpace, dropWhile_eq_self_of_head _ l h1, dropWhile_eq_self_of_head, List.reverse_reverse]
  intro c hc
  rw [List.head?_reverse] at hc
  exact h2 c hc

theorem trimSpace_decomp (l : List Char) :
    ∃ a b, l = a ++ trimSpace l ++ b := by
  refine ⟨l.takeWhile isGoSpace, ((l.dropWhile isGoSpace).reverse.takeWhile isGoSpace).reverse, ?_⟩
  have hy : l.takeWhile isGoSpace ++ l.dropWhile isGoSpace = l :=
    List.takeWhile_append_dropWhile isGoSpace l
  have hz : (l.dropWhile isGoSpace).reverse.takeWhile isGoSpace ++
      (l.dropWhile isGoSpace).reverse.dropWhile isGoSpace = (l.dropWhile isGoSpace).reverse :=
    List.takeWhile_append_dropWhile isGoSpace (l.dropWhile isGoSpace).reverse
  have hy2 : l.dropWhile isGoSpace =
      ((l.dropWhile isGoSpace).reverse.dropWhile isGoSpace).reverse ++
      ((l.dropWhile isGoSpace).reverse.takeWhile isGoSpace).reverse := by
    have h3 := congrArg List.reverse hz
    rw [List.reverse_append, List.reverse_reverse] at h3
    exact h3.symm
  rw [trimSpace, List.append_assoc, ← hy2, hy]

theorem mem_trimSpace (l : List Char) (c : Char) (h : c ∈ trimSpace l) : c ∈ l := by
  obtain ⟨a, b, hd⟩ := trimSpace_decomp l
  rw [hd]
  simp [h]

theorem trimSpace_head_not (l : List Char) (c : Char)
    (h : (trimSpace l).head? = some c) : isGoSpace c = false := by
  rw [trimSpace] at h
  have hne : (l.dropWhile isGoSpace).reverse.dropWhile isGoSpace ≠ [] := by
    intro hnil
    rw [hnil] at h
    simp at h
  -- the reversed trimmed list is a suffix of the reversed dropWhile result,
  -- so the head of the result is the head of `dropWhile isGoSpace l`
  set y := l.dropWhile isGoSpace with hy
  have hdecomp : y.reverse = y.reverse.takeWhile isGoSpace ++ y.reverse.dropWhile isGoSpace :=
    (List.takeWhile_append_dropWhile isGoSpace y.reverse).symm
  have hyd : y = (y.reverse.dropWhile isGoSpace).reverse ++ (y.reverse.takeWhile isGoSpace).reverse := by
    conv_lhs => rw [← List.reverse_reverse y, hdecomp]
    rw [List.reverse_append]
  have hhead : y.head? = some c := by
    rw [hyd, List.head?_append_of_ne_nil]
    · exact h
    · simpa using hne
  exact head_dropWhile_not _ l c (hy ▸ hhead)

theorem trimSpace_getLast_not (l : List Char) (c : Char)
    (h : (trimSpace l).getLast? = some c) : isGoSpace c = false := by
  rw [trimSpace, List.getLast?_reverse] at h
  exact head_dropWhile_not _ _ c h

end Chassis

namespace Chassis

theorem head?_dropLast (l : List Char) (h : l.dropLast ≠ []) :
    l.dropLast.head? = l.head? := by
  cases l with
  | nil => simp at h
  | cons a as =>
    cases as with
    | nil => simp at h
    | cons b bs => rfl

theorem contains_false_iff (l : List Char) (c : Char) :
    l.contains c = false ↔ c ∉ l := by
  constructor
  · intro h hm
    have := List.elem_eq_true_of_mem hm
    rw [List.contains] at h
    rw [h] at this
    exact Bool.false_ne_true this

  · intro h
    cases hec : l.contains c with
    | false => rfl
    | true =>
      exact absurd (List.mem_of_elem_eq_true hec) h

theorem stringMk_ne_empty (l : List Char) (h : l ≠ []) :
    (String.mk l != "") = true := by
  rw [bne_iff_ne]
  intro he
  exact h (congrArg String.data he)

/-- Post-condition of `parseLine` on a line that contains no newline (as the
lines produced by `splitLines` do): a successfully parsed non-comment line
carries a parser-producible name. -/
theorem parseLine_wf (text : List Char) (k : Nat) (pl : ParsedLine)
    (hnl : '\n' ∉ text)
    (h : parseLine text k = .ok pl) (hc : pl.isComment = false) :
    wfName (String.mk pl.content) pl.isDir = true := by
  rw [parseLine] at h
  cases hscan : scanIndent k text 0 none with
  | error e =>
    rw [hscan] at h
    exact Except.noConfusion h
  | ok pr =>
    rw [hscan] at h
    obtain ⟨ind, ic⟩ := pr
    simp only [Bind.bind, Except.bind] at h
    by_cases hhd : (trimSpace text).head? = some '#'
    · rw [if_pos hhd] at h
      simp only [pure, Except.pure, Except.ok.injEq] at h
      rw [← h] at hc
      simp at hc
    · rw [if_neg hhd] at h
      by_cases hlast : (trimSpace text).getLast? = some '/'
      · -- directory line
        rw [if_pos hlast] at h
        simp only at h
        by_cases hemp : (trimSpace text).dropLast = []
        · rw [if_pos hemp] at h
          exact Except.noConfusion h
        · rw [if_neg hemp] at h
          by_cases hsl : (trimSpace text).dropLast.contains '/' = true
          · rw [if_pos hsl] at h
            exact Except.noConfusion h
          · rw [if_neg hsl] at h
            simp only [pure, Except.pure, Except.ok.injEq] at h
            rw [← h]
            obtain ⟨c, hcc⟩ : ∃ c, (trimSpace text).dropLast.head? = some c := by
              cases hq : (trimSpace text).dropLast with
              | nil => exact absurd hq hemp
              | cons a as => exact ⟨a, rfl⟩
            have hcc0 : (trimSpace text).head? = some c := by
              rw [← head?_dropLast _ hemp, hcc]
            have hcsp : isGoSpace c = false := trimSpace_head_not text c hcc0
            have hch : ¬(c = '#') := fun hh => hhd (hh ▸ hcc0)
            have hsl2 : (trimSpace text).dropLast.contains '/' = false := by
              cases hq : (trimSpace text).dropLast.contains '/' with
              | false => rfl
              | true => exact absurd hq hsl
            have hm1 : '/' ∉ (trimSpace text).dropLast := (contains_false_iff _ _).1 hsl2
            have hm2 : '\n' ∉ (trimSpace text).dropLast := by
              intro hm
              exact hnl (mem_trimSpace text _ ((List.dropLast_sublist _).subset hm))
            have hnl2 : (trimSpace text).dropLast.contains '\n' = false :=
              (contains_false_iff _ _).2 hm2
            rw [wfName]
            simp only [String.data]
            rw [hcc]
            simp [stringMk_ne_empty _ hemp, hsl2, hnl2, hm1, hm2, hcsp, hch]
      · -- file line
        rw [if_neg hlast] at h
        simp only at h
        by_cases hemp : trimSpace text = []
        · rw [if_pos hemp] at h
          exact Except.noConfusion h
        · rw [if_neg hemp] at h
          by_cases hsl : (trimSpace text).contains '/' = true
          · rw [if_pos hsl] at h
            exact Except.noConfusion h
          · rw [if_neg hsl] at h
            simp only [pure, Except.pure, Except.ok.injEq] at h
            rw [← h]
            obtain ⟨c, hcc⟩ : ∃ c, (trimSpace text).head? = some c := by
              cases hq : trimSpace text with
              | nil => exact absurd hq hemp
              | cons a as => exact ⟨a, rfl⟩
            obtain ⟨e, hee⟩ : ∃ e, (trimSpace text).getLast? = some e := by
              cases hq : trimSpace text with
              | nil => exact absurd hq hemp
              | cons a as =>
                exact ⟨(a :: as).getLast (by simp), List.getLast?_eq_getLast _ (by simp)⟩
            have hcsp : isGoSpace c = false := trimSpace_head_not text c hcc
            have hesp : isGoSpace e = false := trimSpace_getLast_not text e hee
            have hch : ¬(c = '#') := fun hh => hhd (hh ▸ hcc)
            have hsl2 : (trimSpace text).contains '/' = false := by
              cases hq : (trimSpace text).contains '/' with
              | false => rfl
              | true => exact absurd hq hsl
            have hm1 : '/' ∉ trimSpace text := (contains_false_iff _ _).1 hsl2
            have hm2 : '\n' ∉ trimSpace text := by
              intro hm
              exact hnl (mem_trimSpace text _ hm)
            have hnl2 : (trimSpace text).contains '\n' = false :=
              (contains_false_iff _ _).2 hm2
            rw [wfName]
            simp only [String.data]
            rw [hcc, hee]
            simp [stringMk_ne_empty _ hemp, hsl2, hnl2, hm1, hm2, hcsp, hch, hesp]

end Chassis

namespace Chassis

/-- `wfForest` is the conjunction of `wfNode` over the members. -/
theorem wfForest_iff (l : List Node) :
    wfForest l = true ↔ ∀ n ∈ l, wfNode n = true := by
  induction l with
  | nil => simp [wfForest]
  | cons x xs ih =>
    rw [wfForest]
    simp [ih]

/-- An open frame of the `buildTree` stack whose closure will be a
parser-producible node. -/
def FrameWf (f : Frame) : Prop :=
  wfName f.name f.isDir = true ∧ (f.isDir = false → f.childrenRev = []) ∧
  ∀ n ∈ f.childrenRev, wfNode n = true

/-- Invariant of the `buildTree` loop: finished roots are well formed, every
open frame is well formed, and every frame below the innermost one is a
directory. -/
def StWf (st : BState) : Prop :=
  (∀ n ∈ st.rootsRev, wfNode n = true) ∧
  (∀ f ∈ st.spine, FrameWf f) ∧
  (∀ g ∈ st.spine.tail, g.isDir = true)

theorem wfNode_close (f : Frame) (h : FrameWf f) : wfNode f.close = true := by
  obtain ⟨h1, h2, h3⟩ := h
  rw [Frame.close, wfNode]
  simp only [Bool.and_eq_true]
  refine ⟨⟨h1, ?_⟩, ?_⟩
  · cases hd : f.isDir with
    | true => rfl
    | false => simp [h2 hd]
  · rw [wfForest_iff]
    intro n hn
    exact h3 n (List.mem_reverse.mp hn)

theorem stWf_popOne (st : BState) (h : StWf st) : StWf (popOne st) := by
  obtain ⟨h1, h2, h3⟩ := h
  cases hs : st.spine with
  | nil =>
    have hpop : popOne st = st := by rw [popOne, hs]
    rw [hpop]
    exact ⟨h1, h2, h3⟩
  | cons f gs =>
    cases gs with
    | nil =>
      have hpop : popOne st = ⟨f.close :: st.rootsRev, []⟩ := by rw [popOne, hs]
      rw [hpop]
      refine ⟨?_, ?_, ?_⟩
      · intro n hn
        rcases List.mem_cons.mp hn with hn | hn
        · subst hn; exact wfNode_close f (h2 f (by rw [hs]; exact List.mem_cons_self _ _))
        · exact h1 n hn
      · intro g hg; simp at hg
      · intro g hg; simp at hg
    | cons g gs' =>
      have hpop : popOne st =
          ⟨st.rootsRev, { g with childrenRev := f.close :: g.childrenRev } :: gs'⟩ := by
        rw [popOne, hs]
      have hfw : FrameWf f := h2 f (by rw [hs]; exact List.mem_cons_self _ _)
      have hgw : FrameWf g := h2 g (by rw [hs]; simp)
      have hgd : g.isDir = true := by
        have h4 := h3 g
        rw [hs] at h4
        exact h4 (by simp)
      rw [hpop]
      refine ⟨h1, ?_, ?_⟩
      · intro f2 hf2
        rcases List.mem_cons.mp hf2 with hf2 | hf2
        · subst hf2
          refine ⟨hgw.1, ?_, ?_⟩
          · intro hcon; rw [hgd] at hcon; cases hcon
          · intro n hn
            simp only at hn
            rcases List.mem_cons.mp hn with hn | hn
            · subst hn; exact wfNode_close f hfw
            · exact hgw.2.2 n hn
        · exact h2 f2 (by rw [hs]; simp [hf2])
      · intro g2 hg2
        simp only [List.tail_cons] at hg2
        have h4 := h3 g2
        rw [hs] at h4
        exact h4 (by simp [hg2])

theorem stWf_popN (st : BState) (n : Nat) (h : StWf st) : StWf (popN st n) := by
  induction n generalizing st with
  | zero => exact h
  | succ m ih => exact ih _ (stWf_popOne st h)

theorem stWf_collapseTo (st : BState) (d : Nat) (h : StWf st) : StWf (collapseTo st d) :=
  stWf_popN st _ h

theorem stWf_newFrame (st : BState) (d : Nat) (nm : String) (dd : Bool) (li : Nat)
    (p : String) (hwf : StWf st) (hl : wfName nm dd = true) :
    StWf ⟨(collapseTo st d).rootsRev, [⟨nm, dd, li, p, []⟩]⟩ := by
  have hcw := stWf_collapseTo st d hwf
  refine ⟨hcw.1, ?_, ?_⟩
  · intro f hf
    simp only [List.mem_singleton] at hf
    subst hf
    exact ⟨hl, fun _ => rfl, by intro n hn; simp at hn⟩
  · intro g hg; simp at hg

theorem stWf_pushFrame (st : BState) (d : Nat) (nm : String) (dd : Bool) (li : Nat)
    (p : String) (parent : Frame) (rest : List Frame)
    (hwf : StWf st) (hl : wfName nm dd = true)
    (hsp : (collapseTo st d).spine = parent :: rest)
    (hpd : parent.isDir = true) :
    StWf ⟨(collapseTo st d).rootsRev, ⟨nm, dd, li, p, []⟩ :: (collapseTo st d).spine⟩ := by
  have hcw := stWf_collapseTo st d hwf
  refine ⟨hcw.1, ?_, ?_⟩
  · intro f hf
    rcases List.mem_cons.mp hf with hf | hf
    · subst hf
      exact ⟨hl, fun _ => rfl, by intro n hn; simp at hn⟩
    · exact hcw.2.1 f hf
  · intro g hg
    simp only [List.tail_cons] at hg
    rw [hsp] at hg
    rcases List.mem_cons.mp hg with hg | hg
    · subst hg; exact hpd
    · exact hcw.2.2 g (by rw [hsp]; simp [hg])

theorem stWf_buildStep (w : Nat) (st st' : BState) (l : ParsedLine)
    (hwf : StWf st) (hl : wfName (String.mk l.content) l.isDir = true)
    (h : buildStep w st l = .ok st') : StWf st' := by
  rw [buildStep] at h
  simp only [Bind.bind, Except.bind, pure, Except.pure] at h
  repeat
    first
    | exact Except.noConfusion h
    | (simp only [Except.ok.injEq] at h
       rw [← h]
       first
       | exact stWf_newFrame st _ _ _ _ _ hwf hl
       | (rename_i x0 parent rest hsp hdir
          exact stWf_pushFrame st _ _ _ _ _ parent rest hwf hl hsp (by simpa using hdir)))
    | simp only [if_true] at h
    | split at h

theorem stWf_buildLoop (w : Nat) (st st' : BState) (ls : List ParsedLine)
    (hwf : StWf st)
    (hl : ∀ l ∈ ls, wfName (String.mk l.content) l.isDir = true)
    (h : buildLoop w st ls = .ok st') : StWf st' := by
  induction ls generalizing st with
  | nil =>
    rw [buildLoop] at h
    simp only [Except.ok.injEq] at h
    rw [← h]; exact hwf
  | cons l ls ih =>
    rw [buildLoop] at h
    simp only [Bind.bind, Except.bind] at h
    cases hstep : buildStep w st l with
    | error e => rw [hstep] at h; exact Except.noConfusion h
    | ok st₁ =>
      rw [hstep] at h
      exact ih st₁ (stWf_buildStep w st st₁ l hwf (hl l (List.mem_cons_self _ _)) hstep)
        (fun l' hl' => hl l' (List.mem_cons_of_mem _ hl')) h

/-- A forest produced by `buildTree` from well-formed parsed lines is well
formed. -/
theorem buildTree_wf (w : Nat) (ls : List ParsedLine) (F : List Node)
    (hl : ∀ l ∈ ls, wfName (String.mk l.content) l.isDir = true)
    (h : buildTree w ls = .ok F) : wfForest F = true := by
  rw [buildTree.eq_def] at h
  cases ls with
  | nil =>
    simp only [pure, Except.pure, Except.ok.injEq] at h
    rw [← h]; rfl
  | cons l0 ls' =>
    simp only at h
    by_cases hi : l0.indent > 0
    · rw [if_pos hi] at h
      exact Except.noConfusion h
    · rw [if_neg hi] at h
      cases hloop : buildLoop w ⟨[], []⟩ (l0 :: ls') with
      | error e =>
        rw [hloop] at h
        simp only [Bind.bind, Except.bind] at h
        exact Except.noConfusion h
      | ok st =>
        rw [hloop] at h
        simp only [Bind.bind, Except.bind, pure, Except.pure, Except.ok.injEq] at h
        have hst : StWf st := by
          refine stWf_buildLoop w ⟨[], []⟩ st (l0 :: ls') ?_ hl hloop
          refine ⟨?_, ?_, ?_⟩ <;> (intro x hx; simp at hx)
        have hcol : StWf (collapseTo st 0) := stWf_collapseTo st 0 hst
        rw [← h, wfForest_iff]
        intro n hn
        exact hcol.1 n (List.mem_reverse.mp hn)

/-- Lines returned by `collectLines` on newline-free input lines carry
parser-producible names (comments are dropped by `collectLines` itself). -/
theorem collectLines_wf (ls : List (List Char)) (n : Nat) (pls : List ParsedLine)
    (hnl : ∀ l ∈ ls, '\n' ∉ l)
    (h : collectLines ls n = .ok pls) :
    ∀ pl ∈ pls, wfName (String.mk pl.content) pl.isDir = true := by
  induction ls generalizing n pls with
  | nil =>
    rw [collectLines] at h
    simp only [Except.ok.injEq] at h
    rw [← h]
    intro pl hpl
    simp at hpl
  | cons l ls' ih =>
    rw [collectLines] at h
    by_cases hb : trimSpace l = []
    · rw [if_pos hb] at h
      exact ih (n + 1) pls (fun l' hl' => hnl l' (List.mem_cons_of_mem _ hl')) h
    · rw [if_neg hb] at h
      cases hpl : parseLine l n with
      | error e =>
        rw [hpl] at h
        simp only [Bind.bind, Except.bind] at h
        exact Except.noConfusion h
      | ok pl0 =>
        rw [hpl] at h
        cases hrest : collectLines ls' (n + 1) with
        | error e =>
          rw [hrest] at h
          simp only [Bind.bind, Except.bind] at h
          exact Except.noConfusion h
        | ok rest =>
          rw [hrest] at h
          simp only [Bind.bind, Except.bind, pure, Except.pure] at h
          have hrestwf := ih (n + 1) rest (fun l' hl' => hnl l' (List.mem_cons_of_mem _ hl')) hrest
          by_cases hcm : pl0.isComment = true
          · rw [if_pos hcm] at h
            simp only [Except.ok.injEq] at h
            rw [← h]
            exact hrestwf
          · rw [if_neg hcm] at h
            simp only [Except.ok.injEq] at h
            rw [← h]
            intro pl hplm
            rcases List.mem_cons.mp hplm with hplm | hplm
            · subst hplm
              exact parseLine_wf l n pl (hnl l (List.mem_cons_self _ _)) hpl
                (by cases hq : pl.isComment with
                    | false => rfl
                    | true => exact absurd hq hcm)
            · exact hrestwf pl hplm

theorem splitLinesAux_no_newline (cs : List Char) :
    ∀ l ∈ splitLinesAux cs, '\n' ∉ l := by
  induction cs with
  | nil =>
    intro l hl
    rw [splitLinesAux] at hl
    simp at hl
    rw [hl]
    simp
  | cons c cs' ih =>
    intro l hl
    rw [splitLinesAux] at hl
    by_cases hcn : c = '\n'
    · rw [if_pos hcn] at hl
      rcases List.mem_cons.mp hl with hl | hl
      · rw [hl]; simp
      · exact ih l hl
    · rw [if_neg hcn] at hl
      cases haux : splitLinesAux cs' with
      | nil =>
        rw [haux] at hl
        simp only [List.mem_singleton] at hl
        rw [hl]
        exact fun hm => hcn (List.mem_singleton.mp hm).symm
      | cons l0 ls0 =>
        rw [haux] at hl
        rcases List.mem_cons.mp hl with hl | hl
        · rw [hl]
          intro hm
          rcases List.mem_cons.mp hm with hm | hm
          · exact hcn hm.symm
          · exact ih l0 (haux ▸ List.mem_cons_self _ _) hm
        · exact ih l (haux ▸ List.mem_cons_of_mem _ hl)

theorem splitLines_no_newline (s : String) :
    ∀ l ∈ splitLines s, '\n' ∉ l := by
  intro l hl
  rw [splitLines] at hl
  obtain ⟨l0, hl0, hdc⟩ := List.mem_map.mp hl
  rw [← hdc, dropCR]
  by_cases hcr : l0.getLast? = some '\r'
  · rw [if_pos hcr]
    intro hm
    exact splitLinesAux_no_newline s.data l0 hl0 ((List.dropLast_sublist _).subset hm)
  · rw [if_neg hcr]
    exact splitLinesAux_no_newline s.data l0 hl0

/-- Every forest the plain-text parser returns is well formed. -/
theorem plainParse_wf (s : String) (F : List Node) (h : plainParse s = .ok F) :
    wfForest F = true := by
  rw [plainParse, PlainTextParser.Parse] at h
  cases hcl : collectLines (splitLines s) 1 with
  | error e =>
    rw [hcl] at h
    simp only [Bind.bind, Except.bind] at h
    exact Except.noConfusion h
  | ok lines =>
    rw [hcl] at h
    simp only [Bind.bind, Except.bind, pure, Except.pure] at h
    have hwfl : ∀ pl ∈ lines, wfName (String.mk pl.content) pl.isDir = true :=
      collectLines_wf _ 1 lines (splitLines_no_newline s) hcl
    by_cases hemp : lines = []
    · rw [if_pos hemp] at h
      simp only [Except.ok.injEq] at h
      rw [← h]; rfl
    · rw [if_neg hemp] at h
      exact buildTree_wf _ lines F hwfl h

end Chassis

namespace Chassis

/-- `wfNode` is preserved by the recursive in-place sort. -/
theorem wfNode_sortNode : ∀ n : Node, wfNode n = true → wfNode (sortNode n) = true
  | .mk nm d cs p li => by
    intro h
    rw [sortNode]
    rw [wfNode] at h ⊢
    simp only [Bool.and_eq_true] at h ⊢
    obtain ⟨⟨h1, h2⟩, h3⟩ := h
    refine ⟨⟨h1, ?_⟩, ?_⟩
    · cases d with
      | true => rfl
      | false =>
        simp only [Bool.false_or] at h2 ⊢
        have hcs : cs = [] := by
          cases cs with
          | nil => rfl
          | cons a as => simp [List.isEmpty] at h2
        subst hcs
        rfl
    · rw [wfForest_iff] at h3 ⊢
      intro n hn
      have hn2 : n ∈ sortedKids cs :=
        (List.perm_insertionSort _ (sortedKids cs)).mem_iff.mp hn
      rw [sortedKids_eq_map] at hn2
      obtain ⟨m, hm, hmn⟩ := List.mem_map.mp hn2
      rw [← hmn]
      exact wfNode_sortNode m (h3 m hm)
termination_by n => sizeOf n
decreasing_by
  have := List.sizeOf_lt_of_mem hm
  simp only [Node.mk.sizeOf_spec]
  omega

/-- `wfForest` is preserved by the recursive in-place sort. -/
theorem wfForest_sortForest (l : List Node) (h : wfForest l = true) :
    wfForest (sortForest l) = true := by
  rw [sortForest, wfForest_iff]
  intro n hn
  have hn2 : n ∈ sortedKids l :=
    (List.perm_insertionSort _ (sortedKids l)).mem_iff.mp hn
  rw [sortedKids_eq_map] at hn2
  obtain ⟨m, hm, hmn⟩ := List.mem_map.mp hn2
  rw [← hmn]
  exact wfNode_sortNode m ((wfForest_iff l).mp h m hm)

end Chassis

namespace Chassis

/-! Character-level view of `renderPlainForest`: the rendered text is the
newline-join of the per-node lines, which re-parse to predictable
`ParsedLine`s. -/

/-- The characters of the one line `writeSimpleTreeNode` emits for a node. -/
def lineChars (n : Node) (d : Nat) : List Char :=
  List.replicate (2 * d) ' ' ++ (if n.isDir then n.name ++ "/" else n.name).data

mutual

/-- The lines (top to bottom) of the simple rendering of a subtree. -/
def renderLinesNode : Node → Nat → List (List Char)
  | .mk nm dd cs p li, d =>
    lineChars (.mk nm dd cs p li) d :: renderLinesForest cs (d + 1)

/-- The lines of the simple rendering of a forest. -/
def renderLinesForest : List Node → Nat → List (List Char)
  | [], _ => []
  | x :: xs, d => renderLinesNode x d ++ renderLinesForest xs d

end

/-- Join lines, terminating each with a newline. -/
def foldNl (ls : List (List Char)) : List Char :=
  ls.foldr (fun a b => a ++ '\n' :: b) []

theorem foldNl_nil : foldNl [] = [] := rfl

theorem foldNl_cons (a : List Char) (ls : List (List Char)) :
    foldNl (a :: ls) = a ++ '\n' :: foldNl ls := rfl

theorem foldNl_append (a b : List (List Char)) :
    foldNl (a ++ b) = foldNl a ++ foldNl b := by
  induction a with
  | nil => rfl
  | cons x xs ih => simp [foldNl_cons, ih]

mutual

theorem renderPlainNode_data : ∀ (n : Node) (d : Nat),
    (renderPlainNode n d).data = foldNl (renderLinesNode n d)
  | .mk nm dd cs p li, d => by
    rw [renderPlainNode, renderLinesNode, foldNl_cons, lineChars]
    simp only [String.data_append]
    rw [renderPlainForest_data cs (d + 1)]
    simp [Node.isDir, Node.name]

theorem renderPlainForest_data : ∀ (l : List Node) (d : Nat),
    (renderPlainForest l d).data = foldNl (renderLinesForest l d)
  | [], _ => rfl
  | x :: xs, d => by
    rw [renderPlainForest, renderLinesForest, foldNl_append]
    simp only [String.data_append]
    rw [renderPlainNode_data x d, renderPlainForest_data xs d]

end

theorem splitLinesAux_line (l : List Char) (rest : List Char) (h : '\n' ∉ l) :
    splitLinesAux (l ++ '\n' :: rest) = l :: splitLinesAux rest := by
  induction l with
  | nil =>
    rw [List.nil_append, splitLinesAux, if_pos rfl]
  | cons c l' ih =>
    have hc : ¬(c = '\n') := fun hh => h (hh ▸ List.mem_cons_self _ _)
    rw [List.cons_append, splitLinesAux, if_neg hc,
      ih (fun hm => h (List.mem_cons_of_mem _ hm))]

theorem splitLinesAux_foldNl (ls : List (List Char)) (h : ∀ l ∈ ls, '\n' ∉ l) :
    splitLinesAux (foldNl ls) = ls ++ [[]] := by
  induction ls with
  | nil => rfl
  | cons l ls' ih =>
    rw [foldNl_cons, splitLinesAux_line l _ (h l (List.mem_cons_self _ _)),
      ih (fun l' hl' => h l' (List.mem_cons_of_mem _ hl'))]
    rfl

theorem dropCR_eq_self (l : List Char) (h : l.getLast? ≠ some '\r') : dropCR l = l := by
  rw [dropCR, if_neg h]

/-- Unpack the name conditions of `wfName`. -/
theorem wfName_unpack (nm : String) (dd : Bool) (h : wfName nm dd = true) :
    nm.data ≠ [] ∧ '/' ∉ nm.data ∧ '\n' ∉ nm.data ∧
    (∃ c, nm.data.head? = some c ∧ isGoSpace c = false ∧ ¬(c = '#')) ∧
    (dd = false → ∃ e, nm.data.getLast? = some e ∧ isGoSpace e = false) := by
  rw [wfName] at h
  simp only [Bool.and_eq_true, Bool.not_eq_true'] at h
  obtain ⟨⟨⟨⟨h1, h2⟩, h3⟩, h4⟩, h5⟩ := h
  refine ⟨?_, ?_, ?_, ?_, ?_⟩
  · intro hd
    rw [bne_iff_ne] at h1
    exact h1 (by cases nm with | mk l => cases hd; rfl)
  · exact (contains_false_iff _ _).1 h2
  · exact (contains_false_iff _ _).1 h3
  · cases hh : nm.data.head? with
    | none => rw [hh] at h4; cases h4
    | some c =>
      rw [hh] at h4
      simp only [Bool.and_eq_true, Bool.not_eq_true'] at h4
      refine ⟨c, rfl, h4.1, ?_⟩
      intro hcon
      have := h4.2
      rw [hcon] at this
      simp at this
  · intro hdd
    rw [hdd] at h5
    simp only [Bool.false_or] at h5
    cases hh : nm.data.getLast? with
    | none => rw [hh] at h5; cases h5
    | some e =>
      rw [hh] at h5
      simp only [Bool.not_eq_true'] at h5
      exact ⟨e, rfl, h5⟩

theorem not_sp_tab_of_not_ws (c : Char) (h : isGoSpace c = false) :
    ¬(c = ' ' || c = '\t') = true := by
  intro hcon
  have h2 : c = ' ' ∨ c = '\t' := by simpa using hcon
  rcases h2 with h1 | h1 <;> (rw [h1] at h; exact absurd h (by decide))

theorem scanIndent_sp_state (ln : Nat) (rest : List Char) (c0 : Char)
    (hc0 : ¬(c0 = ' ' || c0 = '\t') = true) :
    ∀ (m i : Nat),
      scanIndent ln (List.replicate m ' ' ++ c0 :: rest) i (some ' ') = .ok (i + m, some ' ')
  | 0, i => by
    rw [List.replicate_zero, List.nil_append, scanIndent, if_neg hc0]
    simp
  | m + 1, i => by
    rw [List.replicate_succ, List.cons_append, scanIndent,
      if_pos (by simp), if_pos rfl, scanIndent_sp_state ln rest c0 hc0 m (i + 1)]
    congr 2
    omega

theorem scanIndent_rep (ln : Nat) (m : Nat) (c0 : Char) (rest : List Char)
    (hc0 : ¬(c0 = ' ' || c0 = '\t') = true) :
    scanIndent ln (List.replicate m ' ' ++ c0 :: rest) 0 none =
      .ok (m, if m = 0 then none else some ' ') := by
  cases m with
  | zero =>
    rw [List.replicate_zero, List.nil_append, scanIndent, if_neg hc0, if_pos rfl]
  | succ m' =>
    rw [List.replicate_succ, List.cons_append, scanIndent, if_pos (by simp)]
    rw [scanIndent_sp_state ln rest c0 hc0 m' 1, if_neg (Nat.succ_ne_zero m')]
    congr 2
    omega

theorem dropWhile_replicate_sp (m : Nat) (X : List Char) :
    (List.replicate m ' ' ++ X).dropWhile isGoSpace = X.dropWhile isGoSpace := by
  induction m with
  | zero => rfl
  | succ mm ih =>
    rw [List.replicate_succ, List.cons_append, List.dropWhile_cons_of_pos (by decide), ih]

theorem trimSpace_rep (m : Nat) (X : List Char)
    (h1 : ∀ c, X.head? = some c → isGoSpace c = false)
    (h2 : ∀ c, X.getLast? = some c → isGoSpace c = false) :
    trimSpace (List.replicate m ' ' ++ X) = X := by
  rw [trimSpace, dropWhile_replicate_sp, dropWhile_eq_self_of_head _ _ h1,
    dropWhile_eq_self_of_head, List.reverse_reverse]
  intro c hc
  rw [List.head?_reverse] at hc
  exact h2 c hc

end Chassis

namespace Chassis

/-- The indent character the parser records for a rendered line at depth
`d`: the Go zero value for unindented lines, a space otherwise. -/
def icOf (d : Nat) : Char := if d = 0 then Char.ofNat 0 else ' '

theorem getD_icOf (d : Nat) :
    (if 2 * d = 0 then (none : Option Char) else some ' ').getD (Char.ofNat 0) = icOf d := by
  cases d with
  | zero => rfl
  | succ dd =>
    rw [if_neg (by omega), icOf, if_neg (Nat.succ_ne_zero dd)]
    rfl

/-- Re-parsing the line rendered for a well-formed node yields exactly the
expected `ParsedLine`. -/
theorem parseLine_lineChars (nm : String) (dd : Bool) (cs : List Node) (p : String)
    (li : Nat) (d k : Nat) (hwf : wfName nm dd = true) :
    parseLine (lineChars (.mk nm dd cs p li) d) k =
      .ok ⟨nm.data, 2 * d, icOf d, dd, false, k⟩ := by
  obtain ⟨hne, hsl, hnl, ⟨c, hc, hcw, hch⟩, hlast⟩ := wfName_unpack nm dd hwf
  obtain ⟨t, hdata⟩ : ∃ t, nm.data = c :: t := by
    cases hq : nm.data with
    | nil => rw [hq] at hc; cases hc
    | cons a t =>
      rw [hq] at hc
      simp only [List.head?_cons, Option.some.injEq] at hc
      exact ⟨t, by rw [hc]⟩
  cases dd with
  | true =>
    have hline : lineChars (.mk nm true cs p li) d =
        List.replicate (2 * d) ' ' ++ (c :: (t ++ ['/'])) := by
      rw [lineChars]
      simp only [Node.isDir, Node.name, if_pos]
      rw [String.data_append, hdata]
      rfl
    rw [parseLine, hline, scanIndent_rep k (2 * d) c _ (not_sp_tab_of_not_ws c hcw)]
    simp only [Bind.bind, Except.bind]
    rw [trimSpace_rep (2 * d) (c :: (t ++ ['/']))
      (by intro cc hcc
          simp only [List.head?_cons, Option.some.injEq] at hcc
          rw [← hcc]; exact hcw)
      (by intro cc hcc
          rw [show c :: (t ++ ['/']) = (c :: t) ++ ['/'] from rfl,
            List.getLast?_concat] at hcc
          simp only [Option.some.injEq] at hcc
          rw [← hcc]; decide)]
    rw [if_neg (show ¬((c :: (t ++ ['/'])).head? = some '#') from by
      simp only [List.head?_cons, Option.some.injEq]
      exact hch)]
    rw [if_pos (show (c :: (t ++ ['/'])).getLast? = some '/' from by
      rw [show c :: (t ++ ['/']) = (c :: t) ++ ['/'] from rfl, List.getLast?_concat])]
    simp only [show c :: (t ++ ['/']) = (c :: t) ++ ['/'] from rfl, List.dropLast_concat]
    rw [← hdata]
    rw [if_neg hne]
    rw [if_neg (show ¬(nm.data.contains '/' = true) from by
      rw [(contains_false_iff nm.data '/').2 hsl]; simp)]
    simp only [pure, Except.pure, Except.ok.injEq]
    rw [getD_icOf d]
  | false =>
    have hline : lineChars (.mk nm false cs p li) d =
        List.replicate (2 * d) ' ' ++ (c :: t) := by
      rw [lineChars]
      simp only [Node.isDir, Node.name]
      rw [if_neg Bool.false_ne_true, hdata]
    obtain ⟨e, he, hew⟩ := hlast rfl
    rw [parseLine, hline, scanIndent_rep k (2 * d) c _ (not_sp_tab_of_not_ws c hcw)]
    simp only [Bind.bind, Except.bind]
    rw [trimSpace_rep (2 * d) (c :: t)
      (by intro cc hcc
          simp only [List.head?_cons, Option.some.injEq] at hcc
          rw [← hcc]; exact hcw)
      (by intro cc hcc
          rw [← hdata] at hcc
          rw [he] at hcc
          simp only [Option.some.injEq] at hcc
          rw [← hcc]; exact hew)]
    rw [← hdata]
    rw [if_neg (show ¬(nm.data.head? = some '#') from by
      rw [hdata]
      simp only [List.head?_cons, Option.some.injEq]
      exact hch)]
    rw [if_neg (show ¬(nm.data.getLast? = some '/') from by
      intro hcon
      exact hsl (List.mem_of_mem_getLast? hcon))]
    rw [if_neg hne]
    rw [if_neg (show ¬(nm.data.contains '/' = true) from by
      rw [(contains_false_iff nm.data '/').2 hsl]; simp)]
    simp only [pure, Except.pure, Except.ok.injEq]
    rw [getD_icOf d]

theorem lineChars_no_newline (nm : String) (dd : Bool) (cs : List Node) (p : String)
    (li : Nat) (d : Nat) (hwf : wfName nm dd = true) :
    '\n' ∉ lineChars (.mk nm dd cs p li) d := by
  obtain ⟨hne, hsl, hnl, _, _⟩ := wfName_unpack nm dd hwf
  intro hm
  rw [lineChars] at hm
  rcases List.mem_append.mp hm with hm | hm
  · have := List.eq_of_mem_replicate hm
    cases this
  · cases dd with
    | true =>
      simp only [Node.isDir, Node.name, if_pos, String.data_append] at hm
      rcases List.mem_append.mp hm with hm | hm
      · exact hnl hm
      · simp at hm
    | false =>
      simp only [Node.isDir, Node.name] at hm
      rw [if_neg Bool.false_ne_true] at hm
      exact hnl hm

theorem lineChars_last_not_cr (nm : String) (dd : Bool) (cs : List Node) (p : String)
    (li : Nat) (d : Nat) (hwf : wfName nm dd = true) :
    (lineChars (.mk nm dd cs p li) d).getLast? ≠ some '\r' := by
  obtain ⟨hne, hsl, hnl, _, hlast⟩ := wfName_unpack nm dd hwf
  rw [lineChars]
  cases dd with
  | true =>
    simp only [Node.isDir, Node.name, if_pos, String.data_append]
    rw [List.getLast?_append_of_ne_nil _ (by simp : nm.data ++ "/".data ≠ []),
      show ("/" : String).data = ['/'] from rfl, List.getLast?_concat]
    simp
  | false =>
    simp only [Node.isDir, Node.name]
    rw [if_neg Bool.false_ne_true]
    obtain ⟨e, he, hew⟩ := hlast rfl
    rw [List.getLast?_append_of_ne_nil _ hne, he]
    intro hcon
    simp only [Option.some.injEq] at hcon
    rw [hcon] at hew
    exact absurd hew (by decide)

theorem trimSpace_lineChars (nm : String) (dd : Bool) (cs : List Node) (p : String)
    (li : Nat) (d : Nat) (hwf : wfName nm dd = true) :
    trimSpace (lineChars (.mk nm dd cs p li) d) =
      (if dd then nm ++ "/" else nm).data ∧
    (if dd then nm ++ "/" else nm).data ≠ [] := by
  obtain ⟨hne, hsl, hnl, ⟨c, hc, hcw, hch⟩, hlast⟩ := wfName_unpack nm dd hwf
  constructor
  · rw [lineChars]
    simp only [Node.isDir, Node.name]
    refine trimSpace_rep (2 * d) _ ?_ ?_
    · intro cc hcc
      cases dd with
      | true =>
        simp only [if_pos, String.data_append] at hcc
        rw [List.head?_append_of_ne_nil _ hne, hc] at hcc
        simp only [Option.some.injEq] at hcc
        rw [← hcc]; exact hcw
      | false =>
        rw [if_neg Bool.false_ne_true] at hcc
        rw [hc] at hcc
        simp only [Option.some.injEq] at hcc
        rw [← hcc]; exact hcw
    · intro cc hcc
      cases dd with
      | true =>
        simp only [if_pos, String.data_append] at hcc
        rw [List.getLast?_concat] at hcc
        simp only [Option.some.injEq] at hcc
        rw [← hcc]; decide
      | false =>
        rw [if_neg Bool.false_ne_true] at hcc
        obtain ⟨e, he, hew⟩ := hlast rfl
        rw [he] at hcc
        simp only [Option.some.injEq] at hcc
        rw [← hcc]; exact hew
  · cases dd with
    | true =>
      simp only [if_pos, String.data_append]
      simp
    | false =>
      rw [if_neg Bool.false_ne_true]
      exact hne

end Chassis

namespace Chassis

mutual

/-- The `ParsedLine`s `collectLines` produces for the rendering of one node,
threading the line number: the pair is (lines, next line number). -/
def plNode : Node → Nat → Nat → List ParsedLine × Nat
  | .mk nm dd cs _ _, d, k =>
    let r := plForest cs (d + 1) (k + 1)
    (⟨nm.data, 2 * d, icOf d, dd, false, k⟩ :: r.1, r.2)

/-- `plNode` over a forest, threading the line number. -/
def plForest : List Node → Nat → Nat → List ParsedLine × Nat
  | [], _, k => ([], k)
  | x :: xs, d, k =>
    let a := plNode x d k
    let b := plForest xs d a.2
    (a.1 ++ b.1, b.2)

end

mutual

theorem renderLinesNode_good : ∀ (n : Node) (d : Nat), wfNode n = true →
    ∀ l ∈ renderLinesNode n d, '\n' ∉ l ∧ l.getLast? ≠ some '\r'
  | .mk nm dd cs p li, d => by
    intro hwf l hl
    rw [renderLinesNode] at hl
    rw [wfNode] at hwf
    simp only [Bool.and_eq_true] at hwf
    rcases List.mem_cons.mp hl with hl | hl
    · subst hl
      exact ⟨lineChars_no_newline nm dd cs p li d hwf.1.1,
        lineChars_last_not_cr nm dd cs p li d hwf.1.1⟩
    · exact renderLinesForest_good cs (d + 1) hwf.2 l hl

theorem renderLinesForest_good : ∀ (L : List Node) (d : Nat), wfForest L = true →
    ∀ l ∈ renderLinesForest L d, '\n' ∉ l ∧ l.getLast? ≠ some '\r'
  | [], d => by
    intro _ l hl
    rw [renderLinesForest] at hl
    cases hl
  | x :: xs, d => by
    intro hwf l hl
    rw [renderLinesForest] at hl
    rw [wfForest] at hwf
    simp only [Bool.and_eq_true] at hwf
    rcases List.mem_append.mp hl with hl | hl
    · exact renderLinesNode_good x d hwf.1 l hl
    · exact renderLinesForest_good xs d hwf.2 l hl

end

/-- The line split of a rendered forest: the per-node lines plus the final
empty component left by the trailing newline. -/
theorem map_eq_self_of (f : List Char → List Char) (l : List (List Char))
    (h : ∀ x ∈ l, f x = x) : l.map f = l := by
  induction l with
  | nil => rfl
  | cons a as ih =>
    rw [List.map_cons, h a (List.mem_cons_self _ _),
      ih (fun x hx => h x (List.mem_cons_of_mem _ hx))]

theorem splitLines_render (H : List Node) (hwf : wfForest H = true) :
    splitLines (renderPlainForest H 0) = renderLinesForest H 0 ++ [[]] := by
  rw [splitLines, renderPlainForest_data,
    splitLinesAux_foldNl _ (fun l hl => (renderLinesForest_good H 0 hwf l hl).1),
    List.map_append]
  congr 1
  exact map_eq_self_of dropCR _
    (fun l hl => dropCR_eq_self l (renderLinesForest_good H 0 hwf l hl).2)

theorem collectLines_blank (k : Nat) : collectLines [[]] k = .ok [] := by
  rw [collectLines, if_pos (show trimSpace [] = [] from rfl), collectLines]

mutual

theorem collect_renderN : ∀ (n : Node) (d k : Nat) (rest : List (List Char))
    (pls : List ParsedLine), wfNode n = true →
    collectLines rest (plNode n d k).2 = .ok pls →
    collectLines (renderLinesNode n d ++ rest) k = .ok ((plNode n d k).1 ++ pls)
  | .mk nm dd cs p li, d, k, rest, pls => by
    intro hwf hrest
    rw [wfNode] at hwf
    simp only [Bool.and_eq_true] at hwf
    rw [renderLinesNode, List.cons_append, collectLines]
    obtain ⟨htr, hX⟩ := trimSpace_lineChars nm dd cs p li d hwf.1.1
    rw [if_neg (by rw [htr]; exact hX)]
    rw [parseLine_lineChars nm dd cs p li d k hwf.1.1]
    simp only [Bind.bind, Except.bind]
    rw [collect_renderF cs (d + 1) (k + 1) rest pls hwf.2 hrest]
    simp [plNode, pure, Except.pure]

theorem collect_renderF : ∀ (L : List Node) (d k : Nat) (rest : List (List Char))
    (pls : List ParsedLine), wfForest L = true →
    collectLines rest (plForest L d k).2 = .ok pls →
    collectLines (renderLinesForest L d ++ rest) k = .ok ((plForest L d k).1 ++ pls)
  | [], d, k, rest, pls => by
    intro _ hrest
    rw [renderLinesForest, List.nil_append]
    rw [plForest] at hrest ⊢
    simpa using hrest
  | x :: xs, d, k, rest, pls => by
    intro hwf hrest
    rw [wfForest] at hwf
    simp only [Bool.and_eq_true] at hwf
    rw [renderLinesForest, List.append_assoc]
    rw [collect_renderN x d k _ ((plForest xs d (plNode x d k).2).1 ++ pls) hwf.1
      (collect_renderF xs d (plNode x d k).2 rest pls hwf.2 hrest)]
    rw [plForest]
    simp

end

theorem collect_render (H : List Node) (hwf : wfForest H = true) :
    collectLines (renderLinesForest H 0 ++ [[]]) 1 = .ok (plForest H 0 1).1 := by
  have h := collect_renderF H 0 1 [[]] [] hwf (by
    rw [show (plForest H 0 1).2 = (plForest H 0 1).2 from rfl]
    exact collectLines_blank _)
  simpa using h

end Chassis

namespace Chassis

/-- Attach a finished node to the innermost open frame (or to the finished
roots when the stack is empty). -/
def attachTop (st : BState) (n : Node) : BState :=
  match st.spine with
  | [] => ⟨n :: st.rootsRev, []⟩
  | f :: rest => ⟨st.rootsRev, { f with childrenRev := n :: f.childrenRev } :: rest⟩

/-- Attach a list of finished nodes in order. -/
def attachAll (st : BState) : List Node → BState
  | [] => st
  | n :: ns => attachAll (attachTop st n) ns

theorem popOne_spine_length (st : BState) :
    (popOne st).spine.length = st.spine.length - 1 := by
  cases hs : st.spine with
  | nil =>
    rw [show popOne st = st from by rw [popOne, hs]]
    rw [hs]
    simp
  | cons f gs =>
    cases gs with
    | nil =>
      rw [show popOne st = ⟨f.close :: st.rootsRev, []⟩ from by rw [popOne, hs]]
      rfl
    | cons g gs' =>
      rw [show popOne st =
          ⟨st.rootsRev, { g with childrenRev := f.close :: g.childrenRev } :: gs'⟩ from by
        rw [popOne, hs]]
      simp

theorem popN_spine_length (st : BState) (n : Nat) :
    (popN st n).spine.length = st.spine.length - n := by
  induction n generalizing st with
  | zero => rfl
  | succ m ih =>
    rw [popN, ih (popOne st), popOne_spine_length]
    omega

theorem collapseTo_spine_length (st : BState) (d : Nat) (h : d ≤ st.spine.length) :
    (collapseTo st d).spine.length = d := by
  rw [collapseTo, popN_spine_length]
  omega

theorem collapseTo_of_ge (st : BState) (d : Nat) (h : st.spine.length ≤ d) :
    collapseTo st d = st := by
  rw [collapseTo, show st.spine.length - d = 0 from by omega]
  rfl

theorem popN_add (st : BState) (a b : Nat) : popN st (a + b) = popN (popN st a) b := by
  induction a generalizing st with
  | zero =>
    rw [Nat.zero_add]
    rfl
  | succ a ih =>
    rw [Nat.succ_add, popN, ih (popOne st), popN]

theorem collapseTo_collapseTo (st : BState) (d e : Nat) (h : d ≤ e) :
    collapseTo (collapseTo st e) d = collapseTo st d := by
  by_cases hle : st.spine.length ≤ e
  · rw [collapseTo_of_ge st e hle]
  · push_neg at hle
    rw [collapseTo, collapseTo, collapseTo, popN_spine_length, ← popN_add]
    congr 1
    omega

theorem collapseTo_of_length_succ (st : BState) (d : Nat) (h : st.spine.length = d + 1) :
    collapseTo st d = popOne st := by
  rw [collapseTo, h, show d + 1 - d = 1 from by omega]
  rfl

theorem popOne_close_attach (roots : List Node) (f : Frame) (S : List Frame) :
    popOne ⟨roots, f :: S⟩ = attachTop ⟨roots, S⟩ f.close := by
  cases S with
  | nil => rfl
  | cons g gs => rfl

theorem attachTop_of_spine (st : BState) (n : Node) (f : Frame) (rest : List Frame)
    (h : st.spine = f :: rest) :
    attachTop st n = ⟨st.rootsRev, { f with childrenRev := n :: f.childrenRev } :: rest⟩ := by
  rw [attachTop, h]

theorem attachAll_cons_spine (roots : List Node) (f : Frame) (rest : List Frame)
    (ns : List Node) :
    attachAll ⟨roots, f :: rest⟩ ns =
      ⟨roots, { f with childrenRev := ns.reverse ++ f.childrenRev } :: rest⟩ := by
  induction ns generalizing f with
  | nil =>
    cases f with
    | mk a b c d e => simp [attachAll]
  | cons n ns ih =>
    rw [attachAll, attachTop_of_spine _ _ f rest rfl, ih]
    simp

theorem attachAll_nil_spine (roots : List Node) (ns : List Node) :
    attachAll ⟨roots, []⟩ ns = ⟨ns.reverse ++ roots, []⟩ := by
  induction ns generalizing roots with
  | nil => rfl
  | cons n ns ih =>
    rw [attachAll, show attachTop ⟨roots, []⟩ n = ⟨n :: roots, []⟩ from rfl, ih]
    simp

theorem buildLoop_append_ok (w : Nat) (st st₁ : BState) (a b : List ParsedLine)
    (h : buildLoop w st a = .ok st₁) :
    buildLoop w st (a ++ b) = buildLoop w st₁ b := by
  induction a generalizing st with
  | nil =>
    rw [buildLoop] at h
    simp only [Except.ok.injEq] at h
    rw [List.nil_append, h]
  | cons l ls ih =>
    rw [buildLoop] at h
    simp only [Bind.bind, Except.bind] at h
    rw [List.cons_append, buildLoop]
    simp only [Bind.bind, Except.bind]
    cases hstep : buildStep w st l with
    | error e =>
      rw [hstep] at h
      exact Except.noConfusion h
    | ok st₂ =>
      rw [hstep] at h
      exact ih st₂ h

/-- One `buildTree` iteration on the line rendered for a node at depth `d`:
the stack is popped back to depth `d` and a fresh frame for the node is
pushed. -/
theorem buildStep_render (st : BState) (l : ParsedLine) (d : Nat)
    (hind : l.indent = 2 * d)
    (hlen : d ≤ st.spine.length)
    (hdir : d > 0 → ∃ f rest, (collapseTo st d).spine = f :: rest ∧ f.isDir = true) :
    ∃ p, buildStep 2 st l =
      .ok ⟨(collapseTo st d).rootsRev,
           ⟨String.mk l.content, l.isDir, l.lineNum, p, []⟩ :: (collapseTo st d).spine⟩ := by
  cases d with
  | zero =>
    refine ⟨"", ?_⟩
    have hsp0 : (collapseTo st 0).spine = [] :=
      List.length_eq_zero.mp (collapseTo_spine_length st 0 (Nat.zero_le _))
    rw [buildStep, hind]
    rw [if_neg (show ¬((2 * 0 : Nat) > 0) from by omega)]
    simp only [Bind.bind, Except.bind, pure, Except.pure]
    rw [if_neg (show ¬((0 : Nat) > (collapseTo st 0).spine.length) from by omega)]
    simp only [if_true]
    rw [hsp0]
  | succ e =>
    obtain ⟨f, rest, hsp, hfd⟩ := hdir (Nat.succ_pos e)
    have hclen : (collapseTo st (e + 1)).spine.length = e + 1 :=
      collapseTo_spine_length st (e + 1) hlen
    refine ⟨f.path ++ "/" ++ String.mk l.content, ?_⟩
    rw [buildStep, hind]
    rw [if_pos (show (2 * (e + 1) : Nat) > 0 from by omega)]
    rw [if_neg (show ¬(2 * (e + 1) % 2 ≠ 0) from by omega)]
    simp only [Bind.bind, Except.bind, pure, Except.pure]
    rw [show 2 * (e + 1) / 2 = e + 1 from by omega]
    rw [if_neg (show ¬((e + 1 : Nat) > (collapseTo st (e + 1)).spine.length) from by omega)]
    rw [if_neg (Nat.succ_ne_zero e)]
    rw [hsp]
    simp [hfd]

mutual

theorem buildLoop_renderN : ∀ (n : Node) (d k : Nat) (st : BState),
    wfNode n = true →
    d ≤ st.spine.length →
    (d > 0 → ∃ f rest, (collapseTo st d).spine = f :: rest ∧ f.isDir = true) →
    ∃ st' N, buildLoop 2 st (plNode n d k).1 = .ok st' ∧
      stripNode N = stripNode n ∧
      collapseTo st' d = attachTop (collapseTo st d) N ∧
      d ≤ st'.spine.length
  | .mk nm dd cs p li, d, k, st => by
    intro hwf hlen hdir
    rw [wfNode] at hwf
    simp only [Bool.and_eq_true] at hwf
    obtain ⟨p₀, hstep⟩ :=
      buildStep_render st ⟨nm.data, 2 * d, icOf d, dd, false, k⟩ d rfl hlen hdir
    have hclen : (collapseTo st d).spine.length = d := collapseTo_spine_length st d hlen
    have hlen₁ : (⟨(collapseTo st d).rootsRev,
        ⟨String.mk nm.data, dd, k, p₀, []⟩ :: (collapseTo st d).spine⟩ : BState).spine.length
        = d + 1 := by
      simp [hclen]
    have hdir₁ : cs ≠ [] → (d + 1 > 0) →
        ∃ f rest, (collapseTo (⟨(collapseTo st d).rootsRev,
          ⟨String.mk nm.data, dd, k, p₀, []⟩ :: (collapseTo st d).spine⟩ : BState)
            (d + 1)).spine = f :: rest ∧ f.isDir = true := by
      intro hcs _
      rw [collapseTo_of_ge _ (d + 1) (le_of_eq hlen₁)]
      refine ⟨⟨String.mk nm.data, dd, k, p₀, []⟩, (collapseTo st d).spine, rfl, ?_⟩
      have hor := hwf.1.2
      cases hdd : dd with
      | true => rfl
      | false =>
        rw [hdd] at hor
        simp only [Bool.false_or] at hor
        have : cs = [] := by
          cases cs with
          | nil => rfl
          | cons a as => simp [List.isEmpty] at hor
        exact absurd this hcs
    obtain ⟨st₂, Ns, hloop₂, hstrip₂, hcol₂, hlen₂⟩ :=
      buildLoop_renderF cs (d + 1) (k + 1)
        ⟨(collapseTo st d).rootsRev,
          ⟨String.mk nm.data, dd, k, p₀, []⟩ :: (collapseTo st d).spine⟩
        hwf.2 (le_of_eq hlen₁.symm) hdir₁
    refine ⟨st₂, Node.mk (String.mk nm.data) dd Ns p₀ k, ?_, ?_, ?_, by omega⟩
    · rw [show (plNode (Node.mk nm dd cs p li) d k).1 =
          (⟨nm.data, 2 * d, icOf d, dd, false, k⟩ : ParsedLine) ::
            (plForest cs (d + 1) (k + 1)).1 from rfl]
      rw [buildLoop]
      simp only [Bind.bind, Except.bind]
      rw [hstep]
      exact hloop₂
    · rw [stripNode, stripNode, hstrip₂]
    · have h1 : collapseTo st₂ d =
          collapseTo (attachAll ⟨(collapseTo st d).rootsRev,
            ⟨String.mk nm.data, dd, k, p₀, []⟩ :: (collapseTo st d).spine⟩ Ns) d := by
        rw [← collapseTo_collapseTo st₂ d (d + 1) (Nat.le_succ d), hcol₂,
          collapseTo_of_ge _ (d + 1) (le_of_eq hlen₁)]
      rw [h1, attachAll_cons_spine,
        collapseTo_of_length_succ _ d (by simp [hclen]), popOne_close_attach]
      simp [Frame.close]

theorem buildLoop_renderF : ∀ (L : List Node) (d k : Nat) (st : BState),
    wfForest L = true →
    d ≤ st.spine.length →
    (L ≠ [] → d > 0 → ∃ f rest, (collapseTo st d).spine = f :: rest ∧ f.isDir = true) →
    ∃ st' Ns, buildLoop 2 st (plForest L d k).1 = .ok st' ∧
      stripForest Ns = stripForest L ∧
      collapseTo st' d = attachAll (collapseTo st d) Ns ∧
      d ≤ st'.spine.length
  | [], d, k, st => by
    intro _ hlen _
    exact ⟨st, [], rfl, rfl, rfl, hlen⟩
  | x :: xs, d, k, st => by
    intro hwf hlen hdir
    rw [wfForest] at hwf
    simp only [Bool.and_eq_true] at hwf
    obtain ⟨st₁, N, hloop₁, hstrip₁, hcol₁, hlen₁⟩ :=
      buildLoop_renderN x d k st hwf.1 hlen (fun hd => hdir (by simp) hd)
    have hdir₂ : xs ≠ [] → d > 0 →
        ∃ f rest, (collapseTo st₁ d).spine = f :: rest ∧ f.isDir = true := by
      intro _ hd
      obtain ⟨f, rest, hsp, hfd⟩ := hdir (by simp) hd
      refine ⟨{ f with childrenRev := N :: f.childrenRev }, rest, ?_, hfd⟩
      rw [hcol₁, attachTop_of_spine _ _ f rest hsp]
    obtain ⟨st₂, Ns, hloop₂, hstrip₂, hcol₂, hlen₂⟩ :=
      buildLoop_renderF xs d (plNode x d k).2 st₁ hwf.2 hlen₁ hdir₂
    refine ⟨st₂, N :: Ns, ?_, ?_, ?_, hlen₂⟩
    · rw [show (plForest (x :: xs) d k).1 =
          (plNode x d k).1 ++ (plForest xs d (plNode x d k).2).1 from rfl]
      rw [buildLoop_append_ok 2 st st₁ _ _ hloop₁]
      exact hloop₂
    · rw [stripForest, stripForest, hstrip₁, hstrip₂]
    · rw [hcol₂, hcol₁]
      rfl

end

end Chassis

namespace Chassis

theorem plForest_cons_shape (x : Node) (xs : List Node) (d k : Nat) :
    ∃ pl tl, (plForest (x :: xs) d k).1 = pl :: tl ∧ pl.indent = 2 * d := by
  cases x with
  | mk nm dd cs p li => exact ⟨⟨nm.data, 2 * d, icOf d, dd, false, k⟩, _, rfl, rfl⟩

/-- Re-building a tree from the parsed lines of a rendered well-formed
forest reconstructs that forest up to `path`/`line` metadata. -/
theorem buildTree_render (H : List Node) (hwf : wfForest H = true) :
    ∃ G, buildTree 2 (plForest H 0 1).1 = .ok G ∧ stripForest G = stripForest H := by
  cases H with
  | nil => exact ⟨[], rfl, rfl⟩
  | cons x xs =>
    obtain ⟨st', Ns, hloop, hstrip, hcol, _⟩ :=
      buildLoop_renderF (x :: xs) 0 1 ⟨[], []⟩ hwf (Nat.zero_le _)
        (fun _ h0 => absurd h0 (by omega))
    refine ⟨Ns, ?_, hstrip⟩
    obtain ⟨pl₀, tl, hsh, hind0⟩ := plForest_cons_shape x xs 0 1
    rw [buildTree.eq_def, hsh]
    simp only []
    rw [if_neg (show ¬(pl₀.indent > 0) from by rw [hind0]; omega)]
    simp only [Bind.bind, Except.bind]
    rw [← hsh, hloop]
    simp only [pure, Except.pure, Except.ok.injEq]
    rw [hcol, show collapseTo ⟨[], []⟩ 0 = (⟨[], []⟩ : BState) from rfl, attachAll_nil_spine]
    simp

/-- Re-parsing the simple rendering of a well-formed forest succeeds and
reconstructs the forest up to `path`/`line` metadata. -/
theorem plainParse_render (H : List Node) (hwf : wfForest H = true) :
    ∃ G, plainParse (renderPlainForest H 0) = .ok G ∧ stripForest G = stripForest H := by
  cases H with
  | nil => exact ⟨[], rfl, rfl⟩
  | cons x xs =>
    obtain ⟨G, hbt, hstrip⟩ := buildTree_render (x :: xs) hwf
    refine ⟨G, ?_, hstrip⟩
    rw [plainParse, PlainTextParser.Parse, splitLines_render (x :: xs) hwf,
      collect_render (x :: xs) hwf]
    simp only [Bind.bind, Except.bind]
    obtain ⟨pl₀, tl, hsh, hind0⟩ := plForest_cons_shape x xs 0 1
    rw [if_neg (show ¬((plForest (x :: xs) 0 1).1 = []) from by
      rw [hsh]; exact List.cons_ne_nil _ _)]
    exact hbt

mutual

theorem nodeUpTo_of_strip : ∀ (a b : Node), stripNode a = stripNode b → NodeUpTo a b
  | .mk nm₁ d₁ cs₁ p₁ l₁, .mk nm₂ d₂ cs₂ p₂ l₂, h => by
    rw [stripNode, stripNode] at h
    injection h with h1 h2 h3 h4 h5
    exact NodeUpTo.mk h1 h2 (forestUpTo_of_strip cs₁ cs₂ h3)

theorem forestUpTo_of_strip : ∀ (A B : List Node), stripForest A = stripForest B → ForestUpTo A B
  | [], [], _ => ForestUpTo.nil
  | [], b :: bs, h => by
    rw [stripForest, stripForest] at h
    exact List.noConfusion h
  | a :: as, [], h => by
    rw [stripForest, stripForest] at h
    exact List.noConfusion h
  | a :: as, b :: bs, h => by
    rw [stripForest, stripForest] at h
    injection h with h1 h2
    exact ForestUpTo.cons (nodeUpTo_of_strip a b h1) (forestUpTo_of_strip as bs h2)

end

/-- C5: round-trip through the simple indented exporter.  For every input the
plain-text parser accepts (with forest `F`), rendering `F` with
`ToTreeSimple` and re-parsing the rendered text succeeds, and the re-parsed
forest is exactly the sibling-order normalization of `F` (the recursively
sorted forest: directories before files, case-insensitive name order) up to
the `path`/`line` metadata — in particular it equals `F` up to sibling
reordering (`ForestUpTo`): same names, directory flags and child
structure. -/
theorem C5_roundtrip (s : String) (F : List Node) (h : plainParse s = .ok F) :
    ∃ G, plainParse (ToTreeSimple F).1 = .ok G ∧
      stripForest G = stripForest (sortForest F) ∧ ForestUpTo F G := by
  have hwf := plainParse_wf s F h
  have hwfs := wfForest_sortForest F hwf
  obtain ⟨G, hp, hstrip⟩ := plainParse_render (sortForest F) hwfs
  refine ⟨G, ?_, hstrip, ?_⟩
  · rw [toTreeSimple_eq]
    exact hp
  · exact ForestUpTo.trans (forestUpTo_sortForest F)
      (forestUpTo_of_strip _ _ hstrip.symm)

end Chassis

namespace Chassis

/-- Witness for the C5 round-trip at a concrete input: a root file `b`
followed by a root directory `a` with child file `c`; the re-parsed
rendering is the normalized forest (`a` before `b`). -/
theorem C5_witness :
    plainParse "b\na/\n  c" =
      .ok [Node.mk "b" false [] "" 1,
           Node.mk "a" true [Node.mk "c" false [] "/c" 3] "" 2] ∧
    ∃ G, plainParse (ToTreeSimple
        [Node.mk "b" false [] "" 1,
         Node.mk "a" true [Node.mk "c" false [] "/c" 3] "" 2]).1 = .ok G ∧
      stripForest G = stripForest (sortForest
        [Node.mk "b" false [] "" 1,
         Node.mk "a" true [Node.mk "c" false [] "/c" 3] "" 2]) ∧
      ForestUpTo
        [Node.mk "b" false [] "" 1,
         Node.mk "a" true [Node.mk "c" false [] "/c" 3] "" 2] G :=
  ⟨by rfl,
   C5_roundtrip "b\na/\n  c"
     [Node.mk "b" false [] "" 1,
      Node.mk "a" true [Node.mk "c" false [] "/c" 3] "" 2] (by rfl)⟩

end Chassis
